import Mathlib

/-!
# Collections: the per-vbucket manifest

A shallow embedding of `engines/ep/src/collections/vbucket_manifest.cc`
(`Collections::VB::Manifest`): the map of collections of one vbucket, the
diff against a bucket manifest, the system events queued for each change, and
the persisted (serialised) form of the manifest with its in-place patching.

Conventions of the embedding
* C++ exceptions are `Except Error _`; a `boost::optional` is an `Option`.
  The error of `Manifest.completeDeletion` holds the state at the `throw` as
  well.
* Member functions that mutate `*this` take the manifest and return the new
  one; functions that also queue into the vbucket thread the `VBucket` through.
* Sequence numbers are `int64_t` in the source and `Int` here: they are only
  compared and copied, never computed with.
* `entryCount` is a 32 bit unsigned field (the decode loop counts it with a
  `uint32_t`), its decrement is taken modulo `2 ^ 32`.
* The container of the manifest is a list of its elements in iteration order.
  What the source takes from declarations that are not part of it (the
  sentinel seqno, the reserved identifiers, where the container puts a new
  element) is collected in `Config`, and every statement holds for every
  `Config`.
-/

namespace Collections

/-- The type `CollectionID`: a 32 bit identifier. -/
abbrev CollectionID := Fin 4294967296
abbrev ScopeID := Nat
abbrev ManifestUid := Nat
abbrev ScopeCollectionPair := ScopeID × CollectionID

/-- The event kinds `patchSerialisedData` tells apart: it reads the kind back
from the item's 32 bit flags, so every other flag value is a kind as well. -/
inductive SystemEvent where
  | Collection
  | DeleteCollectionHard
  | Other (flags : Nat)
  deriving DecidableEq, Repr

/-- The exceptions the manifest code raises, and `out_of_range` for an access
past the end of a flatbuffers vector (an assertion of the library). -/
inductive Error where
  | invalid_argument
  | logic_error
  | out_of_range
  deriving DecidableEq, Repr

/-- Modelled from the spec: `Collections::Manifest` (declared in
`collections/manifest.h`), the parsed bucket manifest: a uid and, per scope, the
member collection ids, in the order the scopes and their collections are
iterated. -/
structure Manifest where
  uid : ManifestUid
  scopes : List (ScopeID × List CollectionID)
  deriving DecidableEq, Repr

/-- Modelled from the spec: `Collections::Manifest::findCollection`, here the
test `findCollection(c) != end()`: the collection is a member of some scope. -/
def Manifest.findCollection (manifest : Manifest) (c : CollectionID) : Bool :=
  manifest.scopes.any (fun s => decide (c ∈ s.2))

/-- The (scope, collection) pairs of a bucket manifest in the order the nested
loops of `processManifest` visit them. -/
def Manifest.listed (manifest : Manifest) : List ScopeCollectionPair :=
  manifest.scopes.flatMap (fun s => s.2.map (fun c => (s.1, c)))

namespace VB

/-- Modelled from the spec: `Collections::VB::ManifestEntry` (declared in
`collections/vbucket_manifest_entry.h`): scope, start and end seqno and the
item count of one collection. -/
structure ManifestEntry where
  scopeID : ScopeID
  startSeqno : Int
  endSeqno : Int
  diskCount : Nat
  deriving DecidableEq, Repr

/-- The type `Manifest::container`: the entries in iteration order. The keys of
a container are distinct (see `container.WF`). -/
abbrev container := List (CollectionID × ManifestEntry)

/-- One table of the `entries` vector of the flatbuffers schema. -/
structure SerialisedManifestEntry where
  startSeqno : Int
  endSeqno : Int
  scopeId : ScopeID
  collectionId : CollectionID
  deriving DecidableEq, Repr

/-- Modelled from the spec: the root table `SerialisedManifest` of the
flatbuffers schema: a header (uid, entry count) and the entries. The `entries`
list holds the physical entries, `entryCount` is the header field. -/
structure SerialisedManifest where
  uid : ManifestUid
  entryCount : Nat
  entries : List SerialisedManifestEntry
  deriving DecidableEq, Repr

/-- Modelled from the spec: what the manifest code takes from declarations
outside the sources. `state_collection_open` is the sentinel
`StoredValue::state_collection_open`; `DefaultCollection`, `SystemCollection`
and `DefaultScope` are the reserved identifiers `CollectionID::Default`,
`CollectionID::System` and `ScopeID::Default`; `arrange` is the iteration
order of the container after an insertion: the source only iterates, finds,
emplaces and erases, so any rearrangement of the elements is allowed
(`arrange = id` is a container that iterates in insertion order).
`mutate_startSeqno`, `mutate_endSeqno` and `mutate_entryCount` are the results
of the calls of the same names of the generated flatbuffers code, made on an
entry or on the root table with the value to write: whether the field could be
written in place. A flatbuffers table reads a field that is not stored as the
default value 0, so a field that holds another value is stored, and a stored
field is written in place: these calls succeed on a field that holds a value
other than 0 (`mutate_startSeqno_stored` and its like); on a field that holds
0 they may fail. -/
structure Config where
  state_collection_open : Int
  DefaultCollection : CollectionID
  SystemCollection : CollectionID
  DefaultScope : ScopeID
  arrange : container → container
  arrange_perm : ∀ l, (arrange l).Perm l
  mutate_startSeqno : SerialisedManifestEntry → Int → Bool
  mutate_endSeqno : SerialisedManifestEntry → Int → Bool
  mutate_entryCount : SerialisedManifest → Nat → Bool
  mutate_startSeqno_stored : ∀ e v, e.startSeqno ≠ 0 → mutate_startSeqno e v = true
  mutate_endSeqno_stored : ∀ e v, e.endSeqno ≠ 0 → mutate_endSeqno e v = true
  mutate_entryCount_stored : ∀ s v, s.entryCount ≠ 0 → mutate_entryCount s v = true

/-- Modelled from the spec: `ManifestEntry::isOpen`, the end seqno is the
sentinel. -/
def ManifestEntry.isOpen (cfg : Config) (e : ManifestEntry) : Bool :=
  decide (e.endSeqno = cfg.state_collection_open)

/-- Modelled from the spec: `ManifestEntry::isDeleting`, the end seqno is set. -/
def ManifestEntry.isDeleting (cfg : Config) (e : ManifestEntry) : Bool :=
  !e.isOpen cfg

/-- Modelled from the spec: `ManifestEntry::setStartSeqno`. -/
def ManifestEntry.setStartSeqno (e : ManifestEntry) (seqno : Int) : ManifestEntry :=
  { e with startSeqno := seqno }

/-- Modelled from the spec: `ManifestEntry::setEndSeqno`. -/
def ManifestEntry.setEndSeqno (e : ManifestEntry) (seqno : Int) : ManifestEntry :=
  { e with endSeqno := seqno }

/-- Modelled from the spec: `ManifestEntry::completeDeletion`, which names the
system event of the deletion step: the final removal (hard delete) for an
entry that is Deleting. What the step is for an entry that is not Deleting is
not fixed by the spec and is the argument `intermediate`. -/
def ManifestEntry.completeDeletion (cfg : Config)
    (intermediate : Except Error SystemEvent) (e : ManifestEntry) :
    Except Error SystemEvent :=
  if e.isDeleting cfg then .ok SystemEvent.DeleteCollectionHard else intermediate

/-- The projection of an entry that is persisted: scope, start and end seqno. -/
def ManifestEntry.persisted (e : ManifestEntry) : ScopeID × Int × Int :=
  (e.scopeID, e.startSeqno, e.endSeqno)

/-- The member `map.find`: the entry of a collection id, `none` for `end()`. -/
def container.find : container → CollectionID → Option ManifestEntry
  | [], _ => none
  | (k, e) :: rest, c => if k = c then some e else container.find rest c

/-- The member `map.erase` at the position of a key. -/
def container.erase (map : container) (c : CollectionID) : container :=
  map.filter (fun p => decide (p.1 ≠ c))

/-- A write through a reference to the entry of `c`. -/
def container.modify (map : container) (c : CollectionID)
    (f : ManifestEntry → ManifestEntry) : container :=
  map.map (fun p => if p.1 = c then (p.1, f p.2) else p)

/-- The keys of a container are distinct. -/
def container.WF (map : container) : Prop :=
  (map.map Prod.fst).Nodup

/-- Modelled from the spec: the type `PersistedManifest`, a byte vector, by
what the constructor makes of it: no bytes, bytes the structural verifier
(`VerifySerialisedManifestBuffer`, generated from the schema) rejects, or a
verified `SerialisedManifest`. The verifier checks the layout of the buffer;
the spec gives it no say on the value of the header's entry count. -/
inductive PersistedManifest where
  | empty
  | invalid
  | buffer (s : SerialisedManifest)
  deriving DecidableEq, Repr

/-- The system event item: kind (the item's flags), the collection id in the
key, the serialised manifest as value, the deleted flag and the seqno. -/
structure Item where
  flags : SystemEvent
  keyExtra : List Nat
  data : PersistedManifest
  deleted : Bool
  bySeqno : Int
  deriving DecidableEq, Repr

/-- Modelled from the spec: the vbucket as the log collaborator. `assign n` is
the seqno the log gives to an item queued without explicit seqno when `n` items
were queued before it; `queued` holds the queued items, each with the explicit
seqno it was queued with; `checkpoints` counts `createNewCheckpoint`. -/
structure VBucket where
  assign : Nat → Int
  queued : List (Item × Option Int)
  checkpoints : Nat

/-- Modelled from the spec: `VBucket::queueItem(item, explicitSeqno?)`, which
returns the assigned seqno. -/
def VBucket.queueItem (vb : VBucket) (item : Item) (seq : Option Int) :
    Int × VBucket :=
  let seqno := match seq with
    | some s => s
    | none => vb.assign vb.queued.length
  (seqno, { vb with queued := vb.queued ++ [({ item with bySeqno := seqno }, seq)] })

/-- Modelled from the spec: `CheckpointManager::createNewCheckpoint`. -/
def VBucket.createNewCheckpoint (vb : VBucket) : VBucket :=
  { vb with checkpoints := vb.checkpoints + 1 }

/-- The state of `Collections::VB::Manifest`. `nDeletingCollections` is kept
as an integer, so that a decrement at zero stays visible. -/
structure Manifest where
  map : container
  manifestUid : ManifestUid
  defaultCollectionExists : Bool
  greatestEndSeqno : Int
  nDeletingCollections : Int
  deriving DecidableEq, Repr

/-- The member `Manifest::trackEndSeqno`. -/
def Manifest.trackEndSeqno (cfg : Config) (m : Manifest) (seqno : Int) : Manifest :=
  let m1 := { m with nDeletingCollections := m.nDeletingCollections + 1 }
  if seqno > m1.greatestEndSeqno ∨ m1.greatestEndSeqno = cfg.state_collection_open then
    { m1 with greatestEndSeqno := seqno }
  else
    m1

/-- The member `Manifest::addNewCollectionEntry(identifiers, startSeqno,
endSeqno)`. The reference it returns is the entry of `identifiers.second` in
the new map. -/
def Manifest.addNewCollectionEntry (cfg : Config) (m : Manifest)
    (identifiers : ScopeCollectionPair) (startSeqno endSeqno : Int) :
    Except Error Manifest :=
  match container.find m.map identifiers.2 with
  | some _ => .error Error.logic_error
  | none =>
    let entry : ManifestEntry := ⟨identifiers.1, startSeqno, endSeqno, 0⟩
    let m1 := { m with map := cfg.arrange (m.map ++ [(identifiers.2, entry)]) }
    let m2 :=
      if identifiers.2 = cfg.DefaultCollection then
        { m1 with defaultCollectionExists := entry.isOpen cfg }
      else m1
    if entry.isDeleting cfg then .ok (m2.trackEndSeqno cfg endSeqno) else .ok m2

/-- The member `Manifest::getManifestEntry(CollectionID)`. -/
def Manifest.getManifestEntry (m : Manifest) (identifier : CollectionID) :
    Except Error ManifestEntry :=
  match container.find m.map identifier with
  | none => .error Error.logic_error
  | some e => .ok e

/-- The loop of `populateWithSerialisedData` over the map: `finalEntry` and
`entriesVector`. -/
def Manifest.populateLoop (c : CollectionID) :
    container → Option ManifestEntry → List SerialisedManifestEntry →
    Option ManifestEntry × List SerialisedManifestEntry
  | [], finalEntry, entriesVector => (finalEntry, entriesVector)
  | (k, e) :: rest, finalEntry, entriesVector =>
    if k = c then
      Manifest.populateLoop c rest (some e) entriesVector
    else
      Manifest.populateLoop c rest finalEntry
        (entriesVector ++ [⟨e.startSeqno, e.endSeqno, e.scopeID, k⟩])

/-- The member `Manifest::populateWithSerialisedData`: the serialised manifest
the builder holds afterwards. The builder bounds the buffer below `2 ^ 31`
bytes, so the size of `entriesVector` fits the 32 bit `entryCount`. -/
def Manifest.populateWithSerialisedData (cfg : Config) (m : Manifest)
    (identifiers : ScopeCollectionPair) : SerialisedManifest :=
  let r := Manifest.populateLoop identifiers.2 m.map none []
  let startSeqno := match r.1 with
    | some finalEntry => finalEntry.startSeqno
    | none => cfg.state_collection_open
  let endSeqno := match r.1 with
    | some finalEntry => finalEntry.endSeqno
    | none => cfg.state_collection_open
  let entriesVector := r.2 ++ [⟨startSeqno, endSeqno, identifiers.1, identifiers.2⟩]
  { uid := m.manifestUid, entryCount := entriesVector.length, entries := entriesVector }

/-- The member `Manifest::makeCollectionIdIntoString`: the four bytes of the
32 bit collection id. -/
def Manifest.makeCollectionIdIntoString (collection : CollectionID) : List Nat :=
  [collection.val % 256, collection.val / 256 % 256, collection.val / 65536 % 256,
    collection.val / 16777216 % 256]

/-- The member `Manifest::createSystemEvent`. The seqno of the item is a
placeholder (`0` without explicit seqno) until `queueItem` assigns it. -/
def Manifest.createSystemEvent (cfg : Config) (m : Manifest) (se : SystemEvent)
    (identifiers : ScopeCollectionPair) (deleted : Bool) (seqno : Option Int) : Item :=
  { flags := se
    keyExtra := Manifest.makeCollectionIdIntoString identifiers.2
    data := PersistedManifest.buffer (m.populateWithSerialisedData cfg identifiers)
    deleted := deleted
    bySeqno := seqno.getD 0 }

/-- The member `Manifest::queueSystemEvent`. -/
def Manifest.queueSystemEvent (cfg : Config) (m : Manifest) (vb : VBucket)
    (se : SystemEvent) (identifiers : ScopeCollectionPair) (deleted : Bool)
    (seq : Option Int) : Int × VBucket :=
  let rv := vb.queueItem (m.createSystemEvent cfg se identifiers deleted seq) seq
  if seq.isNone then (rv.1, rv.2.createNewCheckpoint) else rv

/-- The member `Manifest::addCollection`. It calls
`addNewCollectionEntry(identifiers)` with the default seqno arguments of the
declaration, which is outside the sources. Modelled from the spec: a seqno
that is not yet known is the sentinel (the source: "Specify a non-zero
start"), so both defaults are `state_collection_open`. -/
def Manifest.addCollection (cfg : Config) (m : Manifest) (vb : VBucket)
    (manifestUid : ManifestUid) (identifiers : ScopeCollectionPair)
    (optionalSeqno : Option Int) : Except Error (Manifest × VBucket) :=
  match m.addNewCollectionEntry cfg identifiers cfg.state_collection_open
      cfg.state_collection_open with
  | .error x => .error x
  | .ok m1 =>
    let m2 := { m1 with manifestUid := manifestUid }
    let q := m2.queueSystemEvent cfg vb SystemEvent.Collection identifiers false optionalSeqno
    .ok ({ m2 with map := container.modify m2.map identifiers.2
                      (fun e => e.setStartSeqno q.1) }, q.2)

/-- The member `Manifest::beginCollectionDelete`. -/
def Manifest.beginCollectionDelete (cfg : Config) (m : Manifest) (vb : VBucket)
    (manifestUid : ManifestUid) (identifiers : ScopeCollectionPair)
    (optionalSeqno : Option Int) : Except Error (Manifest × VBucket) :=
  match m.getManifestEntry identifiers.2 with
  | .error x => .error x
  | .ok _ =>
    let m1 := { m with manifestUid := manifestUid }
    let q := m1.queueSystemEvent cfg vb SystemEvent.Collection identifiers true optionalSeqno
    let m2 :=
      if identifiers.2 = cfg.DefaultCollection then
        { m1 with defaultCollectionExists := false }
      else m1
    let m3 := { m2 with map := container.modify m2.map identifiers.2
                          (fun e => e.setEndSeqno q.1) }
    .ok (m3.trackEndSeqno cfg q.1, q.2)

/-- The member `Manifest::completeDeletion`. An exception leaves the function
with the manifest and the vbucket as they are at the `throw`: the error result
holds them next to the exception, so that what a raise leaves behind can be
stated. -/
def Manifest.completeDeletion (cfg : Config) (intermediate : Except Error SystemEvent)
    (m : Manifest) (vb : VBucket) (collectionID : CollectionID) :
    Except (Error × Manifest × VBucket) (Manifest × VBucket) :=
  match container.find m.map collectionID with
  | none => .error (Error.logic_error, m, vb)
  | some entry =>
    match entry.completeDeletion cfg intermediate with
    | .error x => .error (x, m, vb)
    | .ok se =>
      let scopeID := entry.scopeID
      let m1 :=
        if se = SystemEvent.DeleteCollectionHard then
          { m with map := container.erase m.map collectionID }
        else m
      let m2 := { m1 with nDeletingCollections := m1.nDeletingCollections - 1 }
      let m3 :=
        if m2.nDeletingCollections = 0 then
          { m2 with greatestEndSeqno := cfg.state_collection_open }
        else m2
      .ok (m3, (m3.queueSystemEvent cfg vb se (scopeID, collectionID) false none).2)

/-- The first loop of `processManifest`: the open entries the bucket manifest
does not list. -/
def Manifest.processDeletions (cfg : Config) (manifest : Collections.Manifest) :
    container → List ScopeCollectionPair → List ScopeCollectionPair
  | [], deletions => deletions
  | (k, e) :: rest, deletions =>
    if e.isOpen cfg ∧ manifest.findCollection k = false then
      Manifest.processDeletions cfg manifest rest (deletions ++ [(e.scopeID, k)])
    else
      Manifest.processDeletions cfg manifest rest deletions

/-- The inner loop of `processManifest` over the collections of one scope;
`none` is the early `return {}`. -/
def Manifest.processCollections (cfg : Config) (map : container) (scope : ScopeID) :
    List CollectionID → List ScopeCollectionPair → Option (List ScopeCollectionPair)
  | [], additions => some additions
  | c :: rest, additions =>
    match container.find map c with
    | none =>
      Manifest.processCollections cfg map scope rest (additions ++ [(scope, c)])
    | some e =>
      if e.isDeleting cfg then none
      else Manifest.processCollections cfg map scope rest additions

/-- The outer loop of `processManifest` over the scopes. -/
def Manifest.processScopes (cfg : Config) (map : container) :
    List (ScopeID × List CollectionID) → List ScopeCollectionPair →
    Option (List ScopeCollectionPair)
  | [], additions => some additions
  | s :: rest, additions =>
    match Manifest.processCollections cfg map s.1 s.2 additions with
    | none => none
    | some additions1 => Manifest.processScopes cfg map rest additions1

/-- The member `Manifest::processManifest`: `(additions, deletions)`. -/
def Manifest.processManifest (cfg : Config) (m : Manifest)
    (manifest : Collections.Manifest) :
    Option (List ScopeCollectionPair × List ScopeCollectionPair) :=
  let deletions := Manifest.processDeletions cfg manifest m.map []
  match Manifest.processScopes cfg m.map manifest.scopes [] with
  | none => none
  | some additions => some (additions, deletions)

/-- The loop of `applyChanges`: `update(manifestUid, pair, no-seqno)` for each
pair, with the manifest uid read at each call. -/
def Manifest.applyEach
    (update : Manifest → VBucket → ManifestUid → ScopeCollectionPair → Option Int →
      Except Error (Manifest × VBucket)) :
    Manifest → VBucket → List ScopeCollectionPair → Except Error (Manifest × VBucket)
  | m, vb, [] => .ok (m, vb)
  | m, vb, pair :: rest =>
    match update m vb m.manifestUid pair none with
    | .error x => .error x
    | .ok r => Manifest.applyEach update r.1 r.2 rest

/-- The member `Manifest::applyChanges`: the last change is taken off and
returned, the others are applied. -/
def Manifest.applyChanges
    (update : Manifest → VBucket → ManifestUid → ScopeCollectionPair → Option Int →
      Except Error (Manifest × VBucket))
    (m : Manifest) (vb : VBucket) (changes : List ScopeCollectionPair) :
    Except Error (Option ScopeCollectionPair × Manifest × VBucket) :=
  match Manifest.applyEach update m vb changes.dropLast with
  | .error x => .error x
  | .ok r => .ok (changes.getLast?, r.1, r.2)

/-- The additions half of `Manifest::update`. -/
def Manifest.updateAdditions (cfg : Config) (m : Manifest) (vb : VBucket)
    (manifest : Collections.Manifest) (additions : List ScopeCollectionPair) :
    Except Error (Bool × Manifest × VBucket) :=
  match Manifest.applyChanges (Manifest.addCollection cfg) m vb additions with
  | .error x => .error x
  | .ok (none, m1, vb1) => .ok (true, m1, vb1)
  | .ok (some finalAddition, m1, vb1) =>
    match m1.addCollection cfg vb1 manifest.uid finalAddition none with
    | .error x => .error x
    | .ok r => .ok (true, r.1, r.2)

/-- The member `Manifest::update`. -/
def Manifest.update (cfg : Config) (m : Manifest) (vb : VBucket)
    (manifest : Collections.Manifest) : Except Error (Bool × Manifest × VBucket) :=
  match m.processManifest cfg manifest with
  | none => .ok (false, m, vb)
  | some (additions, deletions) =>
    match Manifest.applyChanges (Manifest.beginCollectionDelete cfg) m vb deletions with
    | .error x => .error x
    | .ok (finalDeletion, m1, vb1) =>
      match finalDeletion with
      | some fd =>
        if additions.isEmpty then
          match m1.beginCollectionDelete cfg vb1 manifest.uid fd none with
          | .error x => .error x
          | .ok r => .ok (true, r.1, r.2)
        else
          match m1.beginCollectionDelete cfg vb1 m1.manifestUid fd none with
          | .error x => .error x
          | .ok r => Manifest.updateAdditions cfg r.1 r.2 manifest additions
      | none => Manifest.updateAdditions cfg m1 vb1 manifest additions

/-- The decode loop of the constructor: `ii` runs up to `entryCount`, each
entry is read with `entries->Get(ii)` and inserted. -/
def Manifest.decodeLoop (cfg : Config) (entries : List SerialisedManifestEntry) :
    Nat → Nat → Manifest → Except Error Manifest
  | 0, _, m => .ok m
  | n + 1, ii, m =>
    match entries.get? ii with
    | none => .error Error.out_of_range
    | some entry =>
      match m.addNewCollectionEntry cfg (entry.scopeId, entry.collectionId)
          entry.startSeqno entry.endSeqno with
      | .error x => .error x
      | .ok m1 => Manifest.decodeLoop cfg entries n (ii + 1) m1

/-- The manifest before the constructor body runs: the member initialisers of
the constructor, and 0 for `manifestUid`, which the constructor leaves to the
initialiser of the declaration. -/
def Manifest.initial (cfg : Config) : Manifest :=
  { map := []
    manifestUid := 0
    defaultCollectionExists := false
    greatestEndSeqno := cfg.state_collection_open
    nDeletingCollections := 0 }

/-- The constructor `Manifest::Manifest(const PersistedManifest& data)`. -/
def Manifest.construct (cfg : Config) (data : PersistedManifest) : Except Error Manifest :=
  match data with
  | .empty =>
    match (Manifest.initial cfg).addNewCollectionEntry cfg
        (cfg.DefaultScope, cfg.DefaultCollection) 0 cfg.state_collection_open with
    | .error x => .error x
    | .ok m => .ok { m with defaultCollectionExists := true }
  | .invalid => .error Error.invalid_argument
  | .buffer manifest =>
    Manifest.decodeLoop cfg manifest.entries manifest.entryCount 0
      { Manifest.initial cfg with manifestUid := manifest.uid }

/-- The write `mutable_entries()->GetMutableObject(size - 1)->mutate_...`: a
change of the last physical entry; there is none in an empty vector. -/
def patchLast (f : SerialisedManifestEntry → SerialisedManifestEntry) :
    List SerialisedManifestEntry → Option (List SerialisedManifestEntry)
  | [] => none
  | [e] => some [f e]
  | e :: e1 :: rest => (patchLast f (e1 :: rest)).map (fun l => e :: l)

/-- The static member `Manifest::patchSerialisedData`. Reading the root of an
item value that holds no serialised manifest has no defined result, it is an
error here. `failed` is the negated result of the `mutate_` call of the
generated code; the `std::logic_error` thrown for it is `Error.logic_error`. -/
def Manifest.patchSerialisedData (cfg : Config) (collectionsEventItem : Item) :
    Except Error PersistedManifest :=
  if collectionsEventItem.flags = SystemEvent.Collection then
    match collectionsEventItem.data with
    | .buffer manifest =>
      match manifest.entries.getLast? with
      | none => .error Error.out_of_range
      | some mutatedEntry =>
        let failed : Bool :=
          if collectionsEventItem.deleted then
            !cfg.mutate_endSeqno mutatedEntry collectionsEventItem.bySeqno
          else
            !cfg.mutate_startSeqno mutatedEntry collectionsEventItem.bySeqno
        if failed then .error Error.logic_error
        else
          let f : SerialisedManifestEntry → SerialisedManifestEntry :=
            if collectionsEventItem.deleted then
              fun e => { e with endSeqno := collectionsEventItem.bySeqno }
            else
              fun e => { e with startSeqno := collectionsEventItem.bySeqno }
          match patchLast f manifest.entries with
          | none => .error Error.out_of_range
          | some entries => .ok (.buffer { manifest with entries := entries })
    | _ => .error Error.invalid_argument
  else if collectionsEventItem.flags = SystemEvent.DeleteCollectionHard then
    match collectionsEventItem.data with
    | .buffer manifest =>
      if !cfg.mutate_entryCount manifest
          ((manifest.entryCount + 4294967296 - 1) % 4294967296) then
        .error Error.logic_error
      else
        .ok (.buffer { manifest with
          entryCount := (manifest.entryCount + 4294967296 - 1) % 4294967296 })
    | _ => .error Error.invalid_argument
  else
    .ok collectionsEventItem.data

/-- The result type `SystemEventData`: manifest uid, scope and collection of
the entry an event changed. -/
structure SystemEventData where
  manifestUid : ManifestUid
  sid : ScopeID
  cid : CollectionID
  deriving DecidableEq, Repr

/-- The static member `Manifest::getSystemEventData`: the uid of a serialised
manifest and the identifiers of its last physical entry (`none` where there is
no such entry to read). -/
def Manifest.getSystemEventData (serialisedManifest : PersistedManifest) :
    Option SystemEventData :=
  match serialisedManifest with
  | .buffer manifest =>
    match manifest.entries.getLast? with
    | some mutatedEntry =>
      some ⟨manifest.uid, mutatedEntry.scopeId, mutatedEntry.collectionId⟩
    | none => none
  | _ => none

/-- A configuration whose container iterates in insertion order. A field of a
serialised table is stored when it holds a value other than 0, and a write of
0 to a field that is not stored is taken as done. -/
def Config.insertionOrder : Config :=
  { state_collection_open := -6
    DefaultCollection := 0
    SystemCollection := 1
    DefaultScope := 0
    arrange := fun l => l
    arrange_perm := fun l => List.Perm.refl l
    mutate_startSeqno := fun e v => decide (e.startSeqno ≠ 0 ∨ v = 0)
    mutate_endSeqno := fun e v => decide (e.endSeqno ≠ 0 ∨ v = 0)
    mutate_entryCount := fun s v => decide (s.entryCount ≠ 0 ∨ v = 0)
    mutate_startSeqno_stored := fun e v h => by simp [h]
    mutate_endSeqno_stored := fun e v h => by simp [h]
    mutate_entryCount_stored := fun s v h => by simp [h] }

/-- The rearrangement of a container that puts a newly appended element
first. -/
def frontArrange (l : container) : container :=
  match l.getLast? with
  | some y => y :: l.dropLast
  | none => l

/-- A configuration whose container puts a newly inserted element first (the
node list of a hash map whose insertions go to the head); the fields of a
serialised table are stored as in `Config.insertionOrder`. -/
def Config.frontInsertion : Config :=
  { state_collection_open := -6
    DefaultCollection := 0
    SystemCollection := 1
    DefaultScope := 0
    arrange := frontArrange
    arrange_perm := fun l => by
      unfold frontArrange
      cases h : l.getLast? with
      | none => exact List.Perm.refl _
      | some y =>
        have h2 : l.dropLast ++ [y] = l := List.dropLast_append_getLast? y h
        exact (List.perm_append_singleton y _).symm.trans (List.Perm.of_eq h2)
    mutate_startSeqno := fun e v => decide (e.startSeqno ≠ 0 ∨ v = 0)
    mutate_endSeqno := fun e v => decide (e.endSeqno ≠ 0 ∨ v = 0)
    mutate_entryCount := fun s v => decide (s.entryCount ≠ 0 ∨ v = 0)
    mutate_startSeqno_stored := fun e v h => by simp [h]
    mutate_endSeqno_stored := fun e v h => by simp [h]
    mutate_entryCount_stored := fun s v h => by simp [h] }

/-- A vbucket with nothing queued whose log assigns the seqnos 1, 2, 3, ... -/
def VBucket.fresh : VBucket :=
  { assign := fun n => (n : Int) + 1, queued := [], checkpoints := 0 }

/-- A pair of the bucket manifest names a collection that is Deleting in the map. -/
def conflicts (cfg : Config) (map : container) (p : ScopeCollectionPair) : Bool :=
  match container.find map p.2 with
  | some e => e.isDeleting cfg
  | none => false

/-- A pair of the bucket manifest names a collection with no entry in the map. -/
def isNew (map : container) (p : ScopeCollectionPair) : Bool :=
  (container.find map p.2).isNone

/-- A manifest with the default collection open and collection 5 Deleting
since seqno 7. -/
def Manifest.sampleDeleting : Manifest :=
  { map := [(0, ⟨0, 0, -6, 0⟩), (5, ⟨0, 3, 7, 0⟩)]
    manifestUid := 1
    defaultCollectionExists := true
    greatestEndSeqno := 7
    nDeletingCollections := 1 }

/-- A manifest with the default collection and the collections 8 and 9 of
scope 2, all open. -/
def Manifest.sampleOpen : Manifest :=
  { map := [(0, ⟨0, 0, -6, 0⟩), (8, ⟨2, 4, -6, 0⟩), (9, ⟨2, 5, -6, 3⟩)]
    manifestUid := 1
    defaultCollectionExists := true
    greatestEndSeqno := -6
    nDeletingCollections := 0 }

/-- What a queued system event shows: its kind, its deleted flag and the event
data of its payload (manifest uid, scope and collection of the last entry). -/
def Item.summary (i : Item) : SystemEvent × Bool × Option SystemEventData :=
  (i.flags, i.deleted, Manifest.getSystemEventData i.data)

/-- The changes of an update in the order `update` applies them: the deletions
(with the deleted flag their events carry), then the additions. -/
def changeList (additions deletions : List ScopeCollectionPair) :
    List (Bool × ScopeCollectionPair) :=
  deletions.map (fun p => (true, p)) ++ additions.map (fun p => (false, p))

/-- The summary of the Collection event of one change under a manifest uid. -/
def changeEvent (uid : ManifestUid) (ch : Bool × ScopeCollectionPair) :
    SystemEvent × Bool × Option SystemEventData :=
  (SystemEvent.Collection, ch.1, some ⟨uid, ch.2.1, ch.2.2⟩)

/-- The seqno `queueItem` returns: the explicit one, else the one the log
assigns. -/
def VBucket.nextSeqno (vb : VBucket) (seq : Option Int) : Int :=
  match seq with
  | some s => s
  | none => vb.assign vb.queued.length

/-- A bucket manifest with uid 2 that lists the default collection and, in
scope 2, the collections 9 and 11. -/
def sampleTarget : Collections.Manifest :=
  ⟨2, [(0, [0]), (2, [9, 11])]⟩

/-- The serialised copy of a map element, as `CreateSerialisedManifestEntry`
makes it in the loop of `populateWithSerialisedData`. -/
def toSerialised (p : CollectionID × ManifestEntry) : SerialisedManifestEntry :=
  ⟨p.2.startSeqno, p.2.endSeqno, p.2.scopeID, p.1⟩

/-- The map element the constructor makes of a serialised entry. -/
def fromSerialised (s : SerialisedManifestEntry) : CollectionID × ManifestEntry :=
  (s.collectionId, ⟨s.scopeId, s.startSeqno, s.endSeqno, 0⟩)

/-- A manifest whose front inserting container received the collections 3, 5
and 7 in this order. -/
def Manifest.sampleFront : Manifest :=
  { map := [(7, ⟨0, 3, -6, 0⟩), (5, ⟨0, 2, -6, 0⟩), (3, ⟨0, 1, -6, 0⟩)]
    manifestUid := 1
    defaultCollectionExists := false
    greatestEndSeqno := -6
    nDeletingCollections := 0 }

/-- The serialised manifest `populateWithSerialisedData` writes for
`Manifest.sampleFront` when collection 7 is the one that changed. -/
def SerialisedManifest.sampleFront : SerialisedManifest :=
  { uid := 1
    entryCount := 3
    entries := [⟨2, -6, 0, 5⟩, ⟨1, -6, 0, 3⟩, ⟨3, -6, 0, 7⟩] }

/-- The payload of a queued event, once patched, decodes to the manifest `m`:
`patchSerialisedData` and the constructor succeed and give the manifest uid and
the map of `m` (every collection id with the same scope, start and end seqno). -/
def persistsAs (cfg : Config) (item : Item) (m : Manifest) : Prop :=
  ∃ patched d, Manifest.patchSerialisedData cfg item = .ok patched ∧
    Manifest.construct cfg patched = .ok d ∧
    d.manifestUid = m.manifestUid ∧
    ∀ c, (container.find d.map c).map ManifestEntry.persisted =
      (container.find m.map c).map ManifestEntry.persisted

/-- The manifests the operations reach: constructed from a persisted buffer
(empty or not), then changed by successful `update`, `addCollection`,
`beginCollectionDelete` and `completeDeletion` of a collection that is
Deleting. `good` is what holds of every seqno the operations get, the explicit
ones and the ones the log assigns. -/
inductive Reachable (cfg : Config) (good : Int → Prop) : Manifest → Prop
  | construct (data : PersistedManifest) (m : Manifest) :
      Manifest.construct cfg data = .ok m → Reachable cfg good m
  | update (m : Manifest) (vb : VBucket) (t : Collections.Manifest) (b : Bool)
      (m' : Manifest) (vb' : VBucket) :
      Reachable cfg good m → (∀ n, good (vb.assign n)) →
      m.update cfg vb t = .ok (b, m', vb') → Reachable cfg good m'
  | addCollection (m : Manifest) (vb : VBucket) (uid : ManifestUid)
      (ids : ScopeCollectionPair) (seq : Option Int) (m' : Manifest) (vb' : VBucket) :
      Reachable cfg good m → good (vb.nextSeqno seq) →
      m.addCollection cfg vb uid ids seq = .ok (m', vb') → Reachable cfg good m'
  | beginCollectionDelete (m : Manifest) (vb : VBucket) (uid : ManifestUid)
      (ids : ScopeCollectionPair) (seq : Option Int) (m' : Manifest) (vb' : VBucket) :
      Reachable cfg good m → good (vb.nextSeqno seq) →
      m.beginCollectionDelete cfg vb uid ids seq = .ok (m', vb') → Reachable cfg good m'
  | completeDeletion (intermediate : Except Error SystemEvent) (m : Manifest) (vb : VBucket)
      (c : CollectionID) (e : ManifestEntry) (m' : Manifest) (vb' : VBucket) :
      Reachable cfg good m → container.find m.map c = some e → e.isDeleting cfg = true →
      m.completeDeletion cfg intermediate vb c = .ok (m', vb') → Reachable cfg good m'

/-- The number of entries of a container that are Deleting. -/
def container.countDeleting (cfg : Config) (map : container) : Nat :=
  map.countP (fun p => p.2.isDeleting cfg)

/-- The bookkeeping of the deleting collections is sound: the keys of the map
are distinct, the counter is at least the number of Deleting entries, and the
counter is zero exactly when greatestEndSeqno is the sentinel. -/
def Manifest.Tracked (cfg : Config) (m : Manifest) : Prop :=
  container.WF m.map ∧
  (container.countDeleting cfg m.map : Int) ≤ m.nDeletingCollections ∧
  (m.nDeletingCollections = 0 ↔ m.greatestEndSeqno = cfg.state_collection_open)

/-- The manifest constructed from an empty persisted buffer (front inserting
container, sentinel -6): the default collection, open. -/
def Manifest.sampleEmpty : Manifest :=
  { map := [(0, ⟨0, 0, -6, 0⟩)]
    manifestUid := 0
    defaultCollectionExists := true
    greatestEndSeqno := -6
    nDeletingCollections := 0 }

/-- The manifest `Manifest.sampleEmpty` after the update to a bucket manifest
with uid 2 that lists only collection 9 of scope 4: the default collection is
Deleting since seqno 1, collection 9 is open since seqno 2. -/
def Manifest.sampleUpdated : Manifest :=
  { map := [(9, ⟨4, 2, -6, 0⟩), (0, ⟨0, 0, 1, 0⟩)]
    manifestUid := 2
    defaultCollectionExists := false
    greatestEndSeqno := 1
    nDeletingCollections := 1 }

/-- The manifest `Manifest.sampleUpdated` after the deletion of the default
collection is completed. -/
def Manifest.sampleCompleted : Manifest :=
  { map := [(9, ⟨4, 2, -6, 0⟩)]
    manifestUid := 2
    defaultCollectionExists := false
    greatestEndSeqno := -6
    nDeletingCollections := 0 }

/-- Modelled from the spec: `DocKey`, by what the manifest reads of a key: the
collection id the key is prefixed with (`getCollectionID`) and, for a system
event key, the bytes embedded after it (`SystemEventFactory::getKeyExtra`). -/
structure DocKey where
  collectionID : CollectionID
  keyExtra : List Nat
  deriving DecidableEq, Repr

/-- The static member `Manifest::getCollectionIDFromKey`: the 32 bit collection
id held by the four embedded bytes of a system event key. -/
def Manifest.getCollectionIDFromKey (cfg : Config) (key : DocKey) : Except Error CollectionID :=
  if key.collectionID ≠ cfg.SystemCollection then .error Error.invalid_argument
  else
    match key.keyExtra with
    | [b0, b1, b2, b3] =>
      .ok (Fin.ofNat (b0 % 256 + 256 * (b1 % 256) + 65536 * (b2 % 256) + 16777216 * (b3 % 256)))
    | _ => .error Error.invalid_argument

/-- The member `Manifest::getManifestEntry(const DocKey&, bool allowSystem)`:
the iterator `map.find(lookup)`, `none` for `end()`. -/
def Manifest.getManifestEntry_key (cfg : Config) (m : Manifest) (key : DocKey)
    (allowSystem : Bool) : Except Error (Option (CollectionID × ManifestEntry)) :=
  if allowSystem = true ∧ key.collectionID = cfg.SystemCollection then
    match Manifest.getCollectionIDFromKey cfg key with
    | .error x => .error x
    | .ok lookup => .ok ((container.find m.map lookup).map (fun e => (lookup, e)))
  else
    .ok ((container.find m.map key.collectionID).map (fun e => (key.collectionID, e)))

/-- The member `Manifest::doesKeyContainValidCollection`. -/
def Manifest.doesKeyContainValidCollection (cfg : Config) (m : Manifest) (key : DocKey) : Bool :=
  if m.defaultCollectionExists = true ∧ key.collectionID = cfg.DefaultCollection then true
  else
    match container.find m.map key.collectionID with
    | some e => e.isOpen cfg
    | none => false

/-- The member `Manifest::isLogicallyDeleted(const DocKey&, int64_t)`. -/
def Manifest.isLogicallyDeleted (cfg : Config) (m : Manifest) (key : DocKey) (seqno : Int) :
    Except Error Bool :=
  if seqno ≤ m.greatestEndSeqno then
    if key.collectionID = cfg.DefaultCollection then .ok (!m.defaultCollectionExists)
    else
      match (if key.collectionID = cfg.SystemCollection then
          Manifest.getCollectionIDFromKey cfg key else .ok key.collectionID) with
      | .error x => .error x
      | .ok lookup =>
        match container.find m.map lookup with
        | some e => .ok (decide (seqno ≤ e.endSeqno))
        | none => .ok false
  else .ok false

/-- The member `Manifest::isLogicallyDeleted(const_iterator, int64_t)`; the
iterator is an element of the map, or `none` for `end()`. -/
def Manifest.isLogicallyDeleted_iterator (m : Manifest)
    (entry : Option (CollectionID × ManifestEntry)) (seqno : Int) : Except Error Bool :=
  match entry with
  | none => .error Error.invalid_argument
  | some itr =>
    if seqno ≤ m.greatestEndSeqno then .ok (decide (seqno ≤ itr.2.endSeqno))
    else .ok false

/-- A run of one operation (`beginCollectionDelete` or `addCollection`) over a
list of changes, as `update` makes it: every call without explicit seqno, each
with the manifest uid `update` passes to it. -/
inductive Manifest.Steps
    (step : Manifest → VBucket → ManifestUid → ScopeCollectionPair → Option Int →
      Except Error (Manifest × VBucket)) :
    Manifest → VBucket → List ScopeCollectionPair → Manifest → VBucket → Prop
  | nil (m : Manifest) (vb : VBucket) : Manifest.Steps step m vb [] m vb
  | cons (m : Manifest) (vb : VBucket) (uid : ManifestUid) (p : ScopeCollectionPair)
      (rest : List ScopeCollectionPair) (m1 : Manifest) (vb1 : VBucket) (m2 : Manifest)
      (vb2 : VBucket) :
      step m vb uid p none = .ok (m1, vb1) → Manifest.Steps step m1 vb1 rest m2 vb2 →
      Manifest.Steps step m vb (p :: rest) m2 vb2

/-- The end seqno of every Deleting entry is at most greatestEndSeqno. -/
def Manifest.Bounded (cfg : Config) (m : Manifest) : Prop :=
  ∀ k e, container.find m.map k = some e → e.isDeleting cfg = true →
    e.endSeqno ≤ m.greatestEndSeqno

/-- The flag defaultCollectionExists mirrors the state of the default
collection: it is set exactly when the map has an Open entry for it. -/
def Manifest.Mirrored (cfg : Config) (m : Manifest) : Prop :=
  m.defaultCollectionExists = true ↔
    ∃ e, container.find m.map cfg.DefaultCollection = some e ∧ e.isOpen cfg = true

/-- The invariants of the bookkeeping taken together. -/
def Manifest.Consistent (cfg : Config) (m : Manifest) : Prop :=
  Manifest.Tracked cfg m ∧ Manifest.Bounded cfg m ∧ Manifest.Mirrored cfg m

/-- A persisted manifest in which the default collection is Deleting since
seqno 10 and collection 8 of scope 2 since seqno 20. -/
def SerialisedManifest.sampleTwoDeleting : SerialisedManifest :=
  { uid := 3
    entryCount := 2
    entries := [⟨0, 10, 0, 0⟩, ⟨4, 20, 2, 8⟩] }

/-- The manifest constructed from `SerialisedManifest.sampleTwoDeleting`. -/
def Manifest.sampleTwoDeleting : Manifest :=
  { map := [(0, ⟨0, 0, 10, 0⟩), (8, ⟨2, 4, 20, 0⟩)]
    manifestUid := 3
    defaultCollectionExists := false
    greatestEndSeqno := 20
    nDeletingCollections := 2 }

/-- The identifiers (scope, collection) of the entry a queued event changed,
as `getSystemEventData` reads them from the payload. -/
def Item.identifiers (i : Item) : Option ScopeCollectionPair :=
  (Manifest.getSystemEventData i.data).map (fun d => (d.sid, d.cid))

/-- A vbucket with nothing queued whose log assigns the seqnos 10, 11, 12, ... -/
def VBucket.later : VBucket :=
  { assign := fun n => (n : Int) + 10, queued := [], checkpoints := 0 }

/-- The manifest states reached in order: constructed from a persisted buffer,
then changed by successful `update`, `addCollection`, `beginCollectionDelete`
of a collection that is Open and `completeDeletion` of a collection that is
Deleting, every seqno the operations get being good. The flag tells whether a
`completeDeletion` was made on the way. -/
inductive Orderly (cfg : Config) (good : Int → Prop) : Bool → Manifest → Prop
  | construct (data : PersistedManifest) (m : Manifest) :
      Manifest.construct cfg data = .ok m → Orderly cfg good false m
  | update (completed : Bool) (m : Manifest) (vb : VBucket) (t : Collections.Manifest)
      (b : Bool) (m' : Manifest) (vb' : VBucket) :
      Orderly cfg good completed m → (∀ n, good (vb.assign n)) →
      m.update cfg vb t = .ok (b, m', vb') → Orderly cfg good completed m'
  | addCollection (completed : Bool) (m : Manifest) (vb : VBucket) (uid : ManifestUid)
      (ids : ScopeCollectionPair) (seq : Option Int) (m' : Manifest) (vb' : VBucket) :
      Orderly cfg good completed m → good (vb.nextSeqno seq) →
      m.addCollection cfg vb uid ids seq = .ok (m', vb') → Orderly cfg good completed m'
  | beginCollectionDelete (completed : Bool) (m : Manifest) (vb : VBucket)
      (uid : ManifestUid) (ids : ScopeCollectionPair) (seq : Option Int)
      (e : ManifestEntry) (m' : Manifest) (vb' : VBucket) :
      Orderly cfg good completed m → good (vb.nextSeqno seq) →
      container.find m.map ids.2 = some e → e.isOpen cfg = true →
      m.beginCollectionDelete cfg vb uid ids seq = .ok (m', vb') →
      Orderly cfg good completed m'
  | completeDeletion (completed : Bool) (intermediate : Except Error SystemEvent)
      (m : Manifest) (vb : VBucket) (c : CollectionID) (e : ManifestEntry)
      (m' : Manifest) (vb' : VBucket) :
      Orderly cfg good completed m → container.find m.map c = some e →
      e.isDeleting cfg = true →
      m.completeDeletion cfg intermediate vb c = .ok (m', vb') → Orderly cfg good true m'

/-- The counter nDeletingCollections is the number of Deleting entries. -/
def Manifest.Counted (cfg : Config) (m : Manifest) : Prop :=
  m.nDeletingCollections = (container.countDeleting cfg m.map : Int)

/-- The value of greatestEndSeqno is reached: it is the sentinel, or the
endSeqno of an entry of the map that is Deleting. -/
def Manifest.Attained (cfg : Config) (m : Manifest) : Prop :=
  m.greatestEndSeqno = cfg.state_collection_open ∨
    ∃ k e, container.find m.map k = some e ∧ e.isDeleting cfg = true ∧
      e.endSeqno = m.greatestEndSeqno

/-- The bookkeeping of an orderly state: sound, with an exact counter, and
with greatestEndSeqno reached as long as no `completeDeletion` was made. -/
def Manifest.Settled (cfg : Config) (completed : Bool) (m : Manifest) : Prop :=
  Manifest.Tracked cfg m ∧ Manifest.Counted cfg m ∧
    (completed = false → Manifest.Attained cfg m)

/-- The state of `Manifest.sampleUpdated` after an update to a bucket manifest
that lists nothing, the log assigning seqno 10: collection 9 is Deleting too. -/
def Manifest.sampleBothDeleting : Manifest :=
  { map := [(9, ⟨4, 2, 10, 0⟩), (0, ⟨0, 0, 1, 0⟩)]
    manifestUid := 3
    defaultCollectionExists := false
    greatestEndSeqno := 10
    nDeletingCollections := 2 }

/-- The state of `Manifest.sampleBothDeleting` after `completeDeletion` of
collection 9. -/
def Manifest.sampleStale : Manifest :=
  { map := [(0, ⟨0, 0, 1, 0⟩)]
    manifestUid := 3
    defaultCollectionExists := false
    greatestEndSeqno := 10
    nDeletingCollections := 1 }

/-- The member `Manifest::shouldCompleteDeletion`; `entry` is an element of the
map (the iterator is dereferenced without a test). The function reads no
member of the manifest and does not read its argument `bySeqno`. -/
def Manifest.shouldCompleteDeletion (cfg : Config) (key : DocKey) (_bySeqno : Int)
    (entry : CollectionID × ManifestEntry) : Option CollectionID :=
  if key.collectionID = cfg.SystemCollection then
    if entry.2.isDeleting cfg then some entry.1 else none
  else none

/-- The manifest states reached by successful operations: constructed from a
persisted buffer, then changed by `update`, `addCollection`,
`beginCollectionDelete` and `completeDeletion` of any collection of the map,
every seqno the operations get being good. The step `intermediate` that
`ManifestEntry.completeDeletion` takes for an entry that is not Deleting is
not the hard delete, which the spec keeps for the final removal of a
collection that is Deleting. -/
inductive Reached (cfg : Config) (good : Int → Prop) : Manifest → Prop
  | construct (data : PersistedManifest) (m : Manifest) :
      Manifest.construct cfg data = .ok m → Reached cfg good m
  | update (m : Manifest) (vb : VBucket) (t : Collections.Manifest) (b : Bool)
      (m' : Manifest) (vb' : VBucket) :
      Reached cfg good m → (∀ n, good (vb.assign n)) →
      m.update cfg vb t = .ok (b, m', vb') → Reached cfg good m'
  | addCollection (m : Manifest) (vb : VBucket) (uid : ManifestUid)
      (ids : ScopeCollectionPair) (seq : Option Int) (m' : Manifest) (vb' : VBucket) :
      Reached cfg good m → good (vb.nextSeqno seq) →
      m.addCollection cfg vb uid ids seq = .ok (m', vb') → Reached cfg good m'
  | beginCollectionDelete (m : Manifest) (vb : VBucket) (uid : ManifestUid)
      (ids : ScopeCollectionPair) (seq : Option Int) (m' : Manifest) (vb' : VBucket) :
      Reached cfg good m → good (vb.nextSeqno seq) →
      m.beginCollectionDelete cfg vb uid ids seq = .ok (m', vb') → Reached cfg good m'
  | completeDeletion (intermediate : Except Error SystemEvent) (m : Manifest) (vb : VBucket)
      (c : CollectionID) (m' : Manifest) (vb' : VBucket) :
      Reached cfg good m → intermediate ≠ .ok SystemEvent.DeleteCollectionHard →
      m.completeDeletion cfg intermediate vb c = .ok (m', vb') → Reached cfg good m'

/-- The keys of the map are distinct and the flag defaultCollectionExists
mirrors the entry of the default collection. -/
def Manifest.Flagged (cfg : Config) (m : Manifest) : Prop :=
  container.WF m.map ∧ Manifest.Mirrored cfg m

/-- The state of `Manifest.sampleUpdated` after a second `beginCollectionDelete`
of the default collection (manifest uid 3, the log assigning seqno 10). -/
def Manifest.sampleTwiceBegun : Manifest :=
  { map := [(9, ⟨4, 2, -6, 0⟩), (0, ⟨0, 0, 10, 0⟩)]
    manifestUid := 3
    defaultCollectionExists := false
    greatestEndSeqno := 10
    nDeletingCollections := 2 }

/-- A serialised manifest whose header counts one entry and which holds
none. -/
def SerialisedManifest.sampleOvercount : SerialisedManifest :=
  { uid := 0, entryCount := 1, entries := [] }

/-- The state of `Manifest.sampleEmpty` after an update to a bucket manifest
that lists collection 1, the id of the System pseudo-collection, under scope 4
(front inserting container, the log assigning the seqnos 1 and 2): the default
collection is Deleting, collection 1 is Open. -/
def Manifest.sampleSystemOpen : Manifest :=
  { map := [(1, ⟨4, 2, -6, 0⟩), (0, ⟨0, 0, 1, 0⟩)]
    manifestUid := 2
    defaultCollectionExists := false
    greatestEndSeqno := 1
    nDeletingCollections := 1 }

/-- The state of `Manifest.sampleSystemOpen` after an update to a bucket
manifest that lists nothing, the log assigning seqno 10: collection 1 is
Deleting since seqno 10. -/
def Manifest.sampleSystemDeleting : Manifest :=
  { map := [(1, ⟨4, 2, 10, 0⟩), (0, ⟨0, 0, 1, 0⟩)]
    manifestUid := 3
    defaultCollectionExists := false
    greatestEndSeqno := 10
    nDeletingCollections := 2 }

/-- A value of the manifest state in which defaultCollectionExists is set while
the entry of the default collection is Deleting (since seqno 5). -/
def Manifest.sampleFlagSet : Manifest :=
  { map := [(0, ⟨0, 0, 5, 0⟩)]
    manifestUid := 0
    defaultCollectionExists := true
    greatestEndSeqno := 5
    nDeletingCollections := 1 }

/-- A manifest with the default collection open and collection 8 of scope 2
Deleting since seqno 0. -/
def Manifest.sampleEndZero : Manifest :=
  { map := [(0, ⟨0, 0, -6, 0⟩), (8, ⟨2, 4, 0, 0⟩)]
    manifestUid := 1
    defaultCollectionExists := true
    greatestEndSeqno := 0
    nDeletingCollections := 1 }

/-! ## Lemmas on the container -/

theorem container.find_some_mem {map : container} {c : CollectionID} {e : ManifestEntry}
    (h : container.find map c = some e) : (c, e) ∈ map := by
  induction map with
  | nil => simp [container.find] at h
  | cons p rest ih =>
    obtain ⟨k, v⟩ := p
    unfold container.find at h
    split at h
    · next hk =>
      cases h
      subst hk
      exact List.mem_cons_self _ _
    · exact List.mem_cons_of_mem _ (ih h)

theorem container.find_eq_none_iff {map : container} {c : CollectionID} :
    container.find map c = none ↔ c ∉ map.map Prod.fst := by
  induction map with
  | nil => simp [container.find]
  | cons p rest ih =>
    obtain ⟨k, v⟩ := p
    unfold container.find
    by_cases hk : k = c
    · simp [hk]
    · simp only [hk, if_false, List.map_cons, List.mem_cons, not_or]
      rw [ih]
      constructor
      · intro h
        exact ⟨fun h1 => hk h1.symm, h⟩
      · intro h
        exact h.2

theorem container.mem_find {map : container} {c : CollectionID} {e : ManifestEntry}
    (hwf : container.WF map) (h : (c, e) ∈ map) : container.find map c = some e := by
  induction map with
  | nil => cases h
  | cons p rest ih =>
    obtain ⟨k, v⟩ := p
    unfold container.WF at hwf
    simp only [List.map_cons, List.nodup_cons] at hwf
    unfold container.find
    rcases List.mem_cons.1 h with h1 | h1
    · cases h1
      simp
    · have hne : k ≠ c := by
        intro hk
        subst hk
        exact hwf.1 (List.mem_map_of_mem Prod.fst h1)
      simp only [hne, if_false]
      exact ih hwf.2 h1

theorem container.find_eq_some_iff {map : container} {c : CollectionID} {e : ManifestEntry}
    (hwf : container.WF map) : container.find map c = some e ↔ (c, e) ∈ map :=
  ⟨container.find_some_mem, container.mem_find hwf⟩

theorem container.WF_perm {l1 l2 : container} (hp : l1.Perm l2) (hwf : container.WF l1) :
    container.WF l2 :=
  ((hp.map Prod.fst).nodup_iff).1 hwf

theorem container.find_perm {l1 l2 : container} (hp : l1.Perm l2) (hwf : container.WF l1)
    (c : CollectionID) : container.find l1 c = container.find l2 c := by
  have hwf2 := container.WF_perm hp hwf
  cases h : container.find l2 c with
  | none =>
    rw [container.find_eq_none_iff] at h ⊢
    intro hm
    exact h ((hp.map Prod.fst).mem_iff.1 hm)
  | some e =>
    rw [container.find_eq_some_iff hwf2] at h
    rw [container.find_eq_some_iff hwf]
    exact hp.mem_iff.2 h

theorem container.find_append (l1 l2 : container) (c : CollectionID) :
    container.find (l1 ++ l2) c =
      (match container.find l1 c with
       | some e => some e
       | none => container.find l2 c) := by
  induction l1 with
  | nil => simp [container.find]
  | cons p rest ih =>
    obtain ⟨k, v⟩ := p
    simp only [List.cons_append, container.find]
    by_cases hk : k = c
    · simp [hk]
    · simp only [hk, if_false]
      exact ih

theorem container.WF_append_singleton {map : container} {c : CollectionID}
    (e : ManifestEntry) (hwf : container.WF map) (h : container.find map c = none) :
    container.WF (map ++ [(c, e)]) := by
  unfold container.WF at *
  rw [container.find_eq_none_iff] at h
  simp only [List.map_append, List.map_cons, List.map_nil]
  rw [List.nodup_append]
  refine ⟨hwf, List.nodup_singleton _, ?_⟩
  intro a ha hb
  simp only [List.mem_singleton] at hb
  subst hb
  exact h ha

theorem container.modify_cons (a : CollectionID) (v : ManifestEntry) (rest : container)
    (c : CollectionID) (f : ManifestEntry → ManifestEntry) :
    container.modify ((a, v) :: rest) c f =
      (if a = c then (a, f v) else (a, v)) :: container.modify rest c f := rfl

theorem container.find_modify (map : container) (c k : CollectionID)
    (f : ManifestEntry → ManifestEntry) :
    container.find (container.modify map c f) k =
      if k = c then (container.find map k).map f else container.find map k := by
  induction map with
  | nil => simp [container.find, container.modify]
  | cons p rest ih =>
    obtain ⟨a, v⟩ := p
    rw [container.modify_cons]
    by_cases ha : a = c
    · subst ha
      rw [if_pos rfl]
      by_cases hk : a = k
      · subst hk
        simp [container.find]
      · have hk2 : ¬ k = a := fun h => hk h.symm
        simp only [container.find, hk, hk2, if_false]
        rw [ih, if_neg hk2]
    · rw [if_neg ha]
      by_cases hk : a = k
      · subst hk
        simp [container.find, ha]
      · simp only [container.find, hk, if_false]
        rw [ih]

theorem container.modify_keys (map : container) (c : CollectionID)
    (f : ManifestEntry → ManifestEntry) :
    (container.modify map c f).map Prod.fst = map.map Prod.fst := by
  unfold container.modify
  rw [List.map_map]
  apply List.map_congr_left
  intro p _
  simp only [Function.comp]
  split <;> rfl

theorem container.WF_modify {map : container} (c : CollectionID)
    (f : ManifestEntry → ManifestEntry) (hwf : container.WF map) :
    container.WF (container.modify map c f) := by
  unfold container.WF
  rw [container.modify_keys]
  exact hwf

theorem container.WF_erase {map : container} (c : CollectionID) (hwf : container.WF map) :
    container.WF (container.erase map c) := by
  unfold container.WF container.erase at *
  exact (List.filter_sublist map).map Prod.fst |>.nodup hwf

theorem container.find_erase (map : container) (c k : CollectionID) :
    container.find (container.erase map c) k =
      if k = c then none else container.find map k := by
  induction map with
  | nil => simp [container.find, container.erase]
  | cons p rest ih =>
    obtain ⟨a, v⟩ := p
    unfold container.erase at ih ⊢
    by_cases ha : a = c
    · subst ha
      simp only [List.filter_cons, ne_eq, not_true_eq_false, decide_False, Bool.false_eq_true,
        if_false, container.find]
      rw [ih]
      by_cases hk : a = k
      · subst hk
        simp
      · have hk2 : ¬ k = a := fun h => hk h.symm
        simp [hk, hk2]
    · simp only [List.filter_cons, ne_eq, ha, not_false_eq_true, decide_True, if_true,
        container.find]
      by_cases hk : a = k
      · subst hk
        simp [ha]
      · simp only [hk, if_false]
        rw [ih]

/-! ## The diff: `processManifest` -/

theorem Manifest.processCollections_eq (cfg : Config) (map : container) (scope : ScopeID)
    (cs : List CollectionID) (additions : List ScopeCollectionPair) :
    Manifest.processCollections cfg map scope cs additions =
      if (cs.map (fun c => (scope, c))).any (conflicts cfg map) then none
      else some (additions ++ (cs.map (fun c => (scope, c))).filter (isNew map)) := by
  induction cs generalizing additions with
  | nil => simp [Manifest.processCollections]
  | cons c rest ih =>
    unfold Manifest.processCollections
    cases hf : container.find map c with
    | none =>
      simp only [List.map_cons, List.any_cons, conflicts, isNew, hf, Bool.false_or,
        List.filter_cons, Option.isNone_none, if_true]
      rw [ih]
      simp [conflicts, isNew]
    | some e =>
      simp only [List.map_cons, List.any_cons, conflicts, isNew, hf, List.filter_cons,
        Option.isNone_some, Bool.false_eq_true, if_false]
      by_cases hd : e.isDeleting cfg = true
      · simp [hd]
      · simp only [hd, if_false, Bool.or_eq_true, false_or]
        rw [ih]
        simp [conflicts, isNew]

theorem Manifest.processScopes_eq (cfg : Config) (map : container)
    (scopes : List (ScopeID × List CollectionID)) (additions : List ScopeCollectionPair) :
    Manifest.processScopes cfg map scopes additions =
      if (scopes.flatMap (fun s => s.2.map (fun c => (s.1, c)))).any (conflicts cfg map)
      then none
      else some (additions ++
        (scopes.flatMap (fun s => s.2.map (fun c => (s.1, c)))).filter (isNew map)) := by
  induction scopes generalizing additions with
  | nil => simp [Manifest.processScopes]
  | cons s rest ih =>
    unfold Manifest.processScopes
    rw [Manifest.processCollections_eq]
    simp only [List.flatMap_cons, List.any_append, List.filter_append]
    by_cases h1 : (s.2.map (fun c => (s.1, c))).any (conflicts cfg map) = true
    · simp [h1]
    · simp only [h1, if_false, Bool.false_eq_true, Bool.or_eq_true, false_or]
      rw [ih]
      simp [List.append_assoc]

theorem Manifest.processDeletions_eq (cfg : Config) (manifest : Collections.Manifest)
    (map : container) (deletions : List ScopeCollectionPair) :
    Manifest.processDeletions cfg manifest map deletions =
      deletions ++ (map.filter
        (fun p => p.2.isOpen cfg && !manifest.findCollection p.1)).map
        (fun p => (p.2.scopeID, p.1)) := by
  induction map generalizing deletions with
  | nil => simp [Manifest.processDeletions]
  | cons p rest ih =>
    obtain ⟨k, e⟩ := p
    unfold Manifest.processDeletions
    by_cases h : e.isOpen cfg = true ∧ manifest.findCollection k = false
    · rw [if_pos h, ih]
      simp [List.filter_cons, h.1, h.2]
    · rw [if_neg h, ih]
      have h2 : (e.isOpen cfg && !manifest.findCollection k) = false := by
        cases h1 : e.isOpen cfg <;> cases h3 : manifest.findCollection k <;> simp_all
      simp [List.filter_cons, h2]

theorem Manifest.processManifest_eq (cfg : Config) (m : Manifest)
    (manifest : Collections.Manifest) :
    m.processManifest cfg manifest =
      if manifest.listed.any (conflicts cfg m.map) then none
      else some (manifest.listed.filter (isNew m.map),
        (m.map.filter (fun p => p.2.isOpen cfg && !manifest.findCollection p.1)).map
          (fun p => (p.2.scopeID, p.1))) := by
  unfold Manifest.processManifest
  rw [Manifest.processScopes_eq, Manifest.processDeletions_eq]
  unfold Collections.Manifest.listed
  by_cases h : (manifest.scopes.flatMap
      (fun s => s.2.map (fun c => (s.1, c)))).any (conflicts cfg m.map) = true
  · simp only [h, if_true]
  · simp only [h, if_false, Bool.false_eq_true, List.nil_append]

theorem conflicts_any_iff (cfg : Config) (map : container) (l : List ScopeCollectionPair) :
    l.any (conflicts cfg map) = true ↔
      ∃ p ∈ l, ∃ e, container.find map p.2 = some e ∧ e.isDeleting cfg = true := by
  rw [List.any_eq_true]
  constructor
  · rintro ⟨p, hp, hc⟩
    refine ⟨p, hp, ?_⟩
    unfold conflicts at hc
    cases hf : container.find map p.2 with
    | none => simp [hf] at hc
    | some e =>
      rw [hf] at hc
      exact ⟨e, rfl, hc⟩
  · rintro ⟨p, hp, e, hf, hd⟩
    refine ⟨p, hp, ?_⟩
    unfold conflicts
    rw [hf]
    exact hd

/-- C1. An update whose bucket manifest lists a collection that is Deleting in
the map returns false, queues nothing into the vbucket and leaves the whole
manifest (map, manifestUid, defaultCollectionExists, greatestEndSeqno,
nDeletingCollections) as it was. -/
theorem Manifest.update_conflicting_deletion (cfg : Config) (m : Manifest) (vb : VBucket)
    (t : Collections.Manifest)
    (h : ∃ p ∈ t.listed, ∃ e, container.find m.map p.2 = some e ∧ e.isDeleting cfg = true) :
    m.update cfg vb t = .ok (false, m, vb) := by
  unfold Manifest.update
  rw [Manifest.processManifest_eq, if_pos ((conflicts_any_iff cfg m.map t.listed).2 h)]

theorem Manifest.update_conflicting_deletion_witness :
    (∃ p ∈ (⟨2, [(0, [0, 5])]⟩ : Collections.Manifest).listed, ∃ e,
        container.find Manifest.sampleDeleting.map p.2 = some e ∧
          e.isDeleting Config.insertionOrder = true) ∧
      Manifest.sampleDeleting.update Config.insertionOrder VBucket.fresh ⟨2, [(0, [0, 5])]⟩ =
        .ok (false, Manifest.sampleDeleting, VBucket.fresh) :=
  ⟨⟨(0, 5), by decide, ⟨0, 3, 7, 0⟩, by decide, by decide⟩,
    Manifest.update_conflicting_deletion Config.insertionOrder Manifest.sampleDeleting
      VBucket.fresh ⟨2, [(0, [0, 5])]⟩
      ⟨(0, 5), by decide, ⟨0, 3, 7, 0⟩, by decide, by decide⟩⟩

theorem Manifest.findCollection_eq_false_iff (t : Collections.Manifest) (c : CollectionID) :
    t.findCollection c = false ↔ ∀ q ∈ t.listed, q.2 ≠ c := by
  unfold Collections.Manifest.findCollection Collections.Manifest.listed
  rw [List.any_eq_false]
  constructor
  · intro h q hq
    rw [List.mem_flatMap] at hq
    obtain ⟨s, hs, hq⟩ := hq
    rw [List.mem_map] at hq
    obtain ⟨c1, hc1, rfl⟩ := hq
    intro hc
    simp only at hc
    subst hc
    exact h s hs (by simpa using hc1)
  · intro h s hs hc
    have hc1 : c ∈ s.2 := by simpa using hc
    exact h (s.1, c) (List.mem_flatMap.2 ⟨s, hs, List.mem_map.2 ⟨c, hc1, rfl⟩⟩) rfl

/-- C2. `processManifest` fails exactly when a collection the bucket manifest
lists is Deleting in the map. When none is, it returns (additions, deletions):
the deletions are exactly the (scope, collection id) of the map entries that
are Open and whose collection id the bucket manifest does not list, the
additions are exactly the pairs of the bucket manifest whose collection id has
no entry in the map. -/
theorem Manifest.processManifest_diff (cfg : Config) (m : Manifest)
    (t : Collections.Manifest) :
    (m.processManifest cfg t = none ↔
      ∃ p ∈ t.listed, ∃ e, container.find m.map p.2 = some e ∧ e.isDeleting cfg = true) ∧
    ((¬ ∃ p ∈ t.listed, ∃ e, container.find m.map p.2 = some e ∧ e.isDeleting cfg = true) →
      ∃ additions deletions, m.processManifest cfg t = some (additions, deletions) ∧
        (∀ p : ScopeCollectionPair, p ∈ deletions ↔
          ∃ e, (p.2, e) ∈ m.map ∧ e.isOpen cfg = true ∧ e.scopeID = p.1 ∧
            ∀ q ∈ t.listed, q.2 ≠ p.2) ∧
        (∀ p : ScopeCollectionPair, p ∈ additions ↔
          p ∈ t.listed ∧ container.find m.map p.2 = none)) := by
  rw [Manifest.processManifest_eq, ← conflicts_any_iff]
  constructor
  · by_cases h : t.listed.any (conflicts cfg m.map) = true
    · simp [h]
    · simp [h]
  · intro h
    rw [if_neg h]
    refine ⟨_, _, rfl, ?_, ?_⟩
    · intro p
      rw [List.mem_map]
      constructor
      · rintro ⟨⟨k, e⟩, hke, rfl⟩
        rw [List.mem_filter] at hke
        simp only [Bool.and_eq_true, Bool.not_eq_true'] at hke
        exact ⟨e, hke.1, hke.2.1, rfl, (Manifest.findCollection_eq_false_iff t k).1 hke.2.2⟩
      · rintro ⟨e, hmem, hopen, hscope, habsent⟩
        refine ⟨(p.2, e), ?_, ?_⟩
        · rw [List.mem_filter]
          simp only [Bool.and_eq_true, Bool.not_eq_true']
          exact ⟨hmem, hopen, (Manifest.findCollection_eq_false_iff t p.2).2 habsent⟩
        · simp only [hscope]
    · intro p
      rw [List.mem_filter]
      simp [isNew, Option.isNone_iff_eq_none]

theorem Manifest.processManifest_diff_witness :
    ∃ additions deletions,
      Manifest.sampleOpen.processManifest Config.insertionOrder sampleTarget =
        some (additions, deletions) ∧
      (∀ p : ScopeCollectionPair, p ∈ deletions ↔
        ∃ e, (p.2, e) ∈ Manifest.sampleOpen.map ∧ e.isOpen Config.insertionOrder = true ∧
          e.scopeID = p.1 ∧
          ∀ q ∈ sampleTarget.listed, q.2 ≠ p.2) ∧
      (∀ p : ScopeCollectionPair, p ∈ additions ↔
        p ∈ sampleTarget.listed ∧
          container.find Manifest.sampleOpen.map p.2 = none) :=
  (Manifest.processManifest_diff Config.insertionOrder Manifest.sampleOpen
    sampleTarget).2
    (fun h => absurd ((conflicts_any_iff _ _ _).2 h) (by decide))

theorem Manifest.sampleOpen_processManifest :
    Manifest.sampleOpen.processManifest Config.insertionOrder sampleTarget =
      some ([(2, 11)], [(2, 8)]) := by decide

/-! ## The events of an update -/

theorem Manifest.getSystemEventData_populate (cfg : Config) (m : Manifest)
    (ids : ScopeCollectionPair) :
    Manifest.getSystemEventData (.buffer (m.populateWithSerialisedData cfg ids)) =
      some ⟨m.manifestUid, ids.1, ids.2⟩ := by
  simp [Manifest.getSystemEventData, Manifest.populateWithSerialisedData]

theorem Manifest.queueSystemEvent_eq (cfg : Config) (m : Manifest) (vb : VBucket)
    (se : SystemEvent) (ids : ScopeCollectionPair) (del : Bool) (seq : Option Int) :
    (m.queueSystemEvent cfg vb se ids del seq).1 = vb.nextSeqno seq ∧
    (m.queueSystemEvent cfg vb se ids del seq).2.queued =
      vb.queued ++ [({ flags := se
                       keyExtra := Manifest.makeCollectionIdIntoString ids.2
                       data := .buffer (m.populateWithSerialisedData cfg ids)
                       deleted := del
                       bySeqno := vb.nextSeqno seq }, seq)] ∧
    (m.queueSystemEvent cfg vb se ids del seq).2.assign = vb.assign := by
  cases seq <;> exact ⟨rfl, rfl, rfl⟩

theorem Manifest.trackEndSeqno_eq (cfg : Config) (m : Manifest) (seqno : Int) :
    m.trackEndSeqno cfg seqno =
      { m with
        nDeletingCollections := m.nDeletingCollections + 1
        greatestEndSeqno :=
          if seqno > m.greatestEndSeqno ∨ m.greatestEndSeqno = cfg.state_collection_open
          then seqno else m.greatestEndSeqno } := by
  unfold Manifest.trackEndSeqno
  dsimp only
  split <;> rfl

theorem Manifest.trackEndSeqno_manifestUid (cfg : Config) (m : Manifest) (seqno : Int) :
    (m.trackEndSeqno cfg seqno).manifestUid = m.manifestUid := by
  rw [Manifest.trackEndSeqno_eq]

theorem Manifest.trackEndSeqno_map (cfg : Config) (m : Manifest) (seqno : Int) :
    (m.trackEndSeqno cfg seqno).map = m.map := by
  rw [Manifest.trackEndSeqno_eq]

theorem Manifest.beginCollectionDelete_event (cfg : Config) (m : Manifest) (vb : VBucket)
    (uid : ManifestUid) (p : ScopeCollectionPair) (m1 : Manifest) (vb1 : VBucket)
    (h : m.beginCollectionDelete cfg vb uid p none = .ok (m1, vb1)) :
    m1.manifestUid = uid ∧
      ∃ item, vb1.queued = vb.queued ++ [(item, none)] ∧
        item.summary = changeEvent uid (true, p) := by
  unfold Manifest.beginCollectionDelete at h
  cases hg : m.getManifestEntry p.2 with
  | error x => rw [hg] at h; cases h
  | ok e =>
    rw [hg] at h
    simp only [Except.ok.injEq, Prod.mk.injEq] at h
    obtain ⟨h1, h2⟩ := h
    subst h1 h2
    constructor
    · rw [Manifest.trackEndSeqno_manifestUid]
      split <;> rfl
    · refine ⟨_, (Manifest.queueSystemEvent_eq cfg _ vb _ p true none).2.1, ?_⟩
      simp only [Item.summary, changeEvent, Manifest.getSystemEventData_populate]

theorem Manifest.addNewCollectionEntry_manifestUid (cfg : Config) (m m1 : Manifest)
    (ids : ScopeCollectionPair) (s e : Int)
    (h : m.addNewCollectionEntry cfg ids s e = .ok m1) : m1.manifestUid = m.manifestUid := by
  unfold Manifest.addNewCollectionEntry at h
  split at h
  · cases h
  · simp only at h
    split at h <;> split at h <;> cases h <;>
      simp [Manifest.trackEndSeqno_manifestUid]

theorem Manifest.addCollection_event (cfg : Config) (m : Manifest) (vb : VBucket)
    (uid : ManifestUid) (p : ScopeCollectionPair) (m1 : Manifest) (vb1 : VBucket)
    (h : m.addCollection cfg vb uid p none = .ok (m1, vb1)) :
    m1.manifestUid = uid ∧
      ∃ item, vb1.queued = vb.queued ++ [(item, none)] ∧
        item.summary = changeEvent uid (false, p) := by
  unfold Manifest.addCollection at h
  cases hg : m.addNewCollectionEntry cfg p cfg.state_collection_open
      cfg.state_collection_open with
  | error x => rw [hg] at h; cases h
  | ok e =>
    rw [hg] at h
    simp only [Except.ok.injEq, Prod.mk.injEq] at h
    obtain ⟨h1, h2⟩ := h
    subst h1 h2
    refine ⟨rfl, _, (Manifest.queueSystemEvent_eq cfg _ vb _ p false none).2.1, ?_⟩
    simp only [Item.summary, changeEvent, Manifest.getSystemEventData_populate]

theorem Manifest.applyEach_events
    (step : Manifest → VBucket → ManifestUid → ScopeCollectionPair → Option Int →
      Except Error (Manifest × VBucket)) (del : Bool)
    (hstep : ∀ m vb uid p m1 vb1, step m vb uid p none = .ok (m1, vb1) →
      m1.manifestUid = uid ∧
        ∃ item, vb1.queued = vb.queued ++ [(item, none)] ∧
          item.summary = changeEvent uid (del, p))
    (l : List ScopeCollectionPair) (m : Manifest) (vb : VBucket) (m1 : Manifest)
    (vb1 : VBucket) (h : Manifest.applyEach step m vb l = .ok (m1, vb1)) :
    m1.manifestUid = m.manifestUid ∧
      ∃ evs : List Item, vb1.queued = vb.queued ++ evs.map (fun i => (i, none)) ∧
        evs.map Item.summary = l.map (fun p => changeEvent m.manifestUid (del, p)) := by
  induction l generalizing m vb with
  | nil =>
    simp only [Manifest.applyEach, Except.ok.injEq, Prod.mk.injEq] at h
    obtain ⟨h1, h2⟩ := h
    subst h1 h2
    exact ⟨rfl, [], by simp, by simp⟩
  | cons p rest ih =>
    unfold Manifest.applyEach at h
    cases hs : step m vb m.manifestUid p none with
    | error x => rw [hs] at h; cases h
    | ok r =>
      obtain ⟨m2, vb2⟩ := r
      rw [hs] at h
      obtain ⟨hu, item, hq, hsum⟩ := hstep m vb m.manifestUid p m2 vb2 hs
      obtain ⟨hu2, evs, hq2, hsum2⟩ := ih m2 vb2 h
      refine ⟨hu2.trans hu, item :: evs, ?_, ?_⟩
      · rw [hq2, hq]
        simp
      · simp only [List.map_cons, hsum, hsum2, hu]

theorem list_nil_or_snoc {α : Type} (l : List α) : l = [] ∨ ∃ L b, l = L ++ [b] := by
  rcases List.eq_nil_or_concat l with h | ⟨L, b, h⟩
  · exact Or.inl h
  · exact Or.inr ⟨L, b, by rw [h, List.concat_eq_append]⟩

theorem Manifest.updateAdditions_nil (cfg : Config) (m : Manifest) (vb : VBucket)
    (t : Collections.Manifest) :
    Manifest.updateAdditions cfg m vb t [] = .ok (true, m, vb) := rfl

theorem Manifest.updateAdditions_events (cfg : Config) (m : Manifest) (vb : VBucket)
    (t : Collections.Manifest) (L : List ScopeCollectionPair) (a : ScopeCollectionPair)
    (b : Bool) (m' : Manifest) (vb' : VBucket)
    (h : Manifest.updateAdditions cfg m vb t (L ++ [a]) = .ok (b, m', vb')) :
    ∃ evs last, vb'.queued = vb.queued ++ (evs ++ [last]).map (fun i => (i, none)) ∧
      evs.map Item.summary = L.map (fun p => changeEvent m.manifestUid (false, p)) ∧
      last.summary = changeEvent t.uid (false, a) ∧ m'.manifestUid = t.uid := by
  simp only [Manifest.updateAdditions, Manifest.applyChanges, List.dropLast_concat,
    List.getLast?_concat] at h
  cases he : Manifest.applyEach (Manifest.addCollection cfg) m vb L with
  | error x => rw [he] at h; simp at h
  | ok r =>
    obtain ⟨m1, vb1⟩ := r
    rw [he] at h
    simp only at h
    cases ha : m1.addCollection cfg vb1 t.uid a none with
    | error x => rw [ha] at h; simp at h
    | ok r2 =>
      obtain ⟨m2, vb2⟩ := r2
      rw [ha] at h
      simp only [Except.ok.injEq, Prod.mk.injEq] at h
      obtain ⟨_, h1, h2⟩ := h
      subst h1 h2
      obtain ⟨_, evs, hq1, hs1⟩ :=
        Manifest.applyEach_events _ false (Manifest.addCollection_event cfg) L m vb m1 vb1 he
      obtain ⟨hu2, item, hq2, hs2⟩ := Manifest.addCollection_event cfg m1 vb1 t.uid a m2 vb2 ha
      refine ⟨evs, item, ?_, hs1, hs2, hu2⟩
      rw [hq2, hq1]
      simp

/-- C3. A successful update with a non-empty diff queues one Collection event
per change, the remove-collection events (deleted) of the deletions before the
add-collection events of the additions, each without explicit seqno. The last
event is the one of the last change (the last addition if there is one, else
the last deletion) and its payload carries the uid of the bucket manifest; the
payload of every earlier event carries the uid the manifest had before the
call; afterwards the manifest uid is the uid of the bucket manifest. -/
theorem Manifest.update_event_order (cfg : Config) (m : Manifest) (vb : VBucket)
    (t : Collections.Manifest) (additions deletions : List ScopeCollectionPair)
    (m' : Manifest) (vb' : VBucket)
    (hp : m.processManifest cfg t = some (additions, deletions))
    (hne : changeList additions deletions ≠ [])
    (hu : m.update cfg vb t = .ok (true, m', vb')) :
    ∃ earlier last,
      vb'.queued = vb.queued ++ (earlier ++ [last]).map (fun i => (i, none)) ∧
      earlier.map Item.summary =
        (changeList additions deletions).dropLast.map (changeEvent m.manifestUid) ∧
      some last.summary =
        (changeList additions deletions).getLast?.map (changeEvent t.uid) ∧
      m'.manifestUid = t.uid := by
  unfold Manifest.update at hu
  rw [hp] at hu
  simp only [Manifest.applyChanges] at hu
  rcases list_nil_or_snoc deletions with hd | ⟨D, d, hd⟩
  · subst hd
    simp only [List.dropLast_nil, Manifest.applyEach, List.getLast?_nil] at hu
    rcases list_nil_or_snoc additions with ha | ⟨A, a, ha⟩
    · subst ha
      exact absurd rfl hne
    · subst ha
      obtain ⟨evs, last, hq, hs, hl, hu2⟩ :=
        Manifest.updateAdditions_events cfg m vb t A a true m' vb' hu
      refine ⟨evs, last, hq, ?_, ?_, hu2⟩
      · simp [changeList, hs]
      · simp [changeList, hl]
  · subst hd
    simp only [List.dropLast_concat, List.getLast?_concat] at hu
    cases he : Manifest.applyEach (Manifest.beginCollectionDelete cfg) m vb D with
    | error x => rw [he] at hu; simp at hu
    | ok r =>
      obtain ⟨m1, vb1⟩ := r
      rw [he] at hu
      simp only at hu
      obtain ⟨hu1, evs1, hq1, hs1⟩ :=
        Manifest.applyEach_events _ true (Manifest.beginCollectionDelete_event cfg) D m vb
          m1 vb1 he
      rcases list_nil_or_snoc additions with ha | ⟨A, a, ha⟩
      · subst ha
        simp only [List.isEmpty_nil, if_true] at hu
        cases hb : m1.beginCollectionDelete cfg vb1 t.uid d none with
        | error x => rw [hb] at hu; simp at hu
        | ok r2 =>
          obtain ⟨m2, vb2⟩ := r2
          rw [hb] at hu
          simp only [Except.ok.injEq, Prod.mk.injEq, true_and] at hu
          obtain ⟨h1, h2⟩ := hu
          subst h1 h2
          obtain ⟨hu2, item, hq2, hs2⟩ :=
            Manifest.beginCollectionDelete_event cfg m1 vb1 t.uid d m2 vb2 hb
          refine ⟨evs1, item, ?_, ?_, ?_, hu2⟩
          · rw [hq2, hq1]
            simp
          · simp [changeList, hs1]
          · simp [changeList, hs2]
      · subst ha
        have hne2 : (A ++ [a]).isEmpty = false := by
          cases A <;> rfl
        simp only [hne2, Bool.false_eq_true, if_false] at hu
        cases hb : m1.beginCollectionDelete cfg vb1 m1.manifestUid d none with
        | error x => rw [hb] at hu; simp at hu
        | ok r2 =>
          obtain ⟨m2, vb2⟩ := r2
          rw [hb] at hu
          simp only at hu
          obtain ⟨hu2, item, hq2, hs2⟩ :=
            Manifest.beginCollectionDelete_event cfg m1 vb1 m1.manifestUid d m2 vb2 hb
          obtain ⟨evs3, last, hq3, hs3, hl3, hu3⟩ :=
            Manifest.updateAdditions_events cfg m2 vb2 t A a true m' vb' hu
          have hcl : changeList (A ++ [a]) (D ++ [d]) =
              (D.map (fun p => (true, p)) ++ [(true, d)] ++ A.map (fun p => (false, p))) ++
                [(false, a)] := by
            simp [changeList]
          refine ⟨evs1 ++ [item] ++ evs3, last, ?_, ?_, ?_, hu3⟩
          · rw [hq3, hq2, hq1]
            simp
          · rw [hcl, List.dropLast_concat]
            simp [hs1, hs2, hs3, hu1, hu2, Function.comp_def]
          · rw [hcl, List.getLast?_concat]
            simp [hl3]

theorem Manifest.update_event_order_witness :
    ∃ m' vb',
      Manifest.sampleOpen.update Config.insertionOrder VBucket.fresh sampleTarget =
        .ok (true, m', vb') ∧
      ∃ earlier last,
        vb'.queued = VBucket.fresh.queued ++ (earlier ++ [last]).map (fun i => (i, none)) ∧
        earlier.map Item.summary =
          (changeList [(2, 11)] [(2, 8)]).dropLast.map
            (changeEvent Manifest.sampleOpen.manifestUid) ∧
        some last.summary =
          (changeList [(2, 11)] [(2, 8)]).getLast?.map (changeEvent sampleTarget.uid) ∧
        m'.manifestUid = sampleTarget.uid :=
  ⟨_, _, rfl,
    Manifest.update_event_order Config.insertionOrder Manifest.sampleOpen VBucket.fresh
      sampleTarget [(2, 11)] [(2, 8)] _ _ Manifest.sampleOpen_processManifest (by decide) rfl⟩

/-! ## The codec: `populateWithSerialisedData` and the constructor -/

theorem Manifest.populateLoop_snd (c : CollectionID) (map : container)
    (fe : Option ManifestEntry) (ev : List SerialisedManifestEntry) :
    (Manifest.populateLoop c map fe ev).2 = ev ++ (container.erase map c).map toSerialised := by
  induction map generalizing fe ev with
  | nil => simp [Manifest.populateLoop, container.erase]
  | cons p rest ih =>
    obtain ⟨k, e⟩ := p
    unfold Manifest.populateLoop
    by_cases hk : k = c
    · rw [if_pos hk, ih]
      simp [container.erase, List.filter_cons, hk]
    · rw [if_neg hk, ih]
      simp [container.erase, List.filter_cons, hk, toSerialised]

theorem Manifest.populateLoop_fst (c : CollectionID) (map : container)
    (fe : Option ManifestEntry) (ev : List SerialisedManifestEntry)
    (hwf : container.WF map) :
    (Manifest.populateLoop c map fe ev).1 =
      (match container.find map c with
       | some e => some e
       | none => fe) := by
  induction map generalizing fe ev with
  | nil => simp [Manifest.populateLoop, container.find]
  | cons p rest ih =>
    obtain ⟨k, e⟩ := p
    have hwf2 : container.WF rest := by
      unfold container.WF at hwf ⊢
      simp only [List.map_cons, List.nodup_cons] at hwf
      exact hwf.2
    unfold Manifest.populateLoop
    by_cases hk : k = c
    · subst hk
      have hnone : container.find rest k = none := by
        rw [container.find_eq_none_iff]
        unfold container.WF at hwf
        simp only [List.map_cons, List.nodup_cons] at hwf
        exact hwf.1
      rw [if_pos rfl, ih _ _ hwf2, hnone]
      simp [container.find]
    · rw [if_neg hk, ih _ _ hwf2]
      simp [container.find, hk]

/-- The seqnos of the final entry of `populateWithSerialisedData`: those of the
entry of the collection when the map has one, else the placeholders. -/
theorem Manifest.populateWithSerialisedData_eq (cfg : Config) (m : Manifest)
    (ids : ScopeCollectionPair) (hwf : container.WF m.map) :
    m.populateWithSerialisedData cfg ids =
      { uid := m.manifestUid
        entryCount := (container.erase m.map ids.2).length + 1
        entries := (container.erase m.map ids.2).map toSerialised ++
          [match container.find m.map ids.2 with
           | some e => ⟨e.startSeqno, e.endSeqno, ids.1, ids.2⟩
           | none => ⟨cfg.state_collection_open, cfg.state_collection_open, ids.1, ids.2⟩] } := by
  unfold Manifest.populateWithSerialisedData
  simp only [Manifest.populateLoop_snd, Manifest.populateLoop_fst _ _ _ _ hwf, List.nil_append,
    List.length_append, List.length_map, List.length_singleton]
  cases container.find m.map ids.2 <;> rfl

/-- What `addNewCollectionEntry` leaves when the collection is not in the map. -/
theorem Manifest.addNewCollectionEntry_eq (cfg : Config) (m : Manifest)
    (ids : ScopeCollectionPair) (s e : Int) (h : container.find m.map ids.2 = none) :
    m.addNewCollectionEntry cfg ids s e =
      .ok { map := cfg.arrange (m.map ++ [(ids.2, ⟨ids.1, s, e, 0⟩)])
            manifestUid := m.manifestUid
            defaultCollectionExists :=
              if ids.2 = cfg.DefaultCollection then decide (e = cfg.state_collection_open)
              else m.defaultCollectionExists
            greatestEndSeqno :=
              if e = cfg.state_collection_open then m.greatestEndSeqno
              else if e > m.greatestEndSeqno ∨ m.greatestEndSeqno = cfg.state_collection_open
                then e else m.greatestEndSeqno
            nDeletingCollections :=
              if e = cfg.state_collection_open then m.nDeletingCollections
              else m.nDeletingCollections + 1 } := by
  unfold Manifest.addNewCollectionEntry
  rw [h]
  simp only [ManifestEntry.isDeleting, ManifestEntry.isOpen, Manifest.trackEndSeqno_eq]
  by_cases he : e = cfg.state_collection_open <;>
    by_cases hd : ids.2 = cfg.DefaultCollection <;> simp [he, hd]

theorem Manifest.addNewCollectionEntry_exists (cfg : Config) (m : Manifest)
    (ids : ScopeCollectionPair) (s e : Int) (x : ManifestEntry)
    (h : container.find m.map ids.2 = some x) :
    m.addNewCollectionEntry cfg ids s e = .error Error.logic_error := by
  unfold Manifest.addNewCollectionEntry
  rw [h]

theorem Manifest.addNewCollectionEntry_ok (cfg : Config) (m : Manifest)
    (ids : ScopeCollectionPair) (s e : Int) (h : container.find m.map ids.2 = none) :
    ∃ m1, m.addNewCollectionEntry cfg ids s e = .ok m1 ∧
      m1.map = cfg.arrange (m.map ++ [(ids.2, ⟨ids.1, s, e, 0⟩)]) ∧
      m1.manifestUid = m.manifestUid :=
  ⟨_, Manifest.addNewCollectionEntry_eq cfg m ids s e h, rfl, rfl⟩

theorem Manifest.decodeLoop_ok (cfg : Config) (entries : List SerialisedManifestEntry) :
    ∀ (n i : Nat) (m : Manifest), i + n ≤ entries.length →
      (m.map.map Prod.fst ++
        ((entries.drop i).take n).map (fun s => s.collectionId)).Nodup →
      ∃ d, Manifest.decodeLoop cfg entries n i m = .ok d ∧
        d.map.Perm (m.map ++ ((entries.drop i).take n).map fromSerialised) ∧
        d.manifestUid = m.manifestUid ∧
        ((∀ l, cfg.arrange l = l) →
          d.map = m.map ++ ((entries.drop i).take n).map fromSerialised) := by
  intro n
  induction n with
  | zero =>
    intro i m _ _
    exact ⟨m, rfl, by simp, rfl, fun _ => by simp⟩
  | succ n ih =>
    intro i m hlen hnd
    have hi : i < entries.length := by omega
    have hdrop : entries.drop i = entries[i] :: entries.drop (i + 1) :=
      List.drop_eq_getElem_cons hi
    rw [hdrop, List.take_succ_cons] at hnd ⊢
    have hnone : container.find m.map entries[i].collectionId = none := by
      rw [container.find_eq_none_iff]
      intro hmem
      rw [List.nodup_append] at hnd
      exact hnd.2.2 hmem (by simp)
    obtain ⟨m1, hm1, hmap1, huid1⟩ := Manifest.addNewCollectionEntry_ok cfg m
      (entries[i].scopeId, entries[i].collectionId) entries[i].startSeqno entries[i].endSeqno
      hnone
    have hperm : m1.map.Perm (m.map ++ [fromSerialised entries[i]]) := by
      rw [hmap1]
      exact cfg.arrange_perm _
    unfold Manifest.decodeLoop
    rw [List.get?_eq_getElem?, List.getElem?_eq_getElem hi]
    simp only
    rw [hm1]
    simp only
    have hnd2 : (m1.map.map Prod.fst ++
        ((entries.drop (i + 1)).take n).map (fun s => s.collectionId)).Nodup := by
      refine (List.Perm.nodup_iff ?_).2 hnd
      refine ((hperm.map Prod.fst).append_right _).trans ?_
      simp [fromSerialised]
    obtain ⟨d, hd, hdp, hdu, hdid⟩ := ih (i + 1) m1 (by omega) hnd2
    refine ⟨d, hd, ?_, hdu.trans huid1, ?_⟩
    · refine hdp.trans ?_
      refine (hperm.append_right _).trans ?_
      simp
    · intro hid
      rw [hdid hid, hmap1, hid]
      simp [fromSerialised]

theorem container.find_map_snd (map : container) (g : ManifestEntry → ManifestEntry)
    (c : CollectionID) :
    container.find (map.map (fun p => (p.1, g p.2))) c = (container.find map c).map g := by
  induction map with
  | nil => simp [container.find]
  | cons p rest ih =>
    obtain ⟨k, e⟩ := p
    simp only [List.map_cons, container.find]
    by_cases hk : k = c
    · simp [hk]
    · simp only [hk, if_false]
      exact ih

/-- The constructor on a serialised manifest whose counted entries exist and
have distinct collection ids: the map holds exactly the counted entries. -/
theorem Manifest.construct_buffer_ok (cfg : Config) (s : SerialisedManifest)
    (hcount : s.entryCount ≤ s.entries.length)
    (hnd : ((s.entries.take s.entryCount).map (fun x => x.collectionId)).Nodup) :
    ∃ d, Manifest.construct cfg (.buffer s) = .ok d ∧
      d.map.Perm ((s.entries.take s.entryCount).map fromSerialised) ∧
      d.manifestUid = s.uid ∧
      ((∀ l, cfg.arrange l = l) →
        d.map = (s.entries.take s.entryCount).map fromSerialised) := by
  obtain ⟨d, hd, hp, hu, hid⟩ := Manifest.decodeLoop_ok cfg s.entries s.entryCount 0
    { Manifest.initial cfg with manifestUid := s.uid } (by omega)
    (by simpa [Manifest.initial] using hnd)
  refine ⟨d, hd, ?_, hu, ?_⟩
  · simpa [Manifest.initial] using hp
  · intro h
    simpa [Manifest.initial] using hid h

theorem container.erase_keys_not_mem (map : container) (c : CollectionID) :
    c ∉ (container.erase map c).map Prod.fst := by
  rw [← container.find_eq_none_iff, container.find_erase, if_pos rfl]

/-- The collection ids of the entries `populateWithSerialisedData` writes are
distinct. -/
theorem container.populated_keys_nodup (map : container) (c : CollectionID)
    (x : SerialisedManifestEntry) (hx : x.collectionId = c) (hwf : container.WF map) :
    (((container.erase map c).map toSerialised ++ [x]).map (fun s => s.collectionId)).Nodup := by
  have h1 : ((container.erase map c).map toSerialised).map (fun s => s.collectionId) =
      (container.erase map c).map Prod.fst := by
    rw [List.map_map]
    rfl
  rw [List.map_append, h1, List.nodup_append]
  refine ⟨container.WF_erase c hwf, by simp, ?_⟩
  intro a ha hb
  simp only [List.map_cons, List.map_nil, List.mem_singleton] at hb
  rw [hb, hx] at ha
  exact container.erase_keys_not_mem map c ha

/-- The lookups in the decoded form of what `populateWithSerialisedData` writes. -/
theorem container.find_populated (map : container) (c k : CollectionID)
    (x : SerialisedManifestEntry) (hx : x.collectionId = c) :
    (container.find (((container.erase map c).map toSerialised ++ [x]).map fromSerialised)
        k).map ManifestEntry.persisted =
      if k = c then some (x.scopeId, x.startSeqno, x.endSeqno)
      else (container.find map k).map ManifestEntry.persisted := by
  have h1 : ((container.erase map c).map toSerialised).map fromSerialised =
      (container.erase map c).map
        (fun p => (p.1, (⟨p.2.scopeID, p.2.startSeqno, p.2.endSeqno, 0⟩ : ManifestEntry))) := by
    rw [List.map_map]
    rfl
  rw [List.map_append, h1, container.find_append,
    container.find_map_snd (container.erase map c)
      (fun e => (⟨e.scopeID, e.startSeqno, e.endSeqno, 0⟩ : ManifestEntry)),
    container.find_erase]
  by_cases hk : k = c
  · subst hk
    simp [container.find, fromSerialised, hx, ManifestEntry.persisted]
  · have hk2 : ¬ x.collectionId = k := by
      rw [hx]
      exact fun h => hk h.symm
    rw [if_neg hk, if_neg hk]
    cases hf : container.find map k with
    | none => simp [container.find, fromSerialised, hk2]
    | some e => simp [ManifestEntry.persisted]

/-- The constructor on an unpatched serialised manifest (every physical entry
is counted) with distinct collection ids. -/
theorem Manifest.construct_buffer_full (cfg : Config) (s : SerialisedManifest)
    (hcount : s.entryCount = s.entries.length)
    (hnd : (s.entries.map (fun x => x.collectionId)).Nodup) :
    ∃ d, Manifest.construct cfg (.buffer s) = .ok d ∧
      d.map.Perm (s.entries.map fromSerialised) ∧ d.manifestUid = s.uid ∧
      ((∀ l, cfg.arrange l = l) → d.map = s.entries.map fromSerialised) := by
  have ht : s.entries.take s.entryCount = s.entries := by
    rw [hcount]
    exact List.take_length _
  obtain ⟨d, hd, hp, hu, hid⟩ :=
    Manifest.construct_buffer_ok cfg s (by omega) (by rw [ht]; exact hnd)
  rw [ht] at hp hid
  exact ⟨d, hd, hp, hu, hid⟩

/-- Decoding what `populateWithSerialisedData` writes for a collection that
has an entry under the scope of the identifiers gives back the manifest uid and
the lookups of the map. -/
theorem Manifest.construct_populate_ok (cfg : Config) (m : Manifest)
    (ids : ScopeCollectionPair) (e : ManifestEntry) (hwf : container.WF m.map)
    (hf : container.find m.map ids.2 = some e) (hs : e.scopeID = ids.1) :
    ∃ d, Manifest.construct cfg (.buffer (m.populateWithSerialisedData cfg ids)) = .ok d ∧
      d.manifestUid = m.manifestUid ∧
      ∀ c, (container.find d.map c).map ManifestEntry.persisted =
        (container.find m.map c).map ManifestEntry.persisted := by
  rw [Manifest.populateWithSerialisedData_eq cfg m ids hwf, hf]
  have hnd := container.populated_keys_nodup m.map ids.2
    (⟨e.startSeqno, e.endSeqno, ids.1, ids.2⟩ : SerialisedManifestEntry) rfl hwf
  obtain ⟨d, hd, hp, hu, _⟩ := Manifest.construct_buffer_full cfg
    { uid := m.manifestUid
      entryCount := (container.erase m.map ids.2).length + 1
      entries := (container.erase m.map ids.2).map toSerialised ++
        [⟨e.startSeqno, e.endSeqno, ids.1, ids.2⟩] }
    (by simp) hnd
  refine ⟨d, hd, hu, ?_⟩
  intro c
  have hwfd : container.WF (((container.erase m.map ids.2).map toSerialised ++
      [(⟨e.startSeqno, e.endSeqno, ids.1, ids.2⟩ : SerialisedManifestEntry)]).map
        fromSerialised) := by
    unfold container.WF
    rw [List.map_map]
    exact hnd
  rw [← container.find_perm hp.symm hwfd c, container.find_populated m.map ids.2 c _ rfl]
  by_cases hc : c = ids.2
  · subst hc
    rw [if_pos rfl, hf]
    simp [ManifestEntry.persisted, hs]
  · rw [if_neg hc]

/-- C5. Round trip: when the map (with distinct keys) has an entry for the
collection of the identifiers, under the scope of the identifiers, the
constructor accepts the buffer `populateWithSerialisedData` builds and yields
a manifest with the same manifest uid and the same map: every collection id is
looked up to the same scope, start seqno and end seqno (or to nothing). -/
theorem Manifest.construct_populate_roundtrip (cfg : Config) (m : Manifest)
    (ids : ScopeCollectionPair) (e : ManifestEntry) (hwf : container.WF m.map)
    (hf : container.find m.map ids.2 = some e) (hs : e.scopeID = ids.1) :
    ∃ d, Manifest.construct cfg (.buffer (m.populateWithSerialisedData cfg ids)) = .ok d ∧
      d.manifestUid = m.manifestUid ∧
      ∀ c, (container.find d.map c).map ManifestEntry.persisted =
        (container.find m.map c).map ManifestEntry.persisted := by
  rw [Manifest.populateWithSerialisedData_eq cfg m ids hwf, hf]
  have hnd := container.populated_keys_nodup m.map ids.2
    (⟨e.startSeqno, e.endSeqno, ids.1, ids.2⟩ : SerialisedManifestEntry) rfl hwf
  obtain ⟨d, hd, hp, hu, _⟩ := Manifest.construct_buffer_full cfg
    { uid := m.manifestUid
      entryCount := (container.erase m.map ids.2).length + 1
      entries := (container.erase m.map ids.2).map toSerialised ++
        [⟨e.startSeqno, e.endSeqno, ids.1, ids.2⟩] }
    (by simp) hnd
  refine ⟨d, hd, hu, ?_⟩
  intro c
  have hwfd : container.WF (((container.erase m.map ids.2).map toSerialised ++
      [(⟨e.startSeqno, e.endSeqno, ids.1, ids.2⟩ : SerialisedManifestEntry)]).map
        fromSerialised) := by
    unfold container.WF
    rw [List.map_map]
    exact hnd
  rw [← container.find_perm hp.symm hwfd c, container.find_populated m.map ids.2 c _ rfl]
  by_cases hc : c = ids.2
  · subst hc
    rw [if_pos rfl, hf]
    simp [ManifestEntry.persisted, hs]
  · rw [if_neg hc]

theorem Manifest.sampleOpen_WF : container.WF Manifest.sampleOpen.map := by
  unfold container.WF
  decide

theorem Manifest.construct_populate_roundtrip_witness :
    ∃ d, Manifest.construct Config.frontInsertion
        (.buffer (Manifest.sampleOpen.populateWithSerialisedData Config.frontInsertion
          (2, 8))) = .ok d ∧
      d.manifestUid = Manifest.sampleOpen.manifestUid ∧
      ∀ c, (container.find d.map c).map ManifestEntry.persisted =
        (container.find Manifest.sampleOpen.map c).map ManifestEntry.persisted :=
  Manifest.construct_populate_roundtrip Config.frontInsertion Manifest.sampleOpen (2, 8)
    ⟨2, 4, -6, 0⟩ Manifest.sampleOpen_WF (by decide) rfl

/-- C7 (as stated, refuted). For a collection that has an entry in the map, the
last entry of the buffer is not the pair with two placeholder seqnos: the
start seqno of collection 8 is copied. -/
theorem Manifest.populate_last_entry_not_placeholder :
    (Manifest.sampleOpen.populateWithSerialisedData Config.insertionOrder (2, 8)).entries.getLast? ≠
      some ⟨Config.insertionOrder.state_collection_open,
        Config.insertionOrder.state_collection_open, 2, 8⟩ := by
  decide

/-- C7 (amended). The buffer `populateWithSerialisedData` builds for the
identifiers (s, c) has the manifest uid, an entryCount equal to its number of
physical entries, one verbatim copy of every map element other than c, in map
iteration order, and as last entry (s, c) with the start and end seqno of the
map's entry for c when there is one, and with both set to the placeholder when
there is none. -/
theorem Manifest.populateWithSerialisedData_layout (cfg : Config) (m : Manifest)
    (s : ScopeID) (c : CollectionID) (hwf : container.WF m.map) :
    (m.populateWithSerialisedData cfg (s, c)).uid = m.manifestUid ∧
    (m.populateWithSerialisedData cfg (s, c)).entryCount =
      (m.populateWithSerialisedData cfg (s, c)).entries.length ∧
    (m.populateWithSerialisedData cfg (s, c)).entries.dropLast =
      (m.map.filter (fun p => decide (p.1 ≠ c))).map toSerialised ∧
    (m.populateWithSerialisedData cfg (s, c)).entries.getLast? =
      some (match container.find m.map c with
        | some e => ⟨e.startSeqno, e.endSeqno, s, c⟩
        | none => ⟨cfg.state_collection_open, cfg.state_collection_open, s, c⟩) := by
  rw [Manifest.populateWithSerialisedData_eq cfg m (s, c) hwf]
  refine ⟨rfl, ?_, ?_, ?_⟩
  · simp
  · simp only [List.dropLast_concat]
    rfl
  · simp only [List.getLast?_concat]

theorem Manifest.populateWithSerialisedData_layout_witness :
    (Manifest.sampleOpen.populateWithSerialisedData Config.insertionOrder (2, 8)).uid =
      Manifest.sampleOpen.manifestUid ∧
    (Manifest.sampleOpen.populateWithSerialisedData Config.insertionOrder (2, 8)).entryCount =
      (Manifest.sampleOpen.populateWithSerialisedData Config.insertionOrder (2, 8)).entries.length ∧
    (Manifest.sampleOpen.populateWithSerialisedData Config.insertionOrder (2, 8)).entries.dropLast =
      (Manifest.sampleOpen.map.filter (fun p => decide (p.1 ≠ 8))).map toSerialised ∧
    (Manifest.sampleOpen.populateWithSerialisedData Config.insertionOrder (2, 8)).entries.getLast? =
      some (match container.find Manifest.sampleOpen.map 8 with
        | some e => ⟨e.startSeqno, e.endSeqno, 2, 8⟩
        | none => ⟨Config.insertionOrder.state_collection_open,
            Config.insertionOrder.state_collection_open, 2, 8⟩) :=
  Manifest.populateWithSerialisedData_layout Config.insertionOrder Manifest.sampleOpen 2 8
    Manifest.sampleOpen_WF

theorem Manifest.sampleFront_populate :
    Manifest.sampleFront.populateWithSerialisedData Config.frontInsertion (0, 7) =
      SerialisedManifest.sampleFront := by
  decide

/-- C9 (as stated, refuted). With a container that puts a new element first,
the buffer written for a manifest holding the collections 3, 5 and 7 is
decoded and encoded again into a buffer with its first two entries swapped. -/
theorem Manifest.reencode_not_identical :
    ∃ d, Manifest.construct Config.frontInsertion (.buffer SerialisedManifest.sampleFront) =
        .ok d ∧
      d.populateWithSerialisedData Config.frontInsertion (0, 7) ≠
        SerialisedManifest.sampleFront :=
  ⟨_, rfl, by decide⟩

theorem toSerialised_fromSerialised (x : SerialisedManifestEntry) :
    toSerialised (fromSerialised x) = x := rfl

/-- Erasing the key of the last entry from the decoded entries of a buffer
with distinct collection ids leaves the decoded earlier entries. -/
theorem container.erase_decoded (init : List SerialisedManifestEntry)
    (last : SerialisedManifestEntry)
    (hnd : ((init ++ [last]).map (fun x => x.collectionId)).Nodup) :
    container.erase ((init ++ [last]).map fromSerialised) last.collectionId =
      init.map fromSerialised := by
  unfold container.erase
  rw [List.map_append, List.filter_append]
  have h1 : (init.map fromSerialised).filter (fun p => decide (p.1 ≠ last.collectionId)) =
      init.map fromSerialised := by
    rw [List.filter_eq_self]
    intro p hp
    rw [List.mem_map] at hp
    obtain ⟨x, hx, rfl⟩ := hp
    simp only [fromSerialised, ne_eq, decide_eq_true_eq]
    intro hc
    rw [List.map_append, List.nodup_append] at hnd
    exact hnd.2.2 (List.mem_map_of_mem (fun x => x.collectionId) hx) (by simp [hc])
  rw [h1]
  simp [fromSerialised]

/-- C9 (amended). Decoding a structurally valid, unpatched buffer with distinct
collection ids and encoding the manifest again with the identifiers of the
buffer's last entry gives a buffer with the same uid, the same entryCount, the
same last entry and the same entries up to their order; it is the same buffer
when the container iterates in insertion order. -/
theorem Manifest.reencode_same_entries (cfg : Config) (B : SerialisedManifest)
    (last : SerialisedManifestEntry) (hcount : B.entryCount = B.entries.length)
    (hnd : (B.entries.map (fun x => x.collectionId)).Nodup)
    (hlast : B.entries.getLast? = some last) :
    ∃ d, Manifest.construct cfg (.buffer B) = .ok d ∧
      (d.populateWithSerialisedData cfg (last.scopeId, last.collectionId)).uid = B.uid ∧
      (d.populateWithSerialisedData cfg (last.scopeId, last.collectionId)).entryCount =
        B.entryCount ∧
      (d.populateWithSerialisedData cfg (last.scopeId, last.collectionId)).entries.getLast? =
        some last ∧
      (d.populateWithSerialisedData cfg (last.scopeId, last.collectionId)).entries.Perm
        B.entries ∧
      ((∀ l, cfg.arrange l = l) →
        d.populateWithSerialisedData cfg (last.scopeId, last.collectionId) = B) := by
  obtain ⟨d, hd, hp, hu, hid⟩ := Manifest.construct_buffer_full cfg B hcount hnd
  have hB : B.entries.dropLast ++ [last] = B.entries := List.dropLast_append_getLast? last hlast
  have hwfL : container.WF (B.entries.map fromSerialised) := by
    unfold container.WF
    rw [List.map_map]
    exact hnd
  have hwfd : container.WF d.map := container.WF_perm hp.symm hwfL
  have hfind : container.find d.map last.collectionId = some (fromSerialised last).2 := by
    rw [container.find_perm hp hwfd, container.find_eq_some_iff hwfL]
    rw [← hB]
    simp [fromSerialised]
  have herase : (container.erase d.map last.collectionId).Perm
      (B.entries.dropLast.map fromSerialised) := by
    have h1 : (container.erase d.map last.collectionId).Perm
        (container.erase (B.entries.map fromSerialised) last.collectionId) :=
      hp.filter _
    rw [← hB] at h1 hnd
    rw [container.erase_decoded _ _ hnd] at h1
    simpa using h1
  have hlen : (container.erase d.map last.collectionId).length + 1 = B.entries.length := by
    rw [herase.length_eq, ← hB]
    simp
  refine ⟨d, hd, ?_⟩
  rw [Manifest.populateWithSerialisedData_eq cfg d _ hwfd, hfind]
  refine ⟨hu, ?_, ?_, ?_, ?_⟩
  · simp only
    rw [hlen, hcount]
  · simp [fromSerialised]
  · simp only
    rw [← hB]
    refine List.Perm.append ?_ (List.Perm.refl _)
    have hcomp : toSerialised ∘ fromSerialised = id := funext toSerialised_fromSerialised
    have h2 := herase.map toSerialised
    rw [List.map_map, hcomp, List.map_id] at h2
    exact h2
  · intro h
    have hd2 := hid h
    have he2 : container.erase d.map last.collectionId =
        B.entries.dropLast.map fromSerialised := by
      rw [hd2]
      have hnd2 := hnd
      rw [← hB] at hnd2
      have := container.erase_decoded _ _ hnd2
      rw [hB] at this
      exact this
    rw [he2]
    cases B with
    | mk uid entryCount entries =>
      simp only at hcount hB hu ⊢
      simp only [SerialisedManifest.mk.injEq]
      refine ⟨hu, ?_, ?_⟩
      · rw [hcount, ← hB]
        simp
      · have hcomp : toSerialised ∘ fromSerialised = id := funext toSerialised_fromSerialised
        rw [List.map_map, hcomp, List.map_id]
        exact hB

theorem Manifest.reencode_same_entries_witness :
    ∃ d, Manifest.construct Config.frontInsertion (.buffer SerialisedManifest.sampleFront) =
        .ok d ∧
      (d.populateWithSerialisedData Config.frontInsertion (0, 7)).uid =
        SerialisedManifest.sampleFront.uid ∧
      (d.populateWithSerialisedData Config.frontInsertion (0, 7)).entryCount =
        SerialisedManifest.sampleFront.entryCount ∧
      (d.populateWithSerialisedData Config.frontInsertion (0, 7)).entries.getLast? =
        some ⟨3, -6, 0, 7⟩ ∧
      (d.populateWithSerialisedData Config.frontInsertion (0, 7)).entries.Perm
        SerialisedManifest.sampleFront.entries ∧
      ((∀ l, Config.frontInsertion.arrange l = l) →
        d.populateWithSerialisedData Config.frontInsertion (0, 7) =
          SerialisedManifest.sampleFront) :=
  Manifest.reencode_same_entries Config.frontInsertion SerialisedManifest.sampleFront
    ⟨3, -6, 0, 7⟩ (by decide) (by decide) (by decide)

/-! ## Patching the payload of a queued event -/

theorem patchLast_snoc (f : SerialisedManifestEntry → SerialisedManifestEntry)
    (X : List SerialisedManifestEntry) (x : SerialisedManifestEntry) :
    patchLast f (X ++ [x]) = some (X ++ [f x]) := by
  induction X with
  | nil => rfl
  | cons a rest ih =>
    cases hr : rest ++ [x] with
    | nil => simp at hr
    | cons e1 tl =>
      rw [List.cons_append, hr]
      unfold patchLast
      rw [← hr, ih]
      rfl

/-- The patch of a Collection event: the write of the seqno into the last
physical entry, or the logic error of a failed write. -/
theorem Manifest.patchSerialisedData_collection (cfg : Config) (item : Item)
    (s : SerialisedManifest) (X : List SerialisedManifestEntry) (x : SerialisedManifestEntry)
    (hflags : item.flags = SystemEvent.Collection) (hdata : item.data = .buffer s)
    (hentries : s.entries = X ++ [x]) :
    Manifest.patchSerialisedData cfg item =
      if item.deleted = true then
        (if cfg.mutate_endSeqno x item.bySeqno = true then
          .ok (.buffer { s with entries := X ++ [{ x with endSeqno := item.bySeqno }] })
        else .error Error.logic_error)
      else
        (if cfg.mutate_startSeqno x item.bySeqno = true then
          .ok (.buffer { s with entries := X ++ [{ x with startSeqno := item.bySeqno }] })
        else .error Error.logic_error) := by
  unfold Manifest.patchSerialisedData
  rw [if_pos hflags, hdata]
  simp only [hentries, List.getLast?_concat, patchLast_snoc]
  cases hdel : item.deleted with
  | true =>
    cases hm : cfg.mutate_endSeqno x item.bySeqno <;> simp [hm]
  | false =>
    cases hm : cfg.mutate_startSeqno x item.bySeqno <;> simp [hm]

/-- The patch of a DeleteCollectionHard event: the write of the entry count
less one (a 32 bit value), or the logic error of a failed write. -/
theorem Manifest.patchSerialisedData_hard (cfg : Config) (item : Item)
    (s : SerialisedManifest) (hflags : item.flags = SystemEvent.DeleteCollectionHard)
    (hdata : item.data = .buffer s) :
    Manifest.patchSerialisedData cfg item =
      if cfg.mutate_entryCount s ((s.entryCount + 4294967296 - 1) % 4294967296) = true then
        .ok (.buffer { s with
          entryCount := (s.entryCount + 4294967296 - 1) % 4294967296 })
      else .error Error.logic_error := by
  unfold Manifest.patchSerialisedData
  rw [hflags, hdata]
  simp only [reduceCtorEq, if_false, if_true]
  cases hm : cfg.mutate_entryCount s ((s.entryCount + 4294967296 - 1) % 4294967296) <;>
    simp

theorem container.erase_modify (map : container) (c : CollectionID)
    (g : ManifestEntry → ManifestEntry) :
    container.erase (container.modify map c g) c = container.erase map c := by
  induction map with
  | nil => rfl
  | cons p rest ih =>
    obtain ⟨k, e⟩ := p
    rw [container.modify_cons]
    unfold container.erase at ih ⊢
    by_cases hk : k = c
    · rw [if_pos hk]
      simp only [List.filter_cons, ne_eq, hk, not_true_eq_false, decide_False,
        Bool.false_eq_true, if_false]
      rw [← hk]
      rw [← hk] at ih
      exact ih
    · rw [if_neg hk]
      simp only [List.filter_cons, ne_eq, hk, not_false_eq_true, decide_True, if_true]
      rw [ih]

/-- Patching the payload written for a collection gives the payload of the
manifest whose entry for the collection has got the seqno of the event, when
the seqno field that is written holds a value other than 0. -/
theorem Manifest.patch_collection_event (cfg : Config) (m m2 : Manifest)
    (ids : ScopeCollectionPair) (e : ManifestEntry) (del : Bool) (s : Int) (k : List Nat)
    (hwf : container.WF m.map) (hf : container.find m.map ids.2 = some e)
    (huid : m2.manifestUid = m.manifestUid)
    (hmap : m2.map = container.modify m.map ids.2
      (fun x => if del then x.setEndSeqno s else x.setStartSeqno s))
    (hstored : (if del then e.endSeqno else e.startSeqno) ≠ 0) :
    Manifest.patchSerialisedData cfg
        { flags := SystemEvent.Collection
          keyExtra := k
          data := .buffer (m.populateWithSerialisedData cfg ids)
          deleted := del
          bySeqno := s } =
      .ok (.buffer (m2.populateWithSerialisedData cfg ids)) := by
  have hwf2 : container.WF m2.map := by
    rw [hmap]
    exact container.WF_modify _ _ hwf
  have hf2 : container.find m2.map ids.2 =
      some (if del then e.setEndSeqno s else e.setStartSeqno s) := by
    rw [hmap, container.find_modify, if_pos rfl, hf]
    rfl
  rw [Manifest.populateWithSerialisedData_eq cfg m ids hwf,
    Manifest.populateWithSerialisedData_eq cfg m2 ids hwf2, hf, hf2, hmap,
    container.erase_modify, huid]
  rw [Manifest.patchSerialisedData_collection cfg _ _ _ _ rfl rfl rfl]
  cases del with
  | true =>
    simp only [if_true] at hstored
    rw [if_pos rfl, if_pos (cfg.mutate_endSeqno_stored _ s hstored)]
    simp [ManifestEntry.setEndSeqno]
  | false =>
    simp only [Bool.false_eq_true, if_false] at hstored
    rw [if_neg (by simp), if_pos (cfg.mutate_startSeqno_stored _ s hstored)]
    simp [ManifestEntry.setStartSeqno]

theorem Manifest.addCollection_persists (cfg : Config) (m : Manifest) (vb : VBucket)
    (uid : ManifestUid) (ids : ScopeCollectionPair) (seq : Option Int) (m' : Manifest)
    (vb' : VBucket) (hwf : container.WF m.map) (hsentinel : cfg.state_collection_open ≠ 0)
    (h : m.addCollection cfg vb uid ids seq = .ok (m', vb')) :
    ∃ item, vb'.queued = vb.queued ++ [(item, seq)] ∧
      item.flags = SystemEvent.Collection ∧ item.deleted = false ∧
      item.bySeqno = vb.nextSeqno seq ∧ persistsAs cfg item m' := by
  unfold Manifest.addCollection at h
  cases hfind : container.find m.map ids.2 with
  | some x =>
    rw [Manifest.addNewCollectionEntry_exists cfg m ids _ _ x hfind] at h
    cases h
  | none =>
    obtain ⟨m1, hm1, hmap1, huid1⟩ :=
      Manifest.addNewCollectionEntry_ok cfg m ids cfg.state_collection_open
        cfg.state_collection_open hfind
    rw [hm1] at h
    simp only [Except.ok.injEq, Prod.mk.injEq] at h
    obtain ⟨h1, h2⟩ := h
    have hq := Manifest.queueSystemEvent_eq cfg { m1 with manifestUid := uid } vb
      SystemEvent.Collection ids false seq
    have hperm : m1.map.Perm (m.map ++ [(ids.2, ⟨ids.1, cfg.state_collection_open, cfg.state_collection_open, 0⟩)]) := by
      rw [hmap1]
      exact cfg.arrange_perm _
    have hwfa : container.WF (m.map ++ [(ids.2, ⟨ids.1, cfg.state_collection_open, cfg.state_collection_open, 0⟩)]) :=
      container.WF_append_singleton _ hwf hfind
    have hwf1 : container.WF m1.map := container.WF_perm hperm.symm hwfa
    have hf1 : container.find m1.map ids.2 =
        some ⟨ids.1, cfg.state_collection_open, cfg.state_collection_open, 0⟩ := by
      rw [container.find_perm hperm hwf1, container.find_append, hfind]
      simp [container.find]
    refine ⟨{ flags := SystemEvent.Collection
              keyExtra := Manifest.makeCollectionIdIntoString ids.2
              data := .buffer
                (Manifest.populateWithSerialisedData cfg { m1 with manifestUid := uid } ids)
              deleted := false
              bySeqno := vb.nextSeqno seq }, ?_, rfl, rfl, rfl, ?_⟩
    · rw [← h2]
      exact hq.2.1
    · have hmap' : m'.map = container.modify m1.map ids.2
          (fun x => x.setStartSeqno (vb.nextSeqno seq)) := by
        rw [← h1, ← hq.1]
      have huid' : m'.manifestUid = uid := by
        rw [← h1]
      have hwf' : container.WF m'.map := by
        rw [hmap']
        exact container.WF_modify _ _ hwf1
      have hf' : container.find m'.map ids.2 =
          some ((⟨ids.1, cfg.state_collection_open, cfg.state_collection_open, 0⟩ : ManifestEntry).setStartSeqno
            (vb.nextSeqno seq)) := by
        rw [hmap', container.find_modify, if_pos rfl, hf1]
        rfl
      have hpatch := Manifest.patch_collection_event cfg { m1 with manifestUid := uid } m' ids
        ⟨ids.1, cfg.state_collection_open, cfg.state_collection_open, 0⟩ false (vb.nextSeqno seq)
        (Manifest.makeCollectionIdIntoString ids.2) hwf1 hf1 huid'
        (by rw [hmap']; rfl) (by simpa using hsentinel)
      obtain ⟨d, hd, hdu, hdm⟩ := Manifest.construct_populate_ok cfg m' ids _ hwf' hf' rfl
      exact ⟨_, d, hpatch, hd, hdu, hdm⟩

theorem Manifest.getManifestEntry_eq_ok (m : Manifest) (c : CollectionID)
    (e : ManifestEntry) (h : container.find m.map c = some e) :
    m.getManifestEntry c = .ok e := by
  unfold Manifest.getManifestEntry
  rw [h]

theorem Manifest.beginCollectionDelete_persists (cfg : Config) (m : Manifest) (vb : VBucket)
    (uid : ManifestUid) (ids : ScopeCollectionPair) (seq : Option Int) (m' : Manifest)
    (vb' : VBucket) (e : ManifestEntry) (hwf : container.WF m.map)
    (hf : container.find m.map ids.2 = some e) (hs : e.scopeID = ids.1)
    (hend : e.endSeqno ≠ 0)
    (h : m.beginCollectionDelete cfg vb uid ids seq = .ok (m', vb')) :
    ∃ item, vb'.queued = vb.queued ++ [(item, seq)] ∧
      item.flags = SystemEvent.Collection ∧ item.deleted = true ∧
      item.bySeqno = vb.nextSeqno seq ∧ persistsAs cfg item m' := by
  unfold Manifest.beginCollectionDelete at h
  rw [Manifest.getManifestEntry_eq_ok m ids.2 e hf] at h
  simp only [Except.ok.injEq, Prod.mk.injEq] at h
  obtain ⟨h1, h2⟩ := h
  have hq := Manifest.queueSystemEvent_eq cfg { m with manifestUid := uid } vb
    SystemEvent.Collection ids true seq
  have hmap' : m'.map = container.modify m.map ids.2
      (fun x => x.setEndSeqno (vb.nextSeqno seq)) := by
    rw [← h1, Manifest.trackEndSeqno_map, hq.1]
    split <;> rfl
  have huid' : m'.manifestUid = uid := by
    rw [← h1, Manifest.trackEndSeqno_manifestUid]
    split <;> rfl
  refine ⟨{ flags := SystemEvent.Collection
            keyExtra := Manifest.makeCollectionIdIntoString ids.2
            data := .buffer
              (Manifest.populateWithSerialisedData cfg { m with manifestUid := uid } ids)
            deleted := true
            bySeqno := vb.nextSeqno seq }, ?_, rfl, rfl, rfl, ?_⟩
  · rw [← h2]
    exact hq.2.1
  · have hwf' : container.WF m'.map := by
      rw [hmap']
      exact container.WF_modify _ _ hwf
    have hf' : container.find m'.map ids.2 = some (e.setEndSeqno (vb.nextSeqno seq)) := by
      rw [hmap', container.find_modify, if_pos rfl, hf]
      rfl
    have hpatch := Manifest.patch_collection_event cfg { m with manifestUid := uid } m' ids
      e true (vb.nextSeqno seq) (Manifest.makeCollectionIdIntoString ids.2) hwf hf huid'
      (by rw [hmap']; rfl) (by simpa using hend)
    obtain ⟨d, hd, hdu, hdm⟩ := Manifest.construct_populate_ok cfg m' ids _ hwf' hf' hs
    exact ⟨_, d, hpatch, hd, hdu, hdm⟩

/-- C4 (as stated, refuted). `beginCollectionDelete` of collection 8, whose
entry has scope 2, with identifiers that name scope 7 succeeds; the patched
payload of its event decodes to an entry of scope 7 for collection 8, the
manifest in memory keeps scope 2. And `beginCollectionDelete` of collection 8
with the scope of its entry, the entry having end seqno 0, succeeds with a
payload whose last entry has end seqno 0, a field that is not stored: the
write of the seqno 1 of the event fails and `patchSerialisedData` raises. -/
theorem Manifest.beginCollectionDelete_scope_mismatch :
    (∃ m' vb' item patched d,
      Manifest.sampleOpen.beginCollectionDelete Config.insertionOrder VBucket.fresh 2 (7, 8)
        none = .ok (m', vb') ∧
      vb'.queued = [(item, none)] ∧
      Manifest.patchSerialisedData Config.insertionOrder item = .ok patched ∧
      Manifest.construct Config.insertionOrder patched = .ok d ∧
      (container.find d.map 8).map ManifestEntry.persisted ≠
        (container.find m'.map 8).map ManifestEntry.persisted) ∧
    (∃ m' vb' item,
      Manifest.sampleEndZero.beginCollectionDelete Config.insertionOrder VBucket.fresh 2
        (2, 8) none = .ok (m', vb') ∧
      vb'.queued = [(item, none)] ∧
      item.bySeqno = 1 ∧
      Manifest.patchSerialisedData Config.insertionOrder item =
        .error Error.logic_error) :=
  ⟨⟨_, _, _, _, _, rfl, rfl, rfl, rfl, by decide⟩, ⟨_, _, _, rfl, rfl, rfl, rfl⟩⟩

/-- C4 (amended). For `addCollection`, and for `beginCollectionDelete` called
with the scope of the collection's entry, on a manifest with distinct keys,
the seqno field that the patch writes holding a value other than 0 (the
sentinel, which is not 0, for `addCollection` and for an entry that is Open,
the end seqno of the entry for `beginCollectionDelete`): when the operation
succeeds it queues one event (with the explicit seqno it was given, if any)
whose seqno is the one the log assigned; patching the payload of that event
and constructing a manifest from the result succeed and give the manifest uid
and the map (every collection id with the same scope, start seqno and end
seqno) the manifest has when the operation returns. -/
theorem Manifest.queued_payload_roundtrip (cfg : Config) (m : Manifest) (vb : VBucket)
    (uid : ManifestUid) (ids : ScopeCollectionPair) (seq : Option Int) (m' : Manifest)
    (vb' : VBucket) (hwf : container.WF m.map) (hsentinel : cfg.state_collection_open ≠ 0) :
    (m.addCollection cfg vb uid ids seq = .ok (m', vb') →
      ∃ item, vb'.queued = vb.queued ++ [(item, seq)] ∧
        item.flags = SystemEvent.Collection ∧ item.deleted = false ∧
        item.bySeqno = vb.nextSeqno seq ∧ persistsAs cfg item m') ∧
    (m.beginCollectionDelete cfg vb uid ids seq = .ok (m', vb') →
      (∀ e, container.find m.map ids.2 = some e → e.scopeID = ids.1 ∧ e.endSeqno ≠ 0) →
      ∃ item, vb'.queued = vb.queued ++ [(item, seq)] ∧
        item.flags = SystemEvent.Collection ∧ item.deleted = true ∧
        item.bySeqno = vb.nextSeqno seq ∧ persistsAs cfg item m') := by
  constructor
  · intro h
    exact Manifest.addCollection_persists cfg m vb uid ids seq m' vb' hwf hsentinel h
  · intro h hscope
    cases hf : container.find m.map ids.2 with
    | none =>
      unfold Manifest.beginCollectionDelete Manifest.getManifestEntry at h
      rw [hf] at h
      cases h
    | some e =>
      exact Manifest.beginCollectionDelete_persists cfg m vb uid ids seq m' vb' e hwf hf
        (hscope e hf).1 (hscope e hf).2 h

theorem Manifest.queued_payload_roundtrip_witness :
    (∃ m' vb', Manifest.sampleOpen.addCollection Config.frontInsertion VBucket.fresh 2 (2, 11)
        none = .ok (m', vb') ∧
      ∃ item, vb'.queued = VBucket.fresh.queued ++ [(item, none)] ∧
        item.flags = SystemEvent.Collection ∧ item.deleted = false ∧
        item.bySeqno = VBucket.fresh.nextSeqno none ∧
        persistsAs Config.frontInsertion item m') ∧
    (∃ m' vb', Manifest.sampleOpen.beginCollectionDelete Config.frontInsertion VBucket.fresh 2
        (2, 8) (some 40) = .ok (m', vb') ∧
      ∃ item, vb'.queued = VBucket.fresh.queued ++ [(item, some 40)] ∧
        item.flags = SystemEvent.Collection ∧ item.deleted = true ∧
        item.bySeqno = VBucket.fresh.nextSeqno (some 40) ∧
        persistsAs Config.frontInsertion item m') :=
  ⟨⟨_, _, rfl,
      (Manifest.queued_payload_roundtrip Config.frontInsertion Manifest.sampleOpen
        VBucket.fresh 2 (2, 11) none _ _ Manifest.sampleOpen_WF (by decide)).1 rfl⟩,
    ⟨_, _, rfl,
      (Manifest.queued_payload_roundtrip Config.frontInsertion Manifest.sampleOpen
        VBucket.fresh 2 (2, 8) (some 40) _ _ Manifest.sampleOpen_WF (by decide)).2 rfl
        (fun e he => by
          have h2 : Manifest.sampleOpen.map.find 8 = some ⟨2, 4, -6, 0⟩ := by decide
          rw [h2] at he
          cases he
          exact ⟨rfl, by decide⟩)⟩⟩

/-! ## Completing a deletion -/

/-- What `completeDeletion` does for a collection whose entry is Deleting. -/
theorem Manifest.completeDeletion_eq (cfg : Config) (intermediate : Except Error SystemEvent)
    (m : Manifest) (vb : VBucket) (c : CollectionID) (e : ManifestEntry)
    (hf : container.find m.map c = some e) (hd : e.isDeleting cfg = true) :
    m.completeDeletion cfg intermediate vb c =
      .ok ({ map := container.erase m.map c
             manifestUid := m.manifestUid
             defaultCollectionExists := m.defaultCollectionExists
             greatestEndSeqno :=
               if m.nDeletingCollections - 1 = 0 then cfg.state_collection_open
               else m.greatestEndSeqno
             nDeletingCollections := m.nDeletingCollections - 1 },
        (Manifest.queueSystemEvent cfg
          { map := container.erase m.map c
            manifestUid := m.manifestUid
            defaultCollectionExists := m.defaultCollectionExists
            greatestEndSeqno :=
              if m.nDeletingCollections - 1 = 0 then cfg.state_collection_open
              else m.greatestEndSeqno
            nDeletingCollections := m.nDeletingCollections - 1 }
          vb SystemEvent.DeleteCollectionHard (e.scopeID, c) false none).2) := by
  unfold Manifest.completeDeletion
  rw [hf]
  simp only [ManifestEntry.completeDeletion, hd, if_true]
  by_cases hn : m.nDeletingCollections - 1 = 0 <;> simp [hn]

theorem container.erase_erase (map : container) (c : CollectionID) :
    container.erase (container.erase map c) c = container.erase map c := by
  unfold container.erase
  rw [List.filter_filter]
  simp

theorem container.erase_length_lt (map : container) (c : CollectionID)
    (hwf : container.WF map) : (container.erase map c).length < 4294967296 := by
  have hnd : ((container.erase map c).map Prod.fst ++ [c]).Nodup := by
    rw [List.nodup_append]
    refine ⟨container.WF_erase c hwf, List.nodup_singleton _, ?_⟩
    intro a ha hb
    simp only [List.mem_singleton] at hb
    subst hb
    exact container.erase_keys_not_mem map a ha
  have hle := List.Nodup.length_le_card hnd
  simp only [List.length_append, List.length_map, List.length_singleton, Fintype.card_fin] at hle
  omega

theorem container.find_decoded (map : container) (k : CollectionID) :
    (container.find ((map.map toSerialised).map fromSerialised) k).map ManifestEntry.persisted =
      (container.find map k).map ManifestEntry.persisted := by
  have h1 : (map.map toSerialised).map fromSerialised =
      map.map (fun p => (p.1, (⟨p.2.scopeID, p.2.startSeqno, p.2.endSeqno, 0⟩ : ManifestEntry))) := by
    rw [List.map_map]
    rfl
  rw [h1, container.find_map_snd map
    (fun e => (⟨e.scopeID, e.startSeqno, e.endSeqno, 0⟩ : ManifestEntry))]
  cases container.find map k <;> rfl

/-- C6. For a manifest (with distinct keys) in which collection C is Deleting,
`completeDeletion` succeeds and queues one DeleteCollectionHard event without
explicit seqno. The patched payload of the event still has the entry for C as
its last physical entry, one past its entryCount; the manifest constructed
from it has no entry for C and the same map (every collection id with the same
scope, start and end seqno) as the manifest in memory after the call. -/
theorem Manifest.completeDeletion_payload (cfg : Config)
    (intermediate : Except Error SystemEvent) (m : Manifest) (vb : VBucket)
    (C : CollectionID) (e : ManifestEntry) (hwf : container.WF m.map)
    (hf : container.find m.map C = some e) (hd : e.isDeleting cfg = true) :
    ∃ m' vb' item s d,
      m.completeDeletion cfg intermediate vb C = .ok (m', vb') ∧
      vb'.queued = vb.queued ++ [(item, none)] ∧
      item.flags = SystemEvent.DeleteCollectionHard ∧
      Manifest.patchSerialisedData cfg item = .ok (.buffer s) ∧
      s.entries.getLast? =
        some ⟨cfg.state_collection_open, cfg.state_collection_open, e.scopeID, C⟩ ∧
      s.entryCount + 1 = s.entries.length ∧
      Manifest.construct cfg (.buffer s) = .ok d ∧
      container.find d.map C = none ∧
      container.find m'.map C = none ∧
      ∀ c, (container.find d.map c).map ManifestEntry.persisted =
        (container.find m'.map c).map ManifestEntry.persisted := by
  have hwfe : container.WF (container.erase m.map C) := container.WF_erase C hwf
  have hnone : container.find (container.erase m.map C) C = none := by
    rw [container.find_erase, if_pos rfl]
  have hlt := container.erase_length_lt m.map C hwf
  have hcids : (((container.erase m.map C).map toSerialised).map
      (fun x => x.collectionId)).Nodup := by
    rw [List.map_map]
    exact hwfe
  have htake : (((container.erase m.map C).map toSerialised) ++
      [(⟨cfg.state_collection_open, cfg.state_collection_open, e.scopeID, C⟩ :
        SerialisedManifestEntry)]).take (container.erase m.map C).length =
      (container.erase m.map C).map toSerialised := by
    rw [List.take_append_of_le_length (by simp)]
    rw [List.take_of_length_le (by simp)]
  obtain ⟨d, hdc, hdp, _, _⟩ := Manifest.construct_buffer_ok cfg
    { uid := m.manifestUid
      entryCount := (container.erase m.map C).length
      entries := (container.erase m.map C).map toSerialised ++
        [⟨cfg.state_collection_open, cfg.state_collection_open, e.scopeID, C⟩] }
    (by simp) (by rw [htake]; exact hcids)
  rw [htake] at hdp
  have hwfL : container.WF (((container.erase m.map C).map toSerialised).map fromSerialised) := by
    unfold container.WF
    rw [List.map_map]
    exact hcids
  have hlook : ∀ c, (container.find d.map c).map ManifestEntry.persisted =
      (container.find (container.erase m.map C) c).map ManifestEntry.persisted := by
    intro c
    rw [← container.find_perm hdp.symm hwfL c, container.find_decoded]
  have hq := Manifest.queueSystemEvent_eq cfg
    { map := container.erase m.map C
      manifestUid := m.manifestUid
      defaultCollectionExists := m.defaultCollectionExists
      greatestEndSeqno :=
        if m.nDeletingCollections - 1 = 0 then cfg.state_collection_open
        else m.greatestEndSeqno
      nDeletingCollections := m.nDeletingCollections - 1 }
    vb SystemEvent.DeleteCollectionHard (e.scopeID, C) false none
  refine ⟨_, _, _, _, d, Manifest.completeDeletion_eq cfg intermediate m vb C e hf hd, hq.2.1,
    rfl, ?_, ?_, ?_, hdc, ?_, hnone, hlook⟩
  · rw [Manifest.populateWithSerialisedData_eq cfg _ _ hwfe]
    simp only [container.erase_erase, hnone]
    rw [Manifest.patchSerialisedData_hard cfg _ _ rfl rfl]
    rw [if_pos (cfg.mutate_entryCount_stored _ _ (by simp))]
    have hmod : ((container.erase m.map C).length + 1 + 4294967296 - 1) % 4294967296 =
        (container.erase m.map C).length := by
      omega
    simp only [List.length_append, List.length_map, List.length_singleton, hmod]
  · simp
  · simp
  · have h := hlook C
    rw [hnone] at h
    cases hx : container.find d.map C with
    | none => rfl
    | some x => rw [hx] at h; cases h

theorem Manifest.sampleDeleting_WF : container.WF Manifest.sampleDeleting.map := by
  unfold container.WF
  decide

theorem Manifest.completeDeletion_payload_witness :
    ∃ m' vb' item s d,
      Manifest.sampleDeleting.completeDeletion Config.frontInsertion
        (.error Error.logic_error) VBucket.fresh 5 = .ok (m', vb') ∧
      vb'.queued = VBucket.fresh.queued ++ [(item, none)] ∧
      item.flags = SystemEvent.DeleteCollectionHard ∧
      Manifest.patchSerialisedData Config.frontInsertion item = .ok (.buffer s) ∧
      s.entries.getLast? =
        some ⟨Config.frontInsertion.state_collection_open,
          Config.frontInsertion.state_collection_open, (⟨0, 3, 7, 0⟩ : ManifestEntry).scopeID,
          5⟩ ∧
      s.entryCount + 1 = s.entries.length ∧
      Manifest.construct Config.frontInsertion (.buffer s) = .ok d ∧
      container.find d.map 5 = none ∧
      container.find m'.map 5 = none ∧
      ∀ c, (container.find d.map c).map ManifestEntry.persisted =
        (container.find m'.map c).map ManifestEntry.persisted :=
  Manifest.completeDeletion_payload Config.frontInsertion (.error Error.logic_error)
    Manifest.sampleDeleting VBucket.fresh 5 ⟨0, 3, 7, 0⟩ Manifest.sampleDeleting_WF
    (by decide) (by decide)

theorem container.countDeleting_perm (cfg : Config) {l1 l2 : container} (h : l1.Perm l2) :
    container.countDeleting cfg l1 = container.countDeleting cfg l2 :=
  h.countP_eq _

theorem container.countDeleting_append_singleton (cfg : Config) (map : container)
    (x : CollectionID × ManifestEntry) :
    container.countDeleting cfg (map ++ [x]) =
      container.countDeleting cfg map + (if x.2.isDeleting cfg then 1 else 0) := by
  unfold container.countDeleting
  rw [List.countP_append]
  by_cases h : x.2.isDeleting cfg = true <;> simp [List.countP_cons, h]

theorem container.modify_of_not_mem (map : container) (c : CollectionID)
    (f : ManifestEntry → ManifestEntry) (h : c ∉ map.map Prod.fst) :
    container.modify map c f = map := by
  induction map with
  | nil => rfl
  | cons p rest ih =>
    obtain ⟨k, e⟩ := p
    simp only [List.map_cons, List.mem_cons, not_or] at h
    rw [container.modify_cons, if_neg (fun hk => h.1 hk.symm), ih h.2]

theorem container.countDeleting_modify_le (cfg : Config) (map : container) (c : CollectionID)
    (f : ManifestEntry → ManifestEntry) (hwf : container.WF map) :
    container.countDeleting cfg (container.modify map c f) ≤
      container.countDeleting cfg map + 1 := by
  induction map with
  | nil => simp [container.modify, container.countDeleting]
  | cons p rest ih =>
    obtain ⟨k, e⟩ := p
    unfold container.WF at hwf
    simp only [List.map_cons, List.nodup_cons] at hwf
    rw [container.modify_cons]
    by_cases hk : k = c
    · subst hk
      rw [if_pos rfl, container.modify_of_not_mem rest k f hwf.1]
      unfold container.countDeleting
      rw [List.countP_cons, List.countP_cons]
      split <;> split <;> omega
    · rw [if_neg hk]
      have h2 := ih hwf.2
      unfold container.countDeleting at h2 ⊢
      rw [List.countP_cons, List.countP_cons]
      omega

theorem container.countDeleting_modify_eq (cfg : Config) (map : container) (c : CollectionID)
    (f : ManifestEntry → ManifestEntry) (hf : ∀ e, (f e).isDeleting cfg = e.isDeleting cfg) :
    container.countDeleting cfg (container.modify map c f) =
      container.countDeleting cfg map := by
  induction map with
  | nil => rfl
  | cons p rest ih =>
    obtain ⟨k, e⟩ := p
    rw [container.modify_cons]
    unfold container.countDeleting at ih ⊢
    by_cases hk : k = c
    · rw [if_pos hk, List.countP_cons, List.countP_cons, ih]
      simp only [hf]
    · rw [if_neg hk, List.countP_cons, List.countP_cons, ih]

theorem container.countDeleting_erase (cfg : Config) (map : container) (c : CollectionID)
    (e : ManifestEntry) (hf : container.find map c = some e) (hd : e.isDeleting cfg = true) :
    container.countDeleting cfg (container.erase map c) + 1 ≤
      container.countDeleting cfg map := by
  induction map with
  | nil => simp [container.find] at hf
  | cons p rest ih =>
    obtain ⟨k, e0⟩ := p
    unfold container.find at hf
    unfold container.countDeleting container.erase at ih ⊢
    by_cases hk : k = c
    · rw [if_pos hk] at hf
      cases hf
      have hsub : (rest.filter (fun p => decide (p.1 ≠ c))).countP
          (fun p => p.2.isDeleting cfg) ≤ rest.countP (fun p => p.2.isDeleting cfg) :=
        (List.filter_sublist rest).countP_le _
      rw [List.filter_cons_of_neg (by simp [hk]), List.countP_cons]
      simp only [hd, if_true]
      omega
    · rw [if_neg hk] at hf
      have h2 := ih hf
      rw [List.filter_cons_of_pos (by simp [hk]), List.countP_cons, List.countP_cons]
      omega

theorem Manifest.Tracked_initial (cfg : Config) (uid : ManifestUid) :
    Manifest.Tracked cfg { Manifest.initial cfg with manifestUid := uid } := by
  refine ⟨?_, ?_, ?_⟩
  · exact List.nodup_nil
  · simp [Manifest.initial, container.countDeleting]
  · simp [Manifest.initial]

theorem Manifest.Tracked_addNewCollectionEntry (cfg : Config) (m m1 : Manifest)
    (ids : ScopeCollectionPair) (s e : Int) (ht : Manifest.Tracked cfg m)
    (h : m.addNewCollectionEntry cfg ids s e = .ok m1) : Manifest.Tracked cfg m1 := by
  obtain ⟨hwf, hcount, hiff⟩ := ht
  cases hfind : container.find m.map ids.2 with
  | some x =>
    rw [Manifest.addNewCollectionEntry_exists cfg m ids s e x hfind] at h
    cases h
  | none =>
    rw [Manifest.addNewCollectionEntry_eq cfg m ids s e hfind] at h
    simp only [Except.ok.injEq] at h
    subst h
    have hperm := cfg.arrange_perm (m.map ++ [(ids.2, (⟨ids.1, s, e, 0⟩ : ManifestEntry))])
    have hc : container.countDeleting cfg
        (cfg.arrange (m.map ++ [(ids.2, (⟨ids.1, s, e, 0⟩ : ManifestEntry))])) =
        container.countDeleting cfg m.map +
          (if e = cfg.state_collection_open then 0 else 1) := by
      rw [container.countDeleting_perm cfg hperm, container.countDeleting_append_singleton]
      by_cases he : e = cfg.state_collection_open <;>
        simp [ManifestEntry.isDeleting, ManifestEntry.isOpen, he]
    refine ⟨?_, ?_, ?_⟩
    · exact container.WF_perm hperm.symm (container.WF_append_singleton _ hwf hfind)
    · simp only [hc]
      by_cases he : e = cfg.state_collection_open
      · simp only [he, if_true]
        simpa using hcount
      · simp only [he, if_false]
        push_cast
        omega
    · simp only
      by_cases he : e = cfg.state_collection_open
      · simp only [he, if_true]
        exact hiff
      · simp only [he, if_false]
        have hnn : (0 : Int) ≤ (container.countDeleting cfg m.map : Int) := Int.natCast_nonneg _
        constructor
        · intro h0
          omega
        · intro hg
          exfalso
          by_cases hcond : e > m.greatestEndSeqno ∨
              m.greatestEndSeqno = cfg.state_collection_open
          · rw [if_pos hcond] at hg
            exact he hg
          · rw [if_neg hcond] at hg
            exact hcond (Or.inr hg)

theorem Manifest.Tracked_decodeLoop (cfg : Config) (entries : List SerialisedManifestEntry) :
    ∀ (n i : Nat) (m d : Manifest), Manifest.Tracked cfg m →
      Manifest.decodeLoop cfg entries n i m = .ok d → Manifest.Tracked cfg d := by
  intro n
  induction n with
  | zero =>
    intro i m d ht h
    simp only [Manifest.decodeLoop, Except.ok.injEq] at h
    subst h
    exact ht
  | succ n ih =>
    intro i m d ht h
    unfold Manifest.decodeLoop at h
    cases hg : entries.get? i with
    | none => rw [hg] at h; cases h
    | some entry =>
      rw [hg] at h
      simp only at h
      cases ha : m.addNewCollectionEntry cfg (entry.scopeId, entry.collectionId)
          entry.startSeqno entry.endSeqno with
      | error x => rw [ha] at h; cases h
      | ok m1 =>
        rw [ha] at h
        exact ih (i + 1) m1 d (Manifest.Tracked_addNewCollectionEntry cfg m m1 _ _ _ ht ha) h

theorem Manifest.Tracked_construct (cfg : Config) (data : PersistedManifest) (m : Manifest)
    (h : Manifest.construct cfg data = .ok m) : Manifest.Tracked cfg m := by
  unfold Manifest.construct at h
  cases data with
  | empty =>
    simp only at h
    cases ha : (Manifest.initial cfg).addNewCollectionEntry cfg
        (cfg.DefaultScope, cfg.DefaultCollection) 0 cfg.state_collection_open with
    | error x => rw [ha] at h; cases h
    | ok m1 =>
      rw [ha] at h
      simp only [Except.ok.injEq] at h
      subst h
      have ht := Manifest.Tracked_addNewCollectionEntry cfg _ m1 _ _ _
        (Manifest.Tracked_initial cfg 0) ha
      exact ht
  | invalid => cases h
  | buffer s =>
    exact Manifest.Tracked_decodeLoop cfg s.entries s.entryCount 0 _ m
      (Manifest.Tracked_initial cfg s.uid) h

theorem Manifest.Tracked_addCollection (cfg : Config) (m : Manifest) (vb : VBucket)
    (uid : ManifestUid) (ids : ScopeCollectionPair) (seq : Option Int) (m' : Manifest)
    (vb' : VBucket) (ht : Manifest.Tracked cfg m)
    (h : m.addCollection cfg vb uid ids seq = .ok (m', vb')) :
    Manifest.Tracked cfg m' ∧ vb'.assign = vb.assign := by
  unfold Manifest.addCollection at h
  cases ha : m.addNewCollectionEntry cfg ids cfg.state_collection_open
      cfg.state_collection_open with
  | error x => rw [ha] at h; cases h
  | ok m1 =>
    rw [ha] at h
    simp only [Except.ok.injEq, Prod.mk.injEq] at h
    obtain ⟨h1, h2⟩ := h
    obtain ⟨hwf, hcount, hiff⟩ := Manifest.Tracked_addNewCollectionEntry cfg m m1 _ _ _ ht ha
    have hq := Manifest.queueSystemEvent_eq cfg { m1 with manifestUid := uid } vb
      SystemEvent.Collection ids false seq
    have hmap : m'.map = container.modify m1.map ids.2
        (fun x => x.setStartSeqno (vb.nextSeqno seq)) := by
      rw [← h1, ← hq.1]
    have hn : m'.nDeletingCollections = m1.nDeletingCollections := by
      rw [← h1]
    have hg : m'.greatestEndSeqno = m1.greatestEndSeqno := by
      rw [← h1]
    refine ⟨⟨?_, ?_, ?_⟩, ?_⟩
    · rw [hmap]
      exact container.WF_modify _ _ hwf
    · rw [hmap, hn, container.countDeleting_modify_eq cfg m1.map ids.2
        (fun x => x.setStartSeqno (vb.nextSeqno seq)) (fun e => rfl)]
      exact hcount
    · rw [hn, hg]
      exact hiff
    · rw [← h2]
      exact hq.2.2

theorem Manifest.Tracked_beginCollectionDelete (cfg : Config) (m : Manifest) (vb : VBucket)
    (uid : ManifestUid) (ids : ScopeCollectionPair) (seq : Option Int) (m' : Manifest)
    (vb' : VBucket) (ht : Manifest.Tracked cfg m)
    (hseq : vb.nextSeqno seq ≠ cfg.state_collection_open)
    (h : m.beginCollectionDelete cfg vb uid ids seq = .ok (m', vb')) :
    Manifest.Tracked cfg m' ∧ vb'.assign = vb.assign := by
  obtain ⟨hwf, hcount, hiff⟩ := ht
  unfold Manifest.beginCollectionDelete at h
  cases hg : m.getManifestEntry ids.2 with
  | error x => rw [hg] at h; cases h
  | ok e =>
    rw [hg] at h
    simp only [Except.ok.injEq, Prod.mk.injEq] at h
    obtain ⟨h1, h2⟩ := h
    have hq := Manifest.queueSystemEvent_eq cfg { m with manifestUid := uid } vb
      SystemEvent.Collection ids true seq
    rw [hq.1] at h1
    rw [Manifest.trackEndSeqno_eq] at h1
    have hmap : m'.map = container.modify m.map ids.2
        (fun x => x.setEndSeqno (vb.nextSeqno seq)) := by
      rw [← h1]
      split <;> rfl
    have hn : m'.nDeletingCollections = m.nDeletingCollections + 1 := by
      rw [← h1]
      split <;> rfl
    have hg2 : m'.greatestEndSeqno =
        if vb.nextSeqno seq > m.greatestEndSeqno ∨
          m.greatestEndSeqno = cfg.state_collection_open
        then vb.nextSeqno seq else m.greatestEndSeqno := by
      rw [← h1]
      split <;> rfl
    have hle := container.countDeleting_modify_le cfg m.map ids.2
      (fun x => x.setEndSeqno (vb.nextSeqno seq)) hwf
    have hnn : (0 : Int) ≤ (container.countDeleting cfg m.map : Int) := Int.natCast_nonneg _
    refine ⟨⟨?_, ?_, ?_⟩, ?_⟩
    · rw [hmap]
      exact container.WF_modify _ _ hwf
    · rw [hmap, hn]
      have hle2 : (container.countDeleting cfg (container.modify m.map ids.2
          (fun x => x.setEndSeqno (vb.nextSeqno seq))) : Int) ≤
          (container.countDeleting cfg m.map : Int) + 1 := by
        exact_mod_cast hle
      omega
    · rw [hn, hg2]
      constructor
      · intro h0
        omega
      · intro hgr
        exfalso
        by_cases hcond : vb.nextSeqno seq > m.greatestEndSeqno ∨
            m.greatestEndSeqno = cfg.state_collection_open
        · rw [if_pos hcond] at hgr
          exact hseq hgr
        · rw [if_neg hcond] at hgr
          exact hcond (Or.inr hgr)
    · rw [← h2]
      exact hq.2.2

theorem Manifest.Tracked_completeDeletion (cfg : Config)
    (intermediate : Except Error SystemEvent) (m : Manifest) (vb : VBucket)
    (c : CollectionID) (e : ManifestEntry) (m' : Manifest) (vb' : VBucket)
    (ht : Manifest.Tracked cfg m) (hf : container.find m.map c = some e)
    (hd : e.isDeleting cfg = true)
    (h : m.completeDeletion cfg intermediate vb c = .ok (m', vb')) :
    Manifest.Tracked cfg m' := by
  obtain ⟨hwf, hcount, hiff⟩ := ht
  rw [Manifest.completeDeletion_eq cfg intermediate m vb c e hf hd] at h
  simp only [Except.ok.injEq, Prod.mk.injEq] at h
  obtain ⟨h1, _⟩ := h
  subst h1
  have hle := container.countDeleting_erase cfg m.map c e hf hd
  have hle2 : (container.countDeleting cfg (container.erase m.map c) : Int) + 1 ≤
      (container.countDeleting cfg m.map : Int) := by
    exact_mod_cast hle
  have hnn : (0 : Int) ≤ (container.countDeleting cfg (container.erase m.map c) : Int) :=
    Int.natCast_nonneg _
  refine ⟨container.WF_erase c hwf, ?_, ?_⟩
  · simp only
    omega
  · simp only
    by_cases hz : m.nDeletingCollections - 1 = 0
    · simp [hz]
    · simp only [hz, if_false, false_iff]
      intro hg
      have h0 := hiff.2 hg
      omega

theorem Manifest.Tracked_applyEach (cfg : Config)
    (step : Manifest → VBucket → ManifestUid → ScopeCollectionPair → Option Int →
      Except Error (Manifest × VBucket))
    (hstep : ∀ m vb uid p m1 vb1, Manifest.Tracked cfg m →
      vb.nextSeqno none ≠ cfg.state_collection_open →
      step m vb uid p none = .ok (m1, vb1) →
      Manifest.Tracked cfg m1 ∧ vb1.assign = vb.assign)
    (l : List ScopeCollectionPair) (m : Manifest) (vb : VBucket) (m1 : Manifest)
    (vb1 : VBucket) (ht : Manifest.Tracked cfg m)
    (hgood : ∀ n, vb.assign n ≠ cfg.state_collection_open)
    (h : Manifest.applyEach step m vb l = .ok (m1, vb1)) :
    Manifest.Tracked cfg m1 ∧ vb1.assign = vb.assign := by
  induction l generalizing m vb with
  | nil =>
    simp only [Manifest.applyEach, Except.ok.injEq, Prod.mk.injEq] at h
    obtain ⟨h1, h2⟩ := h
    subst h1 h2
    exact ⟨ht, rfl⟩
  | cons p rest ih =>
    unfold Manifest.applyEach at h
    cases hs : step m vb m.manifestUid p none with
    | error x => rw [hs] at h; cases h
    | ok r =>
      obtain ⟨m2, vb2⟩ := r
      rw [hs] at h
      obtain ⟨ht2, ha2⟩ := hstep m vb m.manifestUid p m2 vb2 ht (hgood _) hs
      obtain ⟨ht3, ha3⟩ := ih m2 vb2 ht2 (by rw [ha2]; exact hgood) h
      exact ⟨ht3, ha3.trans ha2⟩

theorem Manifest.Tracked_updateAdditions (cfg : Config) (m : Manifest) (vb : VBucket)
    (t : Collections.Manifest) (additions : List ScopeCollectionPair) (b : Bool)
    (m' : Manifest) (vb' : VBucket) (ht : Manifest.Tracked cfg m)
    (hgood : ∀ n, vb.assign n ≠ cfg.state_collection_open)
    (h : Manifest.updateAdditions cfg m vb t additions = .ok (b, m', vb')) :
    Manifest.Tracked cfg m' := by
  unfold Manifest.updateAdditions Manifest.applyChanges at h
  cases he : Manifest.applyEach (Manifest.addCollection cfg) m vb additions.dropLast with
  | error x => rw [he] at h; simp at h
  | ok r =>
    obtain ⟨m1, vb1⟩ := r
    rw [he] at h
    obtain ⟨ht1, _⟩ := Manifest.Tracked_applyEach cfg (Manifest.addCollection cfg)
      (fun m vb uid p m1 vb1 ht _ hs => Manifest.Tracked_addCollection cfg m vb uid p none
        m1 vb1 ht hs)
      additions.dropLast m vb m1 vb1 ht hgood he
    cases hl : additions.getLast? with
    | none =>
      rw [hl] at h
      simp only [Except.ok.injEq, Prod.mk.injEq] at h
      obtain ⟨_, h1, _⟩ := h
      rw [← h1]
      exact ht1
    | some fa =>
      rw [hl] at h
      simp only at h
      cases ha : m1.addCollection cfg vb1 t.uid fa none with
      | error x => rw [ha] at h; simp at h
      | ok r2 =>
        obtain ⟨m2, vb2⟩ := r2
        rw [ha] at h
        simp only [Except.ok.injEq, Prod.mk.injEq] at h
        obtain ⟨_, h1, _⟩ := h
        rw [← h1]
        exact (Manifest.Tracked_addCollection cfg m1 vb1 t.uid fa none m2 vb2 ht1 ha).1

theorem Manifest.Tracked_update (cfg : Config) (m : Manifest) (vb : VBucket)
    (t : Collections.Manifest) (b : Bool) (m' : Manifest) (vb' : VBucket)
    (ht : Manifest.Tracked cfg m) (hgood : ∀ n, vb.assign n ≠ cfg.state_collection_open)
    (h : m.update cfg vb t = .ok (b, m', vb')) : Manifest.Tracked cfg m' := by
  unfold Manifest.update at h
  cases hp : m.processManifest cfg t with
  | none =>
    rw [hp] at h
    simp only [Except.ok.injEq, Prod.mk.injEq] at h
    obtain ⟨_, h1, _⟩ := h
    rw [← h1]
    exact ht
  | some r =>
    obtain ⟨additions, deletions⟩ := r
    rw [hp] at h
    simp only [Manifest.applyChanges] at h
    cases he : Manifest.applyEach (Manifest.beginCollectionDelete cfg) m vb
        deletions.dropLast with
    | error x => rw [he] at h; simp at h
    | ok r1 =>
      obtain ⟨m1, vb1⟩ := r1
      rw [he] at h
      simp only at h
      have hstep : ∀ m vb uid p m1 vb1, Manifest.Tracked cfg m →
          vb.nextSeqno none ≠ cfg.state_collection_open →
          Manifest.beginCollectionDelete cfg m vb uid p none = .ok (m1, vb1) →
          Manifest.Tracked cfg m1 ∧ vb1.assign = vb.assign :=
        fun m vb uid p m1 vb1 ht hs hb =>
          Manifest.Tracked_beginCollectionDelete cfg m vb uid p none m1 vb1 ht hs hb
      obtain ⟨ht1, ha1⟩ := Manifest.Tracked_applyEach cfg (Manifest.beginCollectionDelete cfg)
        hstep deletions.dropLast m vb m1 vb1 ht hgood he
      have hgood1 : ∀ n, vb1.assign n ≠ cfg.state_collection_open := by
        rw [ha1]
        exact hgood
      cases hl : deletions.getLast? with
      | none =>
        rw [hl] at h
        exact Manifest.Tracked_updateAdditions cfg m1 vb1 t additions b m' vb' ht1 hgood1 h
      | some fd =>
        rw [hl] at h
        simp only at h
        by_cases hempty : additions.isEmpty = true
        · rw [if_pos hempty] at h
          cases hb : m1.beginCollectionDelete cfg vb1 t.uid fd none with
          | error x => rw [hb] at h; simp at h
          | ok r2 =>
            obtain ⟨m2, vb2⟩ := r2
            rw [hb] at h
            simp only [Except.ok.injEq, Prod.mk.injEq] at h
            obtain ⟨_, h1, _⟩ := h
            rw [← h1]
            exact (hstep m1 vb1 t.uid fd m2 vb2 ht1 (hgood1 _) hb).1
        · rw [if_neg hempty] at h
          cases hb : m1.beginCollectionDelete cfg vb1 m1.manifestUid fd none with
          | error x => rw [hb] at h; simp at h
          | ok r2 =>
            obtain ⟨m2, vb2⟩ := r2
            rw [hb] at h
            simp only at h
            obtain ⟨ht2, ha2⟩ := hstep m1 vb1 m1.manifestUid fd m2 vb2 ht1 (hgood1 _) hb
            exact Manifest.Tracked_updateAdditions cfg m2 vb2 t additions b m' vb' ht2
              (by rw [ha2]; exact hgood1) h

/-- Every reachable manifest keeps the bookkeeping of the deleting collections
sound, when no seqno the operations get is the sentinel. -/
theorem Reachable.tracked (cfg : Config) (good : Int → Prop)
    (hgood : ∀ s, good s → s ≠ cfg.state_collection_open) (m : Manifest)
    (hr : Reachable cfg good m) : Manifest.Tracked cfg m := by
  induction hr with
  | construct data m h => exact Manifest.Tracked_construct cfg data m h
  | update m vb t b m' vb' _ hg h ih =>
    exact Manifest.Tracked_update cfg m vb t b m' vb' ih (fun n => hgood _ (hg n)) h
  | addCollection m vb uid ids seq m' vb' _ _ h ih =>
    exact (Manifest.Tracked_addCollection cfg m vb uid ids seq m' vb' ih h).1
  | beginCollectionDelete m vb uid ids seq m' vb' _ hg h ih =>
    exact (Manifest.Tracked_beginCollectionDelete cfg m vb uid ids seq m' vb' ih
      (hgood _ hg) h).1
  | completeDeletion intermediate m vb c e m' vb' _ hf hd h ih =>
    exact Manifest.Tracked_completeDeletion cfg intermediate m vb c e m' vb' ih hf hd h

/-- C10. In every reachable manifest state (constructed from a persisted buffer,
empty or not, then changed by successful `update`, `addCollection`,
`beginCollectionDelete` and `completeDeletion` of a Deleting collection, every
seqno being non-negative and the sentinel negative), nDeletingCollections is
zero if and only if greatestEndSeqno is the collection-open sentinel. -/
theorem Manifest.nDeleting_zero_iff_greatest_open (cfg : Config) (m : Manifest)
    (hsentinel : cfg.state_collection_open < 0)
    (hr : Reachable cfg (fun s => 0 ≤ s) m) :
    m.nDeletingCollections = 0 ↔ m.greatestEndSeqno = cfg.state_collection_open :=
  (Reachable.tracked cfg (fun s => 0 ≤ s) (fun s hs => by omega) m hr).2.2

theorem VBucket.fresh_assign_nonneg (n : Nat) : 0 ≤ VBucket.fresh.assign n := by
  show (0 : Int) ≤ (n : Int) + 1
  omega

theorem Manifest.sampleUpdated_reachable :
    Reachable Config.frontInsertion (fun s => 0 ≤ s) Manifest.sampleUpdated := by
  have h : ∃ vb', Manifest.sampleEmpty.update Config.frontInsertion VBucket.fresh
      ⟨2, [(4, [9])]⟩ = .ok (true, Manifest.sampleUpdated, vb') := ⟨_, rfl⟩
  obtain ⟨vb', h⟩ := h
  exact Reachable.update Manifest.sampleEmpty VBucket.fresh ⟨2, [(4, [9])]⟩ true
    Manifest.sampleUpdated vb' (Reachable.construct .empty Manifest.sampleEmpty rfl)
    VBucket.fresh_assign_nonneg h

theorem Manifest.sampleCompleted_reachable :
    Reachable Config.frontInsertion (fun s => 0 ≤ s) Manifest.sampleCompleted := by
  have h : ∃ vb', Manifest.sampleUpdated.completeDeletion Config.frontInsertion
      (.error Error.logic_error) VBucket.fresh 0 = .ok (Manifest.sampleCompleted, vb') :=
    ⟨_, rfl⟩
  obtain ⟨vb', h⟩ := h
  exact Reachable.completeDeletion (.error Error.logic_error) Manifest.sampleUpdated
    VBucket.fresh 0 ⟨0, 0, 1, 0⟩ Manifest.sampleCompleted vb'
    Manifest.sampleUpdated_reachable rfl rfl h

theorem Manifest.nDeleting_zero_iff_greatest_open_witness :
    (Manifest.sampleUpdated.nDeletingCollections = 0 ↔
      Manifest.sampleUpdated.greatestEndSeqno =
        Config.frontInsertion.state_collection_open) ∧
    (Manifest.sampleCompleted.nDeletingCollections = 0 ↔
      Manifest.sampleCompleted.greatestEndSeqno =
        Config.frontInsertion.state_collection_open) :=
  ⟨Manifest.nDeleting_zero_iff_greatest_open Config.frontInsertion Manifest.sampleUpdated
      (by decide) Manifest.sampleUpdated_reachable,
    Manifest.nDeleting_zero_iff_greatest_open Config.frontInsertion Manifest.sampleCompleted
      (by decide) Manifest.sampleCompleted_reachable⟩

/-! ## Visibility queries -/

/-- C13. For every manifest state, every key (default collection, ordinary or
system event key, whatever its embedded bytes) and every seqno above
greatestEndSeqno, `isLogicallyDeleted` returns false and does not raise; the
iterator overload returns false for every iterator that is not `end()`. -/
theorem Manifest.isLogicallyDeleted_above_greatest (cfg : Config) (m : Manifest) (key : DocKey)
    (itr : CollectionID × ManifestEntry) (S : Int) (h : S > m.greatestEndSeqno) :
    m.isLogicallyDeleted cfg key S = .ok false ∧
      m.isLogicallyDeleted_iterator (some itr) S = .ok false := by
  have hn : ¬ S ≤ m.greatestEndSeqno := by omega
  constructor
  · unfold Manifest.isLogicallyDeleted
    rw [if_neg hn]
  · unfold Manifest.isLogicallyDeleted_iterator
    simp only [if_neg hn]

theorem Manifest.isLogicallyDeleted_above_greatest_witness :
    (8 : Int) > Manifest.sampleDeleting.greatestEndSeqno ∧
      Manifest.sampleDeleting.isLogicallyDeleted Config.insertionOrder ⟨1, [5, 0]⟩ 8 =
        .ok false ∧
      Manifest.sampleDeleting.isLogicallyDeleted_iterator (some (5, ⟨0, 3, 7, 0⟩)) 8 =
        .ok false :=
  ⟨by decide,
    Manifest.isLogicallyDeleted_above_greatest Config.insertionOrder Manifest.sampleDeleting
      ⟨1, [5, 0]⟩ (5, ⟨0, 3, 7, 0⟩) 8 (by decide)⟩

/-- C19. For a collection id that has no entry in the map, `completeDeletion`
raises (a logic error), and it raises with the manifest and the vbucket it was
called with: no event is queued and map, manifestUid,
defaultCollectionExists, greatestEndSeqno and nDeletingCollections are as
before the call. -/
theorem Manifest.completeDeletion_unknown (cfg : Config)
    (intermediate : Except Error SystemEvent) (m : Manifest) (vb : VBucket)
    (C : CollectionID) (h : container.find m.map C = none) :
    m.completeDeletion cfg intermediate vb C = .error (Error.logic_error, m, vb) ∧
    ∀ m' vb', m.completeDeletion cfg intermediate vb C ≠ .ok (m', vb') := by
  have hraise : m.completeDeletion cfg intermediate vb C =
      .error (Error.logic_error, m, vb) := by
    unfold Manifest.completeDeletion
    rw [h]
  refine ⟨hraise, ?_⟩
  intro m' vb' hok
  rw [hraise] at hok
  cases hok

theorem Manifest.completeDeletion_unknown_witness :
    container.find Manifest.sampleOpen.map 5 = none ∧
      Manifest.sampleOpen.completeDeletion Config.insertionOrder
        (.ok SystemEvent.DeleteCollectionHard) VBucket.fresh 5 =
        .error (Error.logic_error, Manifest.sampleOpen, VBucket.fresh) :=
  ⟨by decide,
    (Manifest.completeDeletion_unknown Config.insertionOrder
      (.ok SystemEvent.DeleteCollectionHard) Manifest.sampleOpen VBucket.fresh 5
      (by decide)).1⟩

theorem Config.arrange_singleton (cfg : Config) (x : CollectionID × ManifestEntry) :
    cfg.arrange [x] = [x] :=
  List.perm_singleton.1 (cfg.arrange_perm [x])

/-- The manifest the constructor builds from an empty persisted buffer. -/
theorem Manifest.construct_empty (cfg : Config) :
    Manifest.construct cfg .empty =
      .ok { map := [(cfg.DefaultCollection,
              ⟨cfg.DefaultScope, 0, cfg.state_collection_open, 0⟩)]
            manifestUid := 0
            defaultCollectionExists := true
            greatestEndSeqno := cfg.state_collection_open
            nDeletingCollections := 0 } := by
  unfold Manifest.construct
  simp only
  rw [Manifest.addNewCollectionEntry_eq cfg (Manifest.initial cfg) _ _ _ rfl]
  simp [Manifest.initial, Config.arrange_singleton]

/-- C20. The manifest constructed from an empty persisted buffer has a map with
exactly one entry, the default collection under the default scope, Open;
defaultCollectionExists is true, nDeletingCollections is 0 and greatestEndSeqno
is the sentinel; `doesKeyContainValidCollection` is true for every key of the
default collection and false for every key of another collection. -/
theorem Manifest.construct_empty_default_only (cfg : Config) :
    ∃ m e, Manifest.construct cfg .empty = .ok m ∧
      m.map = [(cfg.DefaultCollection, e)] ∧
      e.scopeID = cfg.DefaultScope ∧ e.isOpen cfg = true ∧
      m.defaultCollectionExists = true ∧
      m.nDeletingCollections = 0 ∧
      m.greatestEndSeqno = cfg.state_collection_open ∧
      ∀ key : DocKey,
        m.doesKeyContainValidCollection cfg key =
          decide (key.collectionID = cfg.DefaultCollection) := by
  refine ⟨_, _, Manifest.construct_empty cfg, rfl, rfl, ?_, rfl, rfl, rfl, ?_⟩
  · simp [ManifestEntry.isOpen]
  · intro key
    unfold Manifest.doesKeyContainValidCollection
    by_cases hk : key.collectionID = cfg.DefaultCollection
    · simp [hk]
    · have hk2 : ¬ cfg.DefaultCollection = key.collectionID := fun h => hk h.symm
      simp [hk, hk2, container.find]

/-! ## The steps of an update -/

theorem Manifest.Steps_append
    (step : Manifest → VBucket → ManifestUid → ScopeCollectionPair → Option Int →
      Except Error (Manifest × VBucket))
    (L1 L2 : List ScopeCollectionPair) (m : Manifest) (vb : VBucket) (m1 : Manifest)
    (vb1 : VBucket) (m2 : Manifest) (vb2 : VBucket)
    (h1 : Manifest.Steps step m vb L1 m1 vb1) (h2 : Manifest.Steps step m1 vb1 L2 m2 vb2) :
    Manifest.Steps step m vb (L1 ++ L2) m2 vb2 := by
  induction h1 with
  | nil m vb => exact h2
  | cons m vb uid p rest ma vba mb vbb hs _ ih =>
    exact Manifest.Steps.cons m vb uid p (rest ++ L2) ma vba m2 vb2 hs (ih h2)

theorem Manifest.Steps_single
    (step : Manifest → VBucket → ManifestUid → ScopeCollectionPair → Option Int →
      Except Error (Manifest × VBucket))
    (m : Manifest) (vb : VBucket) (uid : ManifestUid) (p : ScopeCollectionPair)
    (m1 : Manifest) (vb1 : VBucket) (h : step m vb uid p none = .ok (m1, vb1)) :
    Manifest.Steps step m vb [p] m1 vb1 :=
  Manifest.Steps.cons m vb uid p [] m1 vb1 m1 vb1 h (Manifest.Steps.nil m1 vb1)

theorem Manifest.applyEach_steps
    (step : Manifest → VBucket → ManifestUid → ScopeCollectionPair → Option Int →
      Except Error (Manifest × VBucket))
    (L : List ScopeCollectionPair) (m : Manifest) (vb : VBucket) (m1 : Manifest)
    (vb1 : VBucket) (h : Manifest.applyEach step m vb L = .ok (m1, vb1)) :
    Manifest.Steps step m vb L m1 vb1 := by
  induction L generalizing m vb with
  | nil =>
    simp only [Manifest.applyEach, Except.ok.injEq, Prod.mk.injEq] at h
    obtain ⟨h1, h2⟩ := h
    subst h1 h2
    exact Manifest.Steps.nil m vb
  | cons p rest ih =>
    unfold Manifest.applyEach at h
    cases hs : step m vb m.manifestUid p none with
    | error x => rw [hs] at h; cases h
    | ok r =>
      obtain ⟨m2, vb2⟩ := r
      rw [hs] at h
      exact Manifest.Steps.cons m vb m.manifestUid p rest m2 vb2 m1 vb1 hs (ih m2 vb2 h)

theorem list_getLast?_eq_none {α : Type} (l : List α) (h : l.getLast? = none) : l = [] := by
  rcases list_nil_or_snoc l with h1 | ⟨L, b, h1⟩
  · exact h1
  · rw [h1, List.getLast?_concat] at h
    cases h

theorem Manifest.updateAdditions_steps (cfg : Config) (m : Manifest) (vb : VBucket)
    (t : Collections.Manifest) (additions : List ScopeCollectionPair) (b : Bool)
    (m' : Manifest) (vb' : VBucket)
    (h : Manifest.updateAdditions cfg m vb t additions = .ok (b, m', vb')) :
    b = true ∧ Manifest.Steps (Manifest.addCollection cfg) m vb additions m' vb' := by
  unfold Manifest.updateAdditions Manifest.applyChanges at h
  cases he : Manifest.applyEach (Manifest.addCollection cfg) m vb additions.dropLast with
  | error x => rw [he] at h; simp at h
  | ok r =>
    obtain ⟨m1, vb1⟩ := r
    rw [he] at h
    have hs1 := Manifest.applyEach_steps _ _ m vb m1 vb1 he
    cases hl : additions.getLast? with
    | none =>
      rw [hl] at h
      simp only [Except.ok.injEq, Prod.mk.injEq] at h
      obtain ⟨hb, h1, h2⟩ := h
      have hnil := list_getLast?_eq_none additions hl
      subst hnil
      rw [← h1, ← h2]
      exact ⟨hb.symm, hs1⟩
    | some fa =>
      rw [hl] at h
      simp only at h
      cases ha : m1.addCollection cfg vb1 t.uid fa none with
      | error x => rw [ha] at h; simp at h
      | ok r2 =>
        obtain ⟨m2, vb2⟩ := r2
        rw [ha] at h
        simp only [Except.ok.injEq, Prod.mk.injEq] at h
        obtain ⟨hb, h1, h2⟩ := h
        rw [← h1, ← h2]
        refine ⟨hb.symm, ?_⟩
        have hsplit : additions.dropLast ++ [fa] = additions :=
          List.dropLast_append_getLast? fa hl
        rw [← hsplit]
        exact Manifest.Steps_append _ _ _ m vb m1 vb1 m2 vb2 hs1
          (Manifest.Steps_single _ m1 vb1 t.uid fa m2 vb2 ha)

/-- A successful `update` with the diff (additions, deletions) returns true and
is a run of `beginCollectionDelete` over the deletions followed by a run of
`addCollection` over the additions. -/
theorem Manifest.update_steps (cfg : Config) (m : Manifest) (vb : VBucket)
    (t : Collections.Manifest) (additions deletions : List ScopeCollectionPair) (b : Bool)
    (m' : Manifest) (vb' : VBucket)
    (hp : m.processManifest cfg t = some (additions, deletions))
    (h : m.update cfg vb t = .ok (b, m', vb')) :
    b = true ∧ ∃ m1 vb1,
      Manifest.Steps (Manifest.beginCollectionDelete cfg) m vb deletions m1 vb1 ∧
      Manifest.Steps (Manifest.addCollection cfg) m1 vb1 additions m' vb' := by
  unfold Manifest.update at h
  rw [hp] at h
  simp only [Manifest.applyChanges] at h
  cases he : Manifest.applyEach (Manifest.beginCollectionDelete cfg) m vb
      deletions.dropLast with
  | error x => rw [he] at h; simp at h
  | ok r1 =>
    obtain ⟨m1, vb1⟩ := r1
    rw [he] at h
    simp only at h
    have hs1 := Manifest.applyEach_steps _ _ m vb m1 vb1 he
    cases hl : deletions.getLast? with
    | none =>
      rw [hl] at h
      have hnil := list_getLast?_eq_none deletions hl
      subst hnil
      obtain ⟨hb, hs2⟩ := Manifest.updateAdditions_steps cfg m1 vb1 t additions b m' vb' h
      exact ⟨hb, m1, vb1, hs1, hs2⟩
    | some fd =>
      rw [hl] at h
      simp only at h
      have hsplit : deletions.dropLast ++ [fd] = deletions :=
        List.dropLast_append_getLast? fd hl
      by_cases hempty : additions.isEmpty = true
      · rw [if_pos hempty] at h
        have hA : additions = [] := List.isEmpty_iff.1 hempty
        cases hb : m1.beginCollectionDelete cfg vb1 t.uid fd none with
        | error x => rw [hb] at h; simp at h
        | ok r2 =>
          obtain ⟨m2, vb2⟩ := r2
          rw [hb] at h
          simp only [Except.ok.injEq, Prod.mk.injEq] at h
          obtain ⟨hbt, h1, h2⟩ := h
          rw [← h1, ← h2, hA, ← hsplit]
          exact ⟨hbt.symm, m2, vb2,
            Manifest.Steps_append _ _ _ m vb m1 vb1 m2 vb2 hs1
              (Manifest.Steps_single _ m1 vb1 t.uid fd m2 vb2 hb),
            Manifest.Steps.nil m2 vb2⟩
      · rw [if_neg hempty] at h
        cases hb : m1.beginCollectionDelete cfg vb1 m1.manifestUid fd none with
        | error x => rw [hb] at h; simp at h
        | ok r2 =>
          obtain ⟨m2, vb2⟩ := r2
          rw [hb] at h
          simp only at h
          obtain ⟨hbt, hs2⟩ := Manifest.updateAdditions_steps cfg m2 vb2 t additions b m' vb' h
          rw [← hsplit]
          exact ⟨hbt, m2, vb2,
            Manifest.Steps_append _ _ _ m vb m1 vb1 m2 vb2 hs1
              (Manifest.Steps_single _ m1 vb1 m1.manifestUid fd m2 vb2 hb),
            hs2⟩

/-! ## What one operation leaves -/

/-- What `addCollection` leaves when the collection is not in the map. -/
theorem Manifest.addCollection_eq (cfg : Config) (m : Manifest) (vb : VBucket)
    (uid : ManifestUid) (ids : ScopeCollectionPair) (seq : Option Int)
    (h : container.find m.map ids.2 = none) :
    ∃ vb', vb'.assign = vb.assign ∧
      vb'.queued = vb.queued ++
        [({ flags := SystemEvent.Collection
            keyExtra := Manifest.makeCollectionIdIntoString ids.2
            data := .buffer (Manifest.populateWithSerialisedData cfg
              { map := cfg.arrange (m.map ++ [(ids.2,
                  ⟨ids.1, cfg.state_collection_open, cfg.state_collection_open, 0⟩)])
                manifestUid := uid
                defaultCollectionExists :=
                  if ids.2 = cfg.DefaultCollection then true else m.defaultCollectionExists
                greatestEndSeqno := m.greatestEndSeqno
                nDeletingCollections := m.nDeletingCollections } ids)
            deleted := false
            bySeqno := vb.nextSeqno seq }, seq)] ∧
      m.addCollection cfg vb uid ids seq =
        .ok ({ map := container.modify
                 (cfg.arrange (m.map ++ [(ids.2,
                   ⟨ids.1, cfg.state_collection_open, cfg.state_collection_open, 0⟩)]))
                 ids.2 (fun e => e.setStartSeqno (vb.nextSeqno seq))
               manifestUid := uid
               defaultCollectionExists :=
                 if ids.2 = cfg.DefaultCollection then true else m.defaultCollectionExists
               greatestEndSeqno := m.greatestEndSeqno
               nDeletingCollections := m.nDeletingCollections }, vb') := by
  have hq := Manifest.queueSystemEvent_eq cfg
    { map := cfg.arrange (m.map ++ [(ids.2,
        ⟨ids.1, cfg.state_collection_open, cfg.state_collection_open, 0⟩)])
      manifestUid := uid
      defaultCollectionExists :=
        if ids.2 = cfg.DefaultCollection then true else m.defaultCollectionExists
      greatestEndSeqno := m.greatestEndSeqno
      nDeletingCollections := m.nDeletingCollections }
    vb SystemEvent.Collection ids false seq
  refine ⟨_, hq.2.2, hq.2.1, ?_⟩
  unfold Manifest.addCollection
  rw [Manifest.addNewCollectionEntry_eq cfg m ids _ _ h]
  simp only [if_true, decide_True]
  rw [hq.1]

theorem Manifest.addCollection_exists (cfg : Config) (m : Manifest) (vb : VBucket)
    (uid : ManifestUid) (ids : ScopeCollectionPair) (seq : Option Int) (x : ManifestEntry)
    (h : container.find m.map ids.2 = some x) :
    m.addCollection cfg vb uid ids seq = .error Error.logic_error := by
  unfold Manifest.addCollection
  rw [Manifest.addNewCollectionEntry_exists cfg m ids _ _ x h]

/-- What `beginCollectionDelete` leaves when the collection is in the map. -/
theorem Manifest.beginCollectionDelete_eq (cfg : Config) (m : Manifest) (vb : VBucket)
    (uid : ManifestUid) (ids : ScopeCollectionPair) (seq : Option Int) (e : ManifestEntry)
    (h : container.find m.map ids.2 = some e) :
    ∃ vb', vb'.assign = vb.assign ∧
      vb'.queued = vb.queued ++
        [({ flags := SystemEvent.Collection
            keyExtra := Manifest.makeCollectionIdIntoString ids.2
            data := .buffer (Manifest.populateWithSerialisedData cfg
              { m with manifestUid := uid } ids)
            deleted := true
            bySeqno := vb.nextSeqno seq }, seq)] ∧
      m.beginCollectionDelete cfg vb uid ids seq =
        .ok ({ map := container.modify m.map ids.2
                 (fun x => x.setEndSeqno (vb.nextSeqno seq))
               manifestUid := uid
               defaultCollectionExists :=
                 if ids.2 = cfg.DefaultCollection then false else m.defaultCollectionExists
               greatestEndSeqno :=
                 if vb.nextSeqno seq > m.greatestEndSeqno ∨
                   m.greatestEndSeqno = cfg.state_collection_open
                 then vb.nextSeqno seq else m.greatestEndSeqno
               nDeletingCollections := m.nDeletingCollections + 1 }, vb') := by
  have hq := Manifest.queueSystemEvent_eq cfg { m with manifestUid := uid } vb
    SystemEvent.Collection ids true seq
  refine ⟨_, hq.2.2, hq.2.1, ?_⟩
  unfold Manifest.beginCollectionDelete
  rw [Manifest.getManifestEntry_eq_ok m ids.2 e h]
  simp only [Manifest.trackEndSeqno_eq]
  rw [hq.1]
  by_cases hd : ids.2 = cfg.DefaultCollection <;> simp [hd]

theorem Manifest.beginCollectionDelete_unknown (cfg : Config) (m : Manifest) (vb : VBucket)
    (uid : ManifestUid) (ids : ScopeCollectionPair) (seq : Option Int)
    (h : container.find m.map ids.2 = none) :
    m.beginCollectionDelete cfg vb uid ids seq = .error Error.logic_error := by
  unfold Manifest.beginCollectionDelete Manifest.getManifestEntry
  rw [h]

theorem container.find_arrange_append (cfg : Config) (map : container) (c k : CollectionID)
    (x : ManifestEntry) (hwf : container.WF map) (hnone : container.find map c = none) :
    container.find (cfg.arrange (map ++ [(c, x)])) k =
      if k = c then some x else container.find map k := by
  have hperm := cfg.arrange_perm (map ++ [(c, x)])
  have hwfa := container.WF_append_singleton x hwf hnone
  rw [container.find_perm hperm (container.WF_perm hperm.symm hwfa), container.find_append]
  by_cases hk : k = c
  · subst hk
    rw [hnone, if_pos rfl]
    simp [container.find]
  · rw [if_neg hk]
    cases hf : container.find map k with
    | none =>
      have hk2 : ¬ c = k := fun h => hk h.symm
      simp [container.find, hk2]
    | some e => rfl

theorem container.WF_arrange_append (cfg : Config) (map : container) (c : CollectionID)
    (x : ManifestEntry) (hwf : container.WF map) (hnone : container.find map c = none) :
    container.WF (cfg.arrange (map ++ [(c, x)])) :=
  container.WF_perm (cfg.arrange_perm _).symm (container.WF_append_singleton x hwf hnone)

/-! ## The invariants of the bookkeeping -/

theorem container.countDeleting_pos (cfg : Config) (map : container) (k : CollectionID)
    (e : ManifestEntry) (hf : container.find map k = some e) (hd : e.isDeleting cfg = true) :
    1 ≤ container.countDeleting cfg map := by
  unfold container.countDeleting
  exact List.countP_pos_iff.2 ⟨(k, e), container.find_some_mem hf, hd⟩

/-- With the sentinel in greatestEndSeqno no entry is Deleting. -/
theorem Manifest.Tracked.no_deleting (cfg : Config) (m : Manifest)
    (ht : Manifest.Tracked cfg m) (hg : m.greatestEndSeqno = cfg.state_collection_open)
    (k : CollectionID) (e : ManifestEntry) (hf : container.find m.map k = some e) :
    e.isDeleting cfg = false := by
  obtain ⟨_, hcount, hiff⟩ := ht
  cases hd : e.isDeleting cfg with
  | false => rfl
  | true =>
    exfalso
    have h1 := container.countDeleting_pos cfg m.map k e hf hd
    have h0 := hiff.2 hg
    have h2 : (1 : Int) ≤ (container.countDeleting cfg m.map : Int) := by exact_mod_cast h1
    omega

theorem Manifest.Bounded_addNewCollectionEntry (cfg : Config) (m m1 : Manifest)
    (ids : ScopeCollectionPair) (s e : Int) (ht : Manifest.Tracked cfg m)
    (hb : Manifest.Bounded cfg m)
    (h : m.addNewCollectionEntry cfg ids s e = .ok m1) : Manifest.Bounded cfg m1 := by
  cases hfind : container.find m.map ids.2 with
  | some x =>
    rw [Manifest.addNewCollectionEntry_exists cfg m ids s e x hfind] at h
    cases h
  | none =>
    rw [Manifest.addNewCollectionEntry_eq cfg m ids s e hfind] at h
    simp only [Except.ok.injEq] at h
    subst h
    intro k e' hf hd
    simp only at hf ⊢
    rw [container.find_arrange_append cfg m.map ids.2 k _ ht.1 hfind] at hf
    by_cases hk : k = ids.2
    · rw [if_pos hk] at hf
      cases hf
      have he : ¬ e = cfg.state_collection_open := by
        simpa [ManifestEntry.isDeleting, ManifestEntry.isOpen] using hd
      simp only [he, if_false]
      by_cases hcond : e > m.greatestEndSeqno ∨ m.greatestEndSeqno = cfg.state_collection_open
      · rw [if_pos hcond]
      · rw [if_neg hcond]
        have : ¬ e > m.greatestEndSeqno := fun h => hcond (Or.inl h)
        omega
    · rw [if_neg hk] at hf
      have hold := hb k e' hf hd
      by_cases he : e = cfg.state_collection_open
      · simp only [he, if_true]
        exact hold
      · simp only [he, if_false]
        by_cases hcond : e > m.greatestEndSeqno ∨ m.greatestEndSeqno = cfg.state_collection_open
        · rw [if_pos hcond]
          rcases hcond with hgt | hopen
          · omega
          · have := Manifest.Tracked.no_deleting cfg m ht hopen k e' hf
            rw [hd] at this
            cases this
        · rw [if_neg hcond]
          exact hold

theorem Manifest.Mirrored_addNewCollectionEntry (cfg : Config) (m m1 : Manifest)
    (ids : ScopeCollectionPair) (s e : Int) (hwf : container.WF m.map)
    (hm : Manifest.Mirrored cfg m)
    (h : m.addNewCollectionEntry cfg ids s e = .ok m1) : Manifest.Mirrored cfg m1 := by
  cases hfind : container.find m.map ids.2 with
  | some x =>
    rw [Manifest.addNewCollectionEntry_exists cfg m ids s e x hfind] at h
    cases h
  | none =>
    rw [Manifest.addNewCollectionEntry_eq cfg m ids s e hfind] at h
    simp only [Except.ok.injEq] at h
    subst h
    unfold Manifest.Mirrored
    simp only
    rw [container.find_arrange_append cfg m.map ids.2 _ _ hwf hfind]
    by_cases hk : ids.2 = cfg.DefaultCollection
    · have hk2 : cfg.DefaultCollection = ids.2 := hk.symm
      simp only [hk, if_true]
      constructor
      · intro hopen
        exact ⟨_, rfl, by simpa [ManifestEntry.isOpen] using hopen⟩
      · rintro ⟨x, hx, hopen⟩
        cases hx
        simpa [ManifestEntry.isOpen] using hopen
    · have hk2 : ¬ cfg.DefaultCollection = ids.2 := fun h => hk h.symm
      simp only [hk, hk2, if_false]
      exact hm

theorem Manifest.Consistent_addNewCollectionEntry (cfg : Config) (m m1 : Manifest)
    (ids : ScopeCollectionPair) (s e : Int) (hc : Manifest.Consistent cfg m)
    (h : m.addNewCollectionEntry cfg ids s e = .ok m1) : Manifest.Consistent cfg m1 :=
  ⟨Manifest.Tracked_addNewCollectionEntry cfg m m1 ids s e hc.1 h,
    Manifest.Bounded_addNewCollectionEntry cfg m m1 ids s e hc.1 hc.2.1 h,
    Manifest.Mirrored_addNewCollectionEntry cfg m m1 ids s e hc.1.1 hc.2.2 h⟩

theorem Manifest.Consistent_initial (cfg : Config) (uid : ManifestUid) :
    Manifest.Consistent cfg { Manifest.initial cfg with manifestUid := uid } := by
  refine ⟨Manifest.Tracked_initial cfg uid, ?_, ?_⟩
  · intro k e hf _
    simp [Manifest.initial, container.find] at hf
  · unfold Manifest.Mirrored
    simp [Manifest.initial, container.find]

theorem Manifest.Consistent_decodeLoop (cfg : Config) (entries : List SerialisedManifestEntry) :
    ∀ (n i : Nat) (m d : Manifest), Manifest.Consistent cfg m →
      Manifest.decodeLoop cfg entries n i m = .ok d → Manifest.Consistent cfg d := by
  intro n
  induction n with
  | zero =>
    intro i m d hc h
    simp only [Manifest.decodeLoop, Except.ok.injEq] at h
    subst h
    exact hc
  | succ n ih =>
    intro i m d hc h
    unfold Manifest.decodeLoop at h
    cases hg : entries.get? i with
    | none => rw [hg] at h; cases h
    | some entry =>
      rw [hg] at h
      simp only at h
      cases ha : m.addNewCollectionEntry cfg (entry.scopeId, entry.collectionId)
          entry.startSeqno entry.endSeqno with
      | error x => rw [ha] at h; cases h
      | ok m1 =>
        rw [ha] at h
        exact ih (i + 1) m1 d (Manifest.Consistent_addNewCollectionEntry cfg m m1 _ _ _ hc ha) h

theorem Manifest.Consistent_construct (cfg : Config) (data : PersistedManifest) (m : Manifest)
    (h : Manifest.construct cfg data = .ok m) : Manifest.Consistent cfg m := by
  cases data with
  | empty =>
    rw [Manifest.construct_empty] at h
    simp only [Except.ok.injEq] at h
    subst h
    refine ⟨⟨?_, ?_, ?_⟩, ?_, ?_⟩
    · unfold container.WF
      simp
    · simp [container.countDeleting, ManifestEntry.isDeleting, ManifestEntry.isOpen]
    · simp
    · intro k e hf hd
      simp only [container.find] at hf
      split at hf
      · cases hf
        simp [ManifestEntry.isDeleting, ManifestEntry.isOpen] at hd
      · cases hf
    · unfold Manifest.Mirrored
      simp [container.find, ManifestEntry.isOpen]
  | invalid =>
    unfold Manifest.construct at h
    cases h
  | buffer s =>
    unfold Manifest.construct at h
    exact Manifest.Consistent_decodeLoop cfg s.entries s.entryCount 0 _ m
      (Manifest.Consistent_initial cfg s.uid) h

theorem Manifest.Consistent_addCollection (cfg : Config) (m : Manifest) (vb : VBucket)
    (uid : ManifestUid) (ids : ScopeCollectionPair) (seq : Option Int) (m' : Manifest)
    (vb' : VBucket) (hc : Manifest.Consistent cfg m)
    (h : m.addCollection cfg vb uid ids seq = .ok (m', vb')) :
    Manifest.Consistent cfg m' ∧ vb'.assign = vb.assign := by
  obtain ⟨ht', ha⟩ := Manifest.Tracked_addCollection cfg m vb uid ids seq m' vb' hc.1 h
  refine ⟨⟨ht', ?_, ?_⟩, ha⟩
  · cases hfind : container.find m.map ids.2 with
    | some x =>
      rw [Manifest.addCollection_exists cfg m vb uid ids seq x hfind] at h
      cases h
    | none =>
      obtain ⟨vb2, _, _, heq⟩ := Manifest.addCollection_eq cfg m vb uid ids seq hfind
      rw [heq] at h
      simp only [Except.ok.injEq, Prod.mk.injEq] at h
      obtain ⟨h1, _⟩ := h
      subst h1
      intro k e hf hd
      simp only at hf ⊢
      rw [container.find_modify, container.find_arrange_append cfg m.map ids.2 k _ hc.1.1 hfind]
        at hf
      by_cases hk : k = ids.2
      · simp only [hk, if_true, Option.map_some', Option.some.injEq] at hf
        subst hf
        simp [ManifestEntry.isDeleting, ManifestEntry.isOpen, ManifestEntry.setStartSeqno] at hd
      · simp only [hk, if_false] at hf
        exact hc.2.1 k e hf hd
  · cases hfind : container.find m.map ids.2 with
    | some x =>
      rw [Manifest.addCollection_exists cfg m vb uid ids seq x hfind] at h
      cases h
    | none =>
      obtain ⟨vb2, _, _, heq⟩ := Manifest.addCollection_eq cfg m vb uid ids seq hfind
      rw [heq] at h
      simp only [Except.ok.injEq, Prod.mk.injEq] at h
      obtain ⟨h1, _⟩ := h
      subst h1
      unfold Manifest.Mirrored
      simp only
      rw [container.find_modify,
        container.find_arrange_append cfg m.map ids.2 _ _ hc.1.1 hfind]
      by_cases hk : ids.2 = cfg.DefaultCollection
      · rw [hk]
        simp only [if_true, Option.map_some', true_iff]
        exact ⟨_, rfl, by simp [ManifestEntry.isOpen, ManifestEntry.setStartSeqno]⟩
      · have hk2 : ¬ cfg.DefaultCollection = ids.2 := fun h => hk h.symm
        simp only [hk, hk2, if_false]
        exact hc.2.2

theorem Manifest.Consistent_beginCollectionDelete (cfg : Config) (m : Manifest)
    (vb : VBucket) (uid : ManifestUid) (ids : ScopeCollectionPair) (seq : Option Int)
    (m' : Manifest) (vb' : VBucket) (hc : Manifest.Consistent cfg m)
    (hseq : vb.nextSeqno seq ≠ cfg.state_collection_open)
    (h : m.beginCollectionDelete cfg vb uid ids seq = .ok (m', vb')) :
    Manifest.Consistent cfg m' ∧ vb'.assign = vb.assign := by
  obtain ⟨ht', ha⟩ :=
    Manifest.Tracked_beginCollectionDelete cfg m vb uid ids seq m' vb' hc.1 hseq h
  cases hfind : container.find m.map ids.2 with
  | none =>
    rw [Manifest.beginCollectionDelete_unknown cfg m vb uid ids seq hfind] at h
    cases h
  | some x =>
    obtain ⟨vb2, _, _, heq⟩ := Manifest.beginCollectionDelete_eq cfg m vb uid ids seq x hfind
    rw [heq] at h
    simp only [Except.ok.injEq, Prod.mk.injEq] at h
    obtain ⟨h1, _⟩ := h
    subst h1
    refine ⟨⟨ht', ?_, ?_⟩, ha⟩
    · intro k e hf hd
      simp only at hf ⊢
      rw [container.find_modify] at hf
      by_cases hk : k = ids.2
      · simp only [hk, if_true, hfind, Option.map_some', Option.some.injEq] at hf
        subst hf
        simp only [ManifestEntry.setEndSeqno]
        by_cases hcond : vb.nextSeqno seq > m.greatestEndSeqno ∨
            m.greatestEndSeqno = cfg.state_collection_open
        · rw [if_pos hcond]
        · rw [if_neg hcond]
          have : ¬ vb.nextSeqno seq > m.greatestEndSeqno := fun h => hcond (Or.inl h)
          omega
      · simp only [hk, if_false] at hf
        have hold := hc.2.1 k e hf hd
        by_cases hcond : vb.nextSeqno seq > m.greatestEndSeqno ∨
            m.greatestEndSeqno = cfg.state_collection_open
        · rw [if_pos hcond]
          rcases hcond with hgt | hopen
          · omega
          · have := Manifest.Tracked.no_deleting cfg m hc.1 hopen k e hf
            rw [hd] at this
            cases this
        · rw [if_neg hcond]
          exact hold
    · unfold Manifest.Mirrored
      simp only
      rw [container.find_modify]
      by_cases hk : ids.2 = cfg.DefaultCollection
      · rw [hk] at hfind ⊢
        simp only [if_true, Bool.false_eq_true, false_iff, not_exists, not_and]
        intro e he hopen
        rw [hfind] at he
        simp only [Option.map_some', Option.some.injEq] at he
        subst he
        simp only [ManifestEntry.isOpen, ManifestEntry.setEndSeqno, decide_eq_true_eq] at hopen
        exact hseq hopen
      · have hk2 : ¬ cfg.DefaultCollection = ids.2 := fun h => hk h.symm
        simp only [hk, hk2, if_false]
        exact hc.2.2

theorem Manifest.Consistent_completeDeletion (cfg : Config)
    (intermediate : Except Error SystemEvent) (m : Manifest) (vb : VBucket)
    (c : CollectionID) (e : ManifestEntry) (m' : Manifest) (vb' : VBucket)
    (hc : Manifest.Consistent cfg m) (hf : container.find m.map c = some e)
    (hd : e.isDeleting cfg = true)
    (h : m.completeDeletion cfg intermediate vb c = .ok (m', vb')) :
    Manifest.Consistent cfg m' := by
  have ht' := Manifest.Tracked_completeDeletion cfg intermediate m vb c e m' vb' hc.1 hf hd h
  rw [Manifest.completeDeletion_eq cfg intermediate m vb c e hf hd] at h
  simp only [Except.ok.injEq, Prod.mk.injEq] at h
  obtain ⟨h1, _⟩ := h
  subst h1
  refine ⟨ht', ?_, ?_⟩
  · intro k x hx hdx
    simp only at hx ⊢
    by_cases hz : m.nDeletingCollections - 1 = 0
    · exfalso
      have hg : ({ map := container.erase m.map c
                   manifestUid := m.manifestUid
                   defaultCollectionExists := m.defaultCollectionExists
                   greatestEndSeqno :=
                     if m.nDeletingCollections - 1 = 0 then cfg.state_collection_open
                     else m.greatestEndSeqno
                   nDeletingCollections := m.nDeletingCollections - 1 } :
                     Manifest).greatestEndSeqno = cfg.state_collection_open := by
        simp [hz]
      have := Manifest.Tracked.no_deleting cfg _ ht' hg k x hx
      rw [hdx] at this
      cases this
    · rw [if_neg hz]
      rw [container.find_erase] at hx
      by_cases hk : k = c
      · rw [if_pos hk] at hx
        cases hx
      · rw [if_neg hk] at hx
        exact hc.2.1 k x hx hdx
  · unfold Manifest.Mirrored
    simp only
    rw [container.find_erase]
    by_cases hk : cfg.DefaultCollection = c
    · rw [if_pos hk]
      simp only [false_and, exists_false, iff_false, reduceCtorEq]
      intro hdce
      obtain ⟨x, hx, hopen⟩ := hc.2.2.1 hdce
      rw [hk, hf] at hx
      cases hx
      simp [ManifestEntry.isDeleting, hopen] at hd
    · rw [if_neg hk]
      exact hc.2.2

/-- A property every call of the operation keeps holds after a run of it. -/
theorem Manifest.Steps_preserves (cfg : Config) (P : Manifest → Prop)
    (step : Manifest → VBucket → ManifestUid → ScopeCollectionPair → Option Int →
      Except Error (Manifest × VBucket))
    (hstep : ∀ m vb uid p m1 vb1, P m →
      vb.nextSeqno none ≠ cfg.state_collection_open →
      step m vb uid p none = .ok (m1, vb1) → P m1 ∧ vb1.assign = vb.assign)
    (L : List ScopeCollectionPair) (m : Manifest) (vb : VBucket) (m' : Manifest)
    (vb' : VBucket) (hs : Manifest.Steps step m vb L m' vb') (hP : P m)
    (hgood : ∀ n, vb.assign n ≠ cfg.state_collection_open) :
    P m' ∧ vb'.assign = vb.assign := by
  induction hs with
  | nil m vb => exact ⟨hP, rfl⟩
  | cons m vb uid p rest m1 vb1 m2 vb2 h1 _ ih =>
    obtain ⟨hP1, ha1⟩ := hstep m vb uid p m1 vb1 hP (hgood _) h1
    obtain ⟨hP2, ha2⟩ := ih hP1 (by rw [ha1]; exact hgood)
    exact ⟨hP2, ha2.trans ha1⟩

theorem Manifest.Consistent_update (cfg : Config) (m : Manifest) (vb : VBucket)
    (t : Collections.Manifest) (b : Bool) (m' : Manifest) (vb' : VBucket)
    (hc : Manifest.Consistent cfg m) (hgood : ∀ n, vb.assign n ≠ cfg.state_collection_open)
    (h : m.update cfg vb t = .ok (b, m', vb')) : Manifest.Consistent cfg m' := by
  cases hp : m.processManifest cfg t with
  | none =>
    unfold Manifest.update at h
    rw [hp] at h
    simp only [Except.ok.injEq, Prod.mk.injEq] at h
    obtain ⟨_, h1, _⟩ := h
    rw [← h1]
    exact hc
  | some r =>
    obtain ⟨additions, deletions⟩ := r
    obtain ⟨_, m1, vb1, hs1, hs2⟩ :=
      Manifest.update_steps cfg m vb t additions deletions b m' vb' hp h
    obtain ⟨hc1, ha1⟩ := Manifest.Steps_preserves cfg (Manifest.Consistent cfg)
      (Manifest.beginCollectionDelete cfg)
      (fun m vb uid p m1 vb1 hP hs hb =>
        Manifest.Consistent_beginCollectionDelete cfg m vb uid p none m1 vb1 hP hs hb)
      deletions m vb m1 vb1 hs1 hc hgood
    exact (Manifest.Steps_preserves cfg (Manifest.Consistent cfg)
      (Manifest.addCollection cfg)
      (fun m vb uid p m1 vb1 hP _ hb =>
        Manifest.Consistent_addCollection cfg m vb uid p none m1 vb1 hP hb)
      additions m1 vb1 m' vb' hs2 hc1 (by rw [ha1]; exact hgood)).1

/-- Every reachable manifest keeps the invariants of the bookkeeping, when no
seqno the operations get is the sentinel. -/
theorem Reachable.consistent (cfg : Config) (good : Int → Prop)
    (hgood : ∀ s, good s → s ≠ cfg.state_collection_open) (m : Manifest)
    (hr : Reachable cfg good m) : Manifest.Consistent cfg m := by
  induction hr with
  | construct data m h => exact Manifest.Consistent_construct cfg data m h
  | update m vb t b m' vb' _ hg h ih =>
    exact Manifest.Consistent_update cfg m vb t b m' vb' ih (fun n => hgood _ (hg n)) h
  | addCollection m vb uid ids seq m' vb' _ _ h ih =>
    exact (Manifest.Consistent_addCollection cfg m vb uid ids seq m' vb' ih h).1
  | beginCollectionDelete m vb uid ids seq m' vb' _ hg h ih =>
    exact (Manifest.Consistent_beginCollectionDelete cfg m vb uid ids seq m' vb' ih
      (hgood _ hg) h).1
  | completeDeletion intermediate m vb c e m' vb' _ hf hd h ih =>
    exact Manifest.Consistent_completeDeletion cfg intermediate m vb c e m' vb' ih hf hd h

/-- C11. In every reachable manifest state (every seqno non-negative, the
sentinel negative), every entry of the map that is Deleting has an endSeqno of
at most greatestEndSeqno. -/
theorem Manifest.deleting_endSeqno_le_greatest (cfg : Config) (m : Manifest)
    (hsentinel : cfg.state_collection_open < 0)
    (hr : Reachable cfg (fun s => 0 ≤ s) m) (k : CollectionID) (e : ManifestEntry)
    (hmem : (k, e) ∈ m.map) (hd : e.isDeleting cfg = true) :
    e.endSeqno ≤ m.greatestEndSeqno := by
  have hc := Reachable.consistent cfg (fun s => 0 ≤ s) (fun s hs => by omega) m hr
  exact hc.2.1 k e (container.mem_find hc.1.1 hmem) hd

theorem Manifest.deleting_endSeqno_le_greatest_witness :
    (⟨0, 0, 1, 0⟩ : ManifestEntry).endSeqno ≤ Manifest.sampleUpdated.greatestEndSeqno :=
  Manifest.deleting_endSeqno_le_greatest Config.frontInsertion Manifest.sampleUpdated
    (by decide) Manifest.sampleUpdated_reachable 0 ⟨0, 0, 1, 0⟩ (by decide) (by decide)

/-- C18. In every reachable manifest state in which collection C is Deleting,
`completeDeletion` succeeds; afterwards the map has no entry for C and every
other entry is as before, nDeletingCollections is one less, greatestEndSeqno
is the sentinel if the new count is zero and unchanged otherwise, exactly one
event is queued, a DeleteCollectionHard event for C, and
`doesKeyContainValidCollection` is false for every key of C. -/
theorem Manifest.completeDeletion_removes (cfg : Config)
    (intermediate : Except Error SystemEvent) (m : Manifest) (vb : VBucket)
    (C : CollectionID) (e : ManifestEntry) (hsentinel : cfg.state_collection_open < 0)
    (hr : Reachable cfg (fun s => 0 ≤ s) m) (hf : container.find m.map C = some e)
    (hd : e.isDeleting cfg = true) :
    ∃ m' vb' item,
      m.completeDeletion cfg intermediate vb C = .ok (m', vb') ∧
      container.find m'.map C = none ∧
      (∀ k, k ≠ C → container.find m'.map k = container.find m.map k) ∧
      m'.nDeletingCollections = m.nDeletingCollections - 1 ∧
      m'.greatestEndSeqno =
        (if m'.nDeletingCollections = 0 then cfg.state_collection_open
         else m.greatestEndSeqno) ∧
      m'.manifestUid = m.manifestUid ∧
      m'.defaultCollectionExists = m.defaultCollectionExists ∧
      vb'.queued = vb.queued ++ [(item, none)] ∧
      item.summary =
        (SystemEvent.DeleteCollectionHard, false, some ⟨m.manifestUid, e.scopeID, C⟩) ∧
      ∀ key : DocKey, key.collectionID = C →
        m'.doesKeyContainValidCollection cfg key = false := by
  have hc := Reachable.consistent cfg (fun s => 0 ≤ s) (fun s hs => by omega) m hr
  have hq := Manifest.queueSystemEvent_eq cfg
    { map := container.erase m.map C
      manifestUid := m.manifestUid
      defaultCollectionExists := m.defaultCollectionExists
      greatestEndSeqno :=
        if m.nDeletingCollections - 1 = 0 then cfg.state_collection_open
        else m.greatestEndSeqno
      nDeletingCollections := m.nDeletingCollections - 1 }
    vb SystemEvent.DeleteCollectionHard (e.scopeID, C) false none
  refine ⟨_, _, _, Manifest.completeDeletion_eq cfg intermediate m vb C e hf hd, ?_, ?_, rfl, rfl,
    rfl, rfl, hq.2.1, ?_, ?_⟩
  · simp only
    rw [container.find_erase, if_pos rfl]
  · intro k hk
    simp only
    rw [container.find_erase, if_neg hk]
  · simp only [Item.summary, Manifest.getSystemEventData_populate]
  · intro key hkey
    unfold Manifest.doesKeyContainValidCollection
    simp only
    rw [hkey, container.find_erase, if_pos rfl]
    have hnot : ¬ (m.defaultCollectionExists = true ∧ C = cfg.DefaultCollection) := by
      rintro ⟨hdce, hC⟩
      obtain ⟨x, hx, hopen⟩ := hc.2.2.1 hdce
      rw [← hC, hf] at hx
      cases hx
      simp [ManifestEntry.isDeleting, hopen] at hd
    rw [if_neg hnot]

theorem Manifest.completeDeletion_removes_witness :
    ∃ m' vb' item,
      Manifest.sampleUpdated.completeDeletion Config.frontInsertion
        (.error Error.logic_error) VBucket.fresh 0 = .ok (m', vb') ∧
      container.find m'.map 0 = none ∧
      (∀ k, k ≠ 0 → container.find m'.map k = container.find Manifest.sampleUpdated.map k) ∧
      m'.nDeletingCollections = Manifest.sampleUpdated.nDeletingCollections - 1 ∧
      m'.greatestEndSeqno =
        (if m'.nDeletingCollections = 0 then Config.frontInsertion.state_collection_open
         else Manifest.sampleUpdated.greatestEndSeqno) ∧
      m'.manifestUid = Manifest.sampleUpdated.manifestUid ∧
      m'.defaultCollectionExists = Manifest.sampleUpdated.defaultCollectionExists ∧
      vb'.queued = VBucket.fresh.queued ++ [(item, none)] ∧
      item.summary =
        (SystemEvent.DeleteCollectionHard, false,
          some ⟨Manifest.sampleUpdated.manifestUid, (⟨0, 0, 1, 0⟩ : ManifestEntry).scopeID, 0⟩) ∧
      ∀ key : DocKey, key.collectionID = 0 →
        m'.doesKeyContainValidCollection Config.frontInsertion key = false :=
  Manifest.completeDeletion_removes Config.frontInsertion (.error Error.logic_error)
    Manifest.sampleUpdated VBucket.fresh 0 ⟨0, 0, 1, 0⟩ (by decide)
    Manifest.sampleUpdated_reachable (by decide) (by decide)

/-- C14 (as stated, refuted). In the manifest constructed from a persisted
buffer in which the default collection is Deleting since seqno 10 and another
collection since seqno 20, `isLogicallyDeleted` of a default collection key at
seqno 15 is true, while 15 is above the end seqno of the entry and the
iterator overload returns false. -/
theorem Manifest.isLogicallyDeleted_default_ignores_seqno :
    Manifest.construct Config.insertionOrder
        (.buffer SerialisedManifest.sampleTwoDeleting) = .ok Manifest.sampleTwoDeleting ∧
      container.find Manifest.sampleTwoDeleting.map 0 = some ⟨0, 0, 10, 0⟩ ∧
      (15 : Int) ≤ Manifest.sampleTwoDeleting.greatestEndSeqno ∧
      Manifest.sampleTwoDeleting.isLogicallyDeleted Config.insertionOrder ⟨0, []⟩ 15 =
        .ok true ∧
      decide ((15 : Int) ≤ (⟨0, 0, 10, 0⟩ : ManifestEntry).endSeqno) = false ∧
      Manifest.sampleTwoDeleting.isLogicallyDeleted_iterator (some (0, ⟨0, 0, 10, 0⟩)) 15 =
        .ok false :=
  ⟨rfl, by decide, by decide, rfl, by decide, rfl⟩

/-- C14 (amended). In every reachable manifest state, for a key whose
collection has the entry e in the map and a seqno of at most
greatestEndSeqno: when the key is not of the default collection (an ordinary
key, or a system event key with the collection id embedded in it),
`isLogicallyDeleted` of the key equals `seqno <= e.endSeqno` and equals the
iterator overload on e; when the key is of the default collection,
`isLogicallyDeleted` returns whether the entry is Deleting (the negation of
defaultCollectionExists), which is `seqno <= e.endSeqno` whenever the seqno is
above the sentinel and the entry is Open or the seqno is at most e.endSeqno. -/
theorem Manifest.isLogicallyDeleted_entry (cfg : Config) (m : Manifest)
    (hsentinel : cfg.state_collection_open < 0)
    (hreserved : cfg.DefaultCollection ≠ cfg.SystemCollection)
    (hr : Reachable cfg (fun s => 0 ≤ s) m) (key : DocKey)
    (itr : CollectionID × ManifestEntry) (seqno : Int)
    (hentry : m.getManifestEntry_key cfg key true = .ok (some itr))
    (hseq : seqno ≤ m.greatestEndSeqno) :
    (key.collectionID ≠ cfg.DefaultCollection →
      m.isLogicallyDeleted cfg key seqno = .ok (decide (seqno ≤ itr.2.endSeqno)) ∧
      m.isLogicallyDeleted cfg key seqno = m.isLogicallyDeleted_iterator (some itr) seqno) ∧
    (key.collectionID = cfg.DefaultCollection →
      m.isLogicallyDeleted cfg key seqno = .ok (itr.2.isDeleting cfg) ∧
      (cfg.state_collection_open < seqno →
        itr.2.isOpen cfg = true ∨ seqno ≤ itr.2.endSeqno →
        m.isLogicallyDeleted cfg key seqno = .ok (decide (seqno ≤ itr.2.endSeqno)))) := by
  have hc := Reachable.consistent cfg (fun s => 0 ≤ s) (fun s hs => by omega) m hr
  constructor
  · intro hnd
    have hitr : m.isLogicallyDeleted_iterator (some itr) seqno =
        .ok (decide (seqno ≤ itr.2.endSeqno)) := by
      unfold Manifest.isLogicallyDeleted_iterator
      simp only [if_pos hseq]
    rw [hitr, and_self]
    unfold Manifest.isLogicallyDeleted
    rw [if_pos hseq, if_neg hnd]
    unfold Manifest.getManifestEntry_key at hentry
    by_cases hsys : key.collectionID = cfg.SystemCollection
    · rw [if_pos ⟨rfl, hsys⟩] at hentry
      rw [if_pos hsys]
      cases hg : Manifest.getCollectionIDFromKey cfg key with
      | error x => rw [hg] at hentry; cases hentry
      | ok lookup =>
        rw [hg] at hentry
        simp only [Except.ok.injEq] at hentry ⊢
        cases hf : container.find m.map lookup with
        | none => rw [hf] at hentry; cases hentry
        | some e =>
          rw [hf] at hentry
          simp only [Option.map_some', Option.some.injEq] at hentry
          rw [← hentry]
    · have hneg : ¬ (true = true ∧ key.collectionID = cfg.SystemCollection) :=
        fun h => hsys h.2
      rw [if_neg hneg] at hentry
      rw [if_neg hsys]
      simp only [Except.ok.injEq] at hentry ⊢
      cases hf : container.find m.map key.collectionID with
      | none => rw [hf] at hentry; cases hentry
      | some e =>
        rw [hf] at hentry
        simp only [Option.map_some', Option.some.injEq] at hentry
        rw [← hentry]
  · intro hdef
    have hsys : ¬ key.collectionID = cfg.SystemCollection := by
      rw [hdef]
      exact hreserved
    have hneg : ¬ (true = true ∧ key.collectionID = cfg.SystemCollection) :=
      fun h => hsys h.2
    unfold Manifest.getManifestEntry_key at hentry
    rw [if_neg hneg] at hentry
    simp only [Except.ok.injEq] at hentry
    cases hf : container.find m.map key.collectionID with
    | none => rw [hf] at hentry; cases hentry
    | some e =>
      rw [hf] at hentry
      simp only [Option.map_some', Option.some.injEq] at hentry
      have hres : m.isLogicallyDeleted cfg key seqno = .ok (itr.2.isDeleting cfg) := by
        unfold Manifest.isLogicallyDeleted
        rw [if_pos hseq, if_pos hdef, ← hentry]
        simp only [Except.ok.injEq]
        rw [hdef] at hf
        cases hdce : m.defaultCollectionExists with
        | true =>
          obtain ⟨x, hx, hopen⟩ := hc.2.2.1 hdce
          rw [hf] at hx
          cases hx
          simp [ManifestEntry.isDeleting, hopen]
        | false =>
          cases hopen : e.isOpen cfg with
          | true =>
            have := hc.2.2.2 ⟨e, hf, hopen⟩
            rw [hdce] at this
            cases this
          | false => simp [ManifestEntry.isDeleting, hopen]
      refine ⟨hres, ?_⟩
      intro habove hcase
      rw [hres]
      simp only [Except.ok.injEq]
      rcases hcase with hopen | hle
      · have hend : itr.2.endSeqno = cfg.state_collection_open := by
          simpa [ManifestEntry.isOpen] using hopen
        have hnle : ¬ seqno ≤ itr.2.endSeqno := by omega
        simp [ManifestEntry.isDeleting, hopen, hnle]
      · have hne : ¬ itr.2.endSeqno = cfg.state_collection_open := by omega
        simp [ManifestEntry.isDeleting, ManifestEntry.isOpen, hne, hle]

theorem Manifest.isLogicallyDeleted_entry_witness :
    (Manifest.sampleTwoDeleting.isLogicallyDeleted Config.insertionOrder ⟨8, []⟩ 15 =
        .ok (decide ((15 : Int) ≤ (⟨2, 4, 20, 0⟩ : ManifestEntry).endSeqno)) ∧
      Manifest.sampleTwoDeleting.isLogicallyDeleted Config.insertionOrder ⟨8, []⟩ 15 =
        Manifest.sampleTwoDeleting.isLogicallyDeleted_iterator (some (8, ⟨2, 4, 20, 0⟩)) 15) ∧
    Manifest.sampleTwoDeleting.isLogicallyDeleted Config.insertionOrder ⟨0, []⟩ 15 =
      .ok ((⟨0, 0, 10, 0⟩ : ManifestEntry).isDeleting Config.insertionOrder) :=
  ⟨(Manifest.isLogicallyDeleted_entry Config.insertionOrder Manifest.sampleTwoDeleting
      (by decide) (by decide)
      (Reachable.construct (.buffer SerialisedManifest.sampleTwoDeleting) _ rfl)
      ⟨8, []⟩ (8, ⟨2, 4, 20, 0⟩) 15 rfl (by decide)).1 (by decide),
    ((Manifest.isLogicallyDeleted_entry Config.insertionOrder Manifest.sampleTwoDeleting
      (by decide) (by decide)
      (Reachable.construct (.buffer SerialisedManifest.sampleTwoDeleting) _ rfl)
      ⟨0, []⟩ (0, ⟨0, 0, 10, 0⟩) 15 rfl (by decide)).2 rfl).1⟩

/-! ## The map after a run of an operation -/

theorem Item.identifiers_populate (cfg : Config) (m : Manifest) (ids : ScopeCollectionPair)
    (se : SystemEvent) (k : List Nat) (del : Bool) (s : Int) :
    Item.identifiers
      { flags := se
        keyExtra := k
        data := .buffer (m.populateWithSerialisedData cfg ids)
        deleted := del
        bySeqno := s } = some ids := by
  simp only [Item.identifiers, Manifest.getSystemEventData_populate, Option.map_some']

/-- A run of `beginCollectionDelete` over changes with distinct collection ids:
every change finds its entry, queues one deleted Collection event and leaves
the entry with the seqno of that event as end seqno; the other entries are not
touched. -/
theorem Manifest.Steps_begin_effect (cfg : Config) (L : List ScopeCollectionPair)
    (m : Manifest) (vb : VBucket) (m' : Manifest) (vb' : VBucket)
    (hs : Manifest.Steps (Manifest.beginCollectionDelete cfg) m vb L m' vb')
    (hgood : ∀ n, vb.assign n ≠ cfg.state_collection_open)
    (hnd : (L.map Prod.snd).Nodup) :
    vb'.assign = vb.assign ∧
    (∃ evs : List Item, vb'.queued = vb.queued ++ evs.map (fun i => (i, none)) ∧
      evs.length = L.length ∧
      ∀ p ∈ L, ∃ e item, container.find m.map p.2 = some e ∧ item ∈ evs ∧
        item.flags = SystemEvent.Collection ∧ item.deleted = true ∧
        item.identifiers = some p ∧ item.bySeqno ≠ cfg.state_collection_open ∧
        container.find m'.map p.2 = some (e.setEndSeqno item.bySeqno)) ∧
    (∀ k, k ∉ L.map Prod.snd → container.find m'.map k = container.find m.map k) := by
  induction hs with
  | nil m vb => exact ⟨rfl, ⟨[], by simp, rfl, by simp⟩, fun _ _ => rfl⟩
  | cons m vb uid p rest m1 vb1 m2 vb2 h1 _ ih =>
    simp only [List.map_cons, List.nodup_cons] at hnd
    cases hfind : container.find m.map p.2 with
    | none =>
      rw [Manifest.beginCollectionDelete_unknown cfg m vb uid p none hfind] at h1
      cases h1
    | some e =>
      obtain ⟨vbx, ha, hq, heq⟩ := Manifest.beginCollectionDelete_eq cfg m vb uid p none e hfind
      rw [heq] at h1
      simp only [Except.ok.injEq, Prod.mk.injEq] at h1
      obtain ⟨hm1, hvb1⟩ := h1
      subst hvb1
      have hfind1 : ∀ k, container.find m1.map k =
          if k = p.2 then (container.find m.map k).map
            (fun x => x.setEndSeqno (vb.nextSeqno none)) else container.find m.map k := by
        intro k
        rw [← hm1]
        exact container.find_modify m.map p.2 k (fun x => x.setEndSeqno (vb.nextSeqno none))
      obtain ⟨ha2, ⟨evs, hq2, hlen, hall⟩, hrest⟩ := ih (by rw [ha]; exact hgood) hnd.2
      have hq' : ∃ item : Item, vbx.queued = vb.queued ++ [(item, none)] ∧
          item.flags = SystemEvent.Collection ∧ item.deleted = true ∧
          item.identifiers = some p ∧ item.bySeqno = vb.nextSeqno none :=
        ⟨_, hq, rfl, rfl, Item.identifiers_populate cfg _ p _ _ _ _, rfl⟩
      obtain ⟨item0, hq0, hfl0, hdel0, hid0, hby0⟩ := hq'
      refine ⟨ha2.trans ha, ⟨item0 :: evs, ?_, ?_, ?_⟩, ?_⟩
      · rw [hq2, hq0]
        simp
      · simp [hlen]
      · intro q hq
        rcases List.mem_cons.1 hq with hqp | hqr
        · subst hqp
          refine ⟨e, item0, hfind, List.mem_cons_self _ _, hfl0, hdel0, hid0, ?_, ?_⟩
          · rw [hby0]
            exact hgood _
          · rw [hrest q.2 hnd.1, hfind1, if_pos rfl, hfind, hby0]
            rfl
        · obtain ⟨e1, item, hf1, hmem, hfl, hdel, hid, hne, hf2⟩ := hall q hqr
          have hqne : ¬ q.2 = p.2 := by
            intro heq2
            exact hnd.1 (heq2 ▸ List.mem_map_of_mem Prod.snd hqr)
          rw [hfind1, if_neg hqne] at hf1
          exact ⟨e1, item, hf1, List.mem_cons_of_mem _ hmem, hfl, hdel, hid, hne, hf2⟩
      · intro k hk
        simp only [List.map_cons, List.mem_cons, not_or] at hk
        rw [hrest k hk.2, hfind1, if_neg hk.1]

/-- A run of `addCollection`: every change finds no entry for its collection,
queues one Collection event that is not deleted and leaves an Open entry with
the scope of the change and the seqno of that event as start seqno; the other
entries are not touched. -/
theorem Manifest.Steps_add_effect (cfg : Config) (L : List ScopeCollectionPair)
    (m : Manifest) (vb : VBucket) (m' : Manifest) (vb' : VBucket)
    (hs : Manifest.Steps (Manifest.addCollection cfg) m vb L m' vb')
    (hwf : container.WF m.map) :
    vb'.assign = vb.assign ∧ container.WF m'.map ∧
    (∃ evs : List Item, vb'.queued = vb.queued ++ evs.map (fun i => (i, none)) ∧
      evs.length = L.length ∧
      ∀ p ∈ L, ∃ item, container.find m.map p.2 = none ∧ item ∈ evs ∧
        item.flags = SystemEvent.Collection ∧ item.deleted = false ∧
        item.identifiers = some p ∧
        container.find m'.map p.2 =
          some ⟨p.1, item.bySeqno, cfg.state_collection_open, 0⟩) ∧
    (∀ k, k ∉ L.map Prod.snd → container.find m'.map k = container.find m.map k) := by
  induction hs with
  | nil m vb => exact ⟨rfl, hwf, ⟨[], by simp, rfl, by simp⟩, fun _ _ => rfl⟩
  | cons m vb uid p rest m1 vb1 m2 vb2 h1 _ ih =>
    cases hfind : container.find m.map p.2 with
    | some x =>
      rw [Manifest.addCollection_exists cfg m vb uid p none x hfind] at h1
      cases h1
    | none =>
      obtain ⟨vbx, ha, hq, heq⟩ := Manifest.addCollection_eq cfg m vb uid p none hfind
      rw [heq] at h1
      simp only [Except.ok.injEq, Prod.mk.injEq] at h1
      obtain ⟨hm1, hvb1⟩ := h1
      subst hvb1
      have hmap1 : m1.map = container.modify
          (cfg.arrange (m.map ++ [(p.2,
            ⟨p.1, cfg.state_collection_open, cfg.state_collection_open, 0⟩)]))
          p.2 (fun e => e.setStartSeqno (vb.nextSeqno none)) := by
        rw [← hm1]
      have hwf1 : container.WF m1.map := by
        rw [hmap1]
        exact container.WF_modify _ _ (container.WF_arrange_append cfg m.map p.2 _ hwf hfind)
      have hfind1 : ∀ k, container.find m1.map k =
          if k = p.2 then some ⟨p.1, vb.nextSeqno none, cfg.state_collection_open, 0⟩
          else container.find m.map k := by
        intro k
        rw [hmap1, container.find_modify,
          container.find_arrange_append cfg m.map p.2 k _ hwf hfind]
        by_cases hk : k = p.2
        · simp only [hk, if_true, Option.map_some']
          rfl
        · simp only [hk, if_false]
      obtain ⟨ha2, hwf2, ⟨evs, hq2, hlen, hall⟩, hrest⟩ := ih hwf1
      have hq' : ∃ item : Item, vbx.queued = vb.queued ++ [(item, none)] ∧
          item.flags = SystemEvent.Collection ∧ item.deleted = false ∧
          item.identifiers = some p ∧ item.bySeqno = vb.nextSeqno none :=
        ⟨_, hq, rfl, rfl, Item.identifiers_populate cfg _ p _ _ _ _, rfl⟩
      obtain ⟨item0, hq0, hfl0, hdel0, hid0, hby0⟩ := hq'
      have hnotin : p.2 ∉ rest.map Prod.snd := by
        intro hmem
        rw [List.mem_map] at hmem
        obtain ⟨q, hq, hqp⟩ := hmem
        obtain ⟨_, hnone, _⟩ := hall q hq
        rw [hqp, hfind1, if_pos rfl] at hnone
        cases hnone
      refine ⟨ha2.trans ha, hwf2, ⟨item0 :: evs, ?_, ?_, ?_⟩, ?_⟩
      · rw [hq2, hq0]
        simp
      · simp [hlen]
      · intro q hq
        rcases List.mem_cons.1 hq with hqp | hqr
        · subst hqp
          refine ⟨item0, hfind, List.mem_cons_self _ _, hfl0, hdel0, hid0, ?_⟩
          rw [hrest q.2 hnotin, hfind1, if_pos rfl, hby0]
        · obtain ⟨item, hf1, hmem, hfl, hdel, hid, hf2⟩ := hall q hqr
          have hqne : ¬ q.2 = p.2 := by
            intro heq2
            rw [hfind1, if_pos heq2] at hf1
            cases hf1
          rw [hfind1, if_neg hqne] at hf1
          exact ⟨item, hf1, List.mem_cons_of_mem _ hmem, hfl, hdel, hid, hf2⟩
      · intro k hk
        simp only [List.map_cons, List.mem_cons, not_or] at hk
        rw [hrest k hk.2, hfind1, if_neg hk.1]

/-- The deletions `processManifest` computes have distinct collection ids. -/
theorem container.deletions_nodup (cfg : Config) (t : Collections.Manifest) (map : container)
    (hwf : container.WF map) :
    (((map.filter (fun p => p.2.isOpen cfg && !t.findCollection p.1)).map
      (fun p => (p.2.scopeID, p.1))).map Prod.snd).Nodup := by
  rw [List.map_map]
  have h : (Prod.snd ∘ fun (p : CollectionID × ManifestEntry) => (p.2.scopeID, p.1)) =
      Prod.fst := rfl
  rw [h]
  exact ((List.filter_sublist map).map Prod.fst).nodup hwf

theorem VBucket.later_assign_nonneg (n : Nat) : 0 ≤ VBucket.later.assign n := by
  show (0 : Int) ≤ (n : Int) + 10
  omega

/-- C16. For a manifest state (with distinct keys, as every reachable state
has) with no entry for collection C, and a bucket manifest that lists exactly
the collections that are Open in the map and, once, C under scope S: `update`
returns true and queues exactly one event, a Collection event for (S, C) that
is not deleted; afterwards the map has an entry for C that is Open, has scope
S and has the seqno the log assigned to that event as start seqno, and every
other entry is as before. -/
theorem Manifest.update_adds_collection (cfg : Config) (m : Manifest) (vb : VBucket)
    (t : Collections.Manifest) (S : ScopeID) (C : CollectionID)
    (hwf : container.WF m.map) (habsent : container.find m.map C = none)
    (hopenlisted : ∀ k e, (k, e) ∈ m.map → e.isOpen cfg = true → ∃ q ∈ t.listed, q.2 = k)
    (hlistedopen : ∀ q ∈ t.listed, q.2 ≠ C →
      ∃ e, container.find m.map q.2 = some e ∧ e.isOpen cfg = true)
    (hC : t.listed.filter (fun q => decide (q.2 = C)) = [(S, C)]) :
    ∃ m' vb' item,
      m.update cfg vb t = .ok (true, m', vb') ∧
      vb'.queued = vb.queued ++ [(item, none)] ∧
      item.summary = changeEvent t.uid (false, (S, C)) ∧
      item.bySeqno = vb.assign vb.queued.length ∧
      container.find m'.map C = some ⟨S, item.bySeqno, cfg.state_collection_open, 0⟩ ∧
      (⟨S, item.bySeqno, cfg.state_collection_open, 0⟩ : ManifestEntry).isOpen cfg = true ∧
      ∀ k, k ≠ C → container.find m'.map k = container.find m.map k := by
  have hconf : t.listed.any (conflicts cfg m.map) = false := by
    rw [List.any_eq_false]
    intro q hq
    unfold conflicts
    by_cases hqC : q.2 = C
    · rw [hqC, habsent]
      simp
    · obtain ⟨e, he, hopen⟩ := hlistedopen q hq hqC
      rw [he]
      simp [ManifestEntry.isDeleting, hopen]
  have hadd : t.listed.filter (isNew m.map) = [(S, C)] := by
    rw [← hC]
    apply List.filter_congr
    intro q hq
    unfold isNew
    by_cases hqC : q.2 = C
    · rw [hqC, habsent]
      simp
    · obtain ⟨e, he, _⟩ := hlistedopen q hq hqC
      rw [he]
      simp [hqC]
  have hdel : m.map.filter (fun p => p.2.isOpen cfg && !t.findCollection p.1) = [] := by
    rw [List.filter_eq_nil_iff]
    rintro ⟨k, e⟩ hmem
    simp only [Bool.and_eq_true, Bool.not_eq_true', not_and, Bool.not_eq_false]
    intro hopen
    obtain ⟨q, hq, hqk⟩ := hopenlisted k e hmem hopen
    cases hfc : t.findCollection k with
    | true => rfl
    | false =>
      exact absurd hqk ((Manifest.findCollection_eq_false_iff t k).1 hfc q hq)
  have hp : m.processManifest cfg t = some ([(S, C)], []) := by
    rw [Manifest.processManifest_eq, hconf, hadd, hdel]
    simp
  obtain ⟨vbx, _, hq, heq⟩ := Manifest.addCollection_eq cfg m vb t.uid (S, C) none habsent
  have hq' : ∃ item : Item, vbx.queued = vb.queued ++ [(item, none)] ∧
      item.summary = changeEvent t.uid (false, (S, C)) ∧
      item.bySeqno = vb.assign vb.queued.length :=
    ⟨_, hq, by simp only [Item.summary, changeEvent, Manifest.getSystemEventData_populate],
      rfl⟩
  obtain ⟨item, hq0, hsum, hby⟩ := hq'
  have hu : m.update cfg vb t =
      .ok (true, { map := container.modify
                     (cfg.arrange (m.map ++ [(C,
                       ⟨S, cfg.state_collection_open, cfg.state_collection_open, 0⟩)]))
                     C (fun e => e.setStartSeqno (vb.nextSeqno none))
                   manifestUid := t.uid
                   defaultCollectionExists :=
                     if C = cfg.DefaultCollection then true else m.defaultCollectionExists
                   greatestEndSeqno := m.greatestEndSeqno
                   nDeletingCollections := m.nDeletingCollections }, vbx) := by
    unfold Manifest.update
    rw [hp]
    simp only [Manifest.applyChanges, List.dropLast_nil, Manifest.applyEach, List.getLast?_nil,
      Manifest.updateAdditions, List.dropLast_single, List.getLast?_singleton]
    rw [heq]
  refine ⟨_, vbx, item, hu, hq0, hsum, hby, ?_, ?_, ?_⟩
  · simp only
    rw [container.find_modify, container.find_arrange_append cfg m.map C C _ hwf habsent,
      if_pos rfl, if_pos rfl, hby]
    rfl
  · simp [ManifestEntry.isOpen]
  · intro k hk
    simp only
    rw [container.find_modify, container.find_arrange_append cfg m.map C k _ hwf habsent,
      if_neg hk, if_neg hk]

theorem Manifest.sampleUpdated_WF : container.WF Manifest.sampleUpdated.map := by
  unfold container.WF
  decide

theorem Manifest.update_adds_collection_witness :
    ∃ m' vb' item,
      Manifest.sampleUpdated.update Config.frontInsertion VBucket.later
        ⟨6, [(4, [9]), (7, [12])]⟩ = .ok (true, m', vb') ∧
      vb'.queued = VBucket.later.queued ++ [(item, none)] ∧
      item.summary = changeEvent 6 (false, (7, 12)) ∧
      item.bySeqno = VBucket.later.assign VBucket.later.queued.length ∧
      container.find m'.map 12 =
        some ⟨7, item.bySeqno, Config.frontInsertion.state_collection_open, 0⟩ ∧
      (⟨7, item.bySeqno, Config.frontInsertion.state_collection_open, 0⟩ :
        ManifestEntry).isOpen Config.frontInsertion = true ∧
      ∀ k, k ≠ 12 → container.find m'.map k = container.find Manifest.sampleUpdated.map k :=
  Manifest.update_adds_collection Config.frontInsertion Manifest.sampleUpdated VBucket.later
    ⟨6, [(4, [9]), (7, [12])]⟩ 7 12 Manifest.sampleUpdated_WF (by decide)
    (fun k e hmem hopen => by
      simp only [Manifest.sampleUpdated, List.mem_cons, Prod.mk.injEq, List.mem_singleton,
        List.not_mem_nil, or_false] at hmem
      rcases hmem with ⟨hk, _⟩ | ⟨_, he⟩
      · exact ⟨(4, 9), by decide, hk.symm⟩
      · subst he
        exact absurd hopen (by decide))
    (fun q hq hne => by
      have hq2 : q = (4, 9) ∨ q = (7, 12) := by
        simpa [Collections.Manifest.listed] using hq
      rcases hq2 with h | h
      · subst h
        exact ⟨⟨4, 2, -6, 0⟩, by decide, by decide⟩
      · subst h
        exact absurd rfl hne)
    (by decide)

theorem Manifest.findCollection_eq_true_iff (t : Collections.Manifest) (c : CollectionID) :
    t.findCollection c = true ↔ ∃ q ∈ t.listed, q.2 = c := by
  constructor
  · intro h
    by_contra hne
    have : t.findCollection c = false :=
      (Manifest.findCollection_eq_false_iff t c).2 (fun q hq hqc => hne ⟨q, hq, hqc⟩)
    rw [h] at this
    cases this
  · rintro ⟨q, hq, hqc⟩
    cases h : t.findCollection c with
    | true => rfl
    | false => exact absurd hqc ((Manifest.findCollection_eq_false_iff t c).1 h q hq)

theorem Manifest.update_empty_diff (cfg : Config) (m : Manifest) (vb : VBucket)
    (t : Collections.Manifest) (hp : m.processManifest cfg t = some ([], [])) :
    m.update cfg vb t = .ok (true, m, vb) := by
  unfold Manifest.update
  rw [hp]
  rfl

/-- After a successful update the diff against the same bucket manifest is
empty. -/
theorem Manifest.processManifest_after_update (cfg : Config) (m : Manifest) (vb : VBucket)
    (t : Collections.Manifest) (m' : Manifest) (vb' : VBucket)
    (hc : Manifest.Consistent cfg m) (hgood : ∀ n, vb.assign n ≠ cfg.state_collection_open)
    (hu : m.update cfg vb t = .ok (true, m', vb')) :
    m'.processManifest cfg t = some ([], []) := by
  have hp := Manifest.processManifest_eq cfg m t
  by_cases hconf : t.listed.any (conflicts cfg m.map) = true
  · rw [if_pos hconf] at hp
    unfold Manifest.update at hu
    rw [hp] at hu
    simp at hu
  rw [if_neg hconf] at hp
  obtain ⟨_, m1, vb1, hs1, hs2⟩ := Manifest.update_steps cfg m vb t _ _ true m' vb' hp hu
  obtain ⟨_, ⟨_, _, _, hall1⟩, hrest1⟩ := Manifest.Steps_begin_effect cfg _ m vb m1 vb1 hs1
    hgood (container.deletions_nodup cfg t m.map hc.1.1)
  obtain ⟨hc1, _⟩ := Manifest.Steps_preserves cfg (Manifest.Consistent cfg)
    (Manifest.beginCollectionDelete cfg)
    (fun m vb uid p m1 vb1 hP hs hb =>
      Manifest.Consistent_beginCollectionDelete cfg m vb uid p none m1 vb1 hP hs hb)
    _ m vb m1 vb1 hs1 hc hgood
  obtain ⟨_, hwf', ⟨_, _, _, hall2⟩, hrest2⟩ :=
    Manifest.Steps_add_effect cfg _ m1 vb1 m' vb' hs2 hc1.1.1
  -- a listed collection id is not among the deletions
  have hlistedD : ∀ q ∈ t.listed, q.2 ∉ ((m.map.filter
      (fun p => p.2.isOpen cfg && !t.findCollection p.1)).map
        (fun p => (p.2.scopeID, p.1))).map Prod.snd := by
    intro q hq hmem
    rw [List.mem_map] at hmem
    obtain ⟨p, hpD, hpq⟩ := hmem
    rw [List.mem_map] at hpD
    obtain ⟨⟨k, e⟩, hke, rfl⟩ := hpD
    rw [List.mem_filter] at hke
    simp only [Bool.and_eq_true, Bool.not_eq_true'] at hke
    simp only at hpq
    exact (Manifest.findCollection_eq_false_iff t k).1 hke.2.2 q hq hpq.symm
  -- the lookups of a collection id that is not among the additions
  have hkeep : ∀ k, k ∉ (t.listed.filter (isNew m.map)).map Prod.snd →
      container.find m'.map k = container.find m1.map k := hrest2
  have hAkey : ∀ k, k ∈ (t.listed.filter (isNew m.map)).map Prod.snd →
      (∃ s : Int, ∃ sc : ScopeID, container.find m'.map k =
        some ⟨sc, s, cfg.state_collection_open, 0⟩) ∧ container.find m1.map k = none ∧
        ∃ q ∈ t.listed, q.2 = k := by
    intro k hk
    rw [List.mem_map] at hk
    obtain ⟨p, hpA, rfl⟩ := hk
    obtain ⟨item, hnone, _, _, _, _, hf⟩ := hall2 p hpA
    exact ⟨⟨_, _, hf⟩, hnone, p, (List.mem_filter.1 hpA).1, rfl⟩
  have hconf' : t.listed.any (conflicts cfg m'.map) = false := by
    rw [List.any_eq_false]
    intro q hq
    by_cases hqA : q.2 ∈ (t.listed.filter (isNew m.map)).map Prod.snd
    · obtain ⟨⟨s, sc, hf⟩, _, _⟩ := hAkey q.2 hqA
      unfold conflicts
      rw [hf]
      simp [ManifestEntry.isDeleting, ManifestEntry.isOpen]
    · have h0 : conflicts cfg m.map q = false := by
        cases hcq : conflicts cfg m.map q with
        | false => rfl
        | true => exact absurd (List.any_eq_true.2 ⟨q, hq, hcq⟩) hconf
      unfold conflicts at h0 ⊢
      rw [hkeep q.2 hqA, hrest1 q.2 (hlistedD q hq)]
      simpa using h0
  have hnew' : t.listed.filter (isNew m'.map) = [] := by
    rw [List.filter_eq_nil_iff]
    intro q hq
    unfold isNew
    by_cases hqA : q.2 ∈ (t.listed.filter (isNew m.map)).map Prod.snd
    · obtain ⟨⟨s, sc, hf⟩, _, _⟩ := hAkey q.2 hqA
      rw [hf]
      simp
    · rw [hkeep q.2 hqA, hrest1 q.2 (hlistedD q hq)]
      cases hfq : container.find m.map q.2 with
      | some x => simp
      | none =>
        exfalso
        apply hqA
        exact List.mem_map_of_mem Prod.snd
          (List.mem_filter.2 ⟨hq, by simp [isNew, hfq]⟩)
  have hdel' : m'.map.filter (fun p => p.2.isOpen cfg && !t.findCollection p.1) = [] := by
    rw [List.filter_eq_nil_iff]
    rintro ⟨k, e'⟩ hmem
    simp only [Bool.and_eq_true, Bool.not_eq_true', not_and, Bool.not_eq_false]
    intro hopen
    have hf' := container.mem_find hwf' hmem
    by_cases hkA : k ∈ (t.listed.filter (isNew m.map)).map Prod.snd
    · obtain ⟨_, _, q, hq, hqk⟩ := hAkey k hkA
      exact (Manifest.findCollection_eq_true_iff t k).2 ⟨q, hq, hqk⟩
    · rw [hkeep k hkA] at hf'
      by_cases hkD : k ∈ ((m.map.filter
          (fun p => p.2.isOpen cfg && !t.findCollection p.1)).map
            (fun p => (p.2.scopeID, p.1))).map Prod.snd
      · exfalso
        rw [List.mem_map] at hkD
        obtain ⟨p, hpD, hpk⟩ := hkD
        obtain ⟨e, item, _, _, _, _, _, hne, hf1⟩ := hall1 p hpD
        rw [hpk, hf'] at hf1
        cases hf1
        simp [ManifestEntry.isOpen, ManifestEntry.setEndSeqno, hne] at hopen
      · rw [hrest1 k hkD] at hf'
        cases hfc : t.findCollection k with
        | true => rfl
        | false =>
          exfalso
          apply hkD
          rw [List.map_map]
          exact List.mem_map.2 ⟨(k, e'), List.mem_filter.2
            ⟨container.find_some_mem hf', by simp [hopen, hfc]⟩, rfl⟩
  rw [Manifest.processManifest_eq, hconf', hnew', hdel']
  simp

/-- C17. Idempotence of `update`: in a reachable manifest state, if an update
returns true (every seqno the log assigns being non-negative), then the same
update made again right away returns true, queues nothing into the vbucket
and leaves the whole manifest (map, manifestUid, defaultCollectionExists,
greatestEndSeqno, nDeletingCollections) as it is. This holds for every bucket
manifest, also one that lists a collection id more than once. -/
theorem Manifest.update_idempotent (cfg : Config) (m : Manifest) (vb : VBucket)
    (t : Collections.Manifest) (m' : Manifest) (vb' : VBucket)
    (hsentinel : cfg.state_collection_open < 0)
    (hr : Reachable cfg (fun s => 0 ≤ s) m) (hassign : ∀ n, 0 ≤ vb.assign n)
    (hu : m.update cfg vb t = .ok (true, m', vb')) :
    m'.update cfg vb' t = .ok (true, m', vb') := by
  have hgoodseq : ∀ s : Int, 0 ≤ s → s ≠ cfg.state_collection_open := fun s hs => by omega
  have hc := Reachable.consistent cfg (fun s => 0 ≤ s) hgoodseq m hr
  exact Manifest.update_empty_diff cfg m' vb' t
    (Manifest.processManifest_after_update cfg m vb t m' vb' hc
      (fun n => hgoodseq _ (hassign n)) hu)

theorem Manifest.update_idempotent_witness :
    ∃ m' vb',
      Manifest.sampleUpdated.update Config.frontInsertion VBucket.later
        ⟨6, [(4, [9]), (7, [12])]⟩ = .ok (true, m', vb') ∧
      m'.update Config.frontInsertion vb' ⟨6, [(4, [9]), (7, [12])]⟩ = .ok (true, m', vb') :=
  ⟨_, _, rfl,
    Manifest.update_idempotent Config.frontInsertion Manifest.sampleUpdated VBucket.later
      ⟨6, [(4, [9]), (7, [12])]⟩ _ _ (by decide) Manifest.sampleUpdated_reachable
      VBucket.later_assign_nonneg rfl⟩

/-! ## The greatest end seqno and the Deleting entries -/

theorem container.countDeleting_modify_begin (cfg : Config) (map : container)
    (c : CollectionID) (e : ManifestEntry) (seqno : Int) (hwf : container.WF map)
    (hf : container.find map c = some e) (hopen : e.isOpen cfg = true)
    (hseq : seqno ≠ cfg.state_collection_open) :
    container.countDeleting cfg (container.modify map c (fun x => x.setEndSeqno seqno)) =
      container.countDeleting cfg map + 1 := by
  induction map with
  | nil => simp [container.find] at hf
  | cons p rest ih =>
    obtain ⟨k, e0⟩ := p
    unfold container.WF at hwf
    simp only [List.map_cons, List.nodup_cons] at hwf
    rw [container.modify_cons]
    unfold container.find at hf
    by_cases hk : k = c
    · rw [if_pos hk] at hf
      cases hf
      subst hk
      rw [if_pos rfl, container.modify_of_not_mem rest k _ hwf.1]
      unfold container.countDeleting
      rw [List.countP_cons, List.countP_cons]
      have h1 : (e.setEndSeqno seqno).isDeleting cfg = true := by
        simp [ManifestEntry.isDeleting, ManifestEntry.isOpen, ManifestEntry.setEndSeqno, hseq]
      have h2 : e.isDeleting cfg = false := by
        simp [ManifestEntry.isDeleting, hopen]
      simp only [h1, h2, if_true, Bool.false_eq_true, if_false]
    · rw [if_neg hk] at hf
      rw [if_neg hk]
      have h2 := ih hwf.2 hf
      unfold container.countDeleting at h2 ⊢
      rw [List.countP_cons, List.countP_cons, h2]
      omega

theorem container.countDeleting_erase_eq (cfg : Config) (map : container) (c : CollectionID)
    (e : ManifestEntry) (hwf : container.WF map) (hf : container.find map c = some e)
    (hd : e.isDeleting cfg = true) :
    container.countDeleting cfg (container.erase map c) + 1 =
      container.countDeleting cfg map := by
  induction map with
  | nil => simp [container.find] at hf
  | cons p rest ih =>
    obtain ⟨k, e0⟩ := p
    unfold container.WF at hwf
    simp only [List.map_cons, List.nodup_cons] at hwf
    unfold container.find at hf
    by_cases hk : k = c
    · rw [if_pos hk] at hf
      cases hf
      subst hk
      have hrest : container.erase rest k = rest := by
        unfold container.erase
        rw [List.filter_eq_self]
        intro p hp
        have : p.1 ≠ k := fun h => hwf.1 (h ▸ List.mem_map_of_mem Prod.fst hp)
        simpa using this
      have herase : container.erase ((k, e) :: rest) k = container.erase rest k := by
        unfold container.erase
        rw [List.filter_cons_of_neg (by simp)]
      rw [herase, hrest]
      unfold container.countDeleting
      rw [List.countP_cons]
      simp only [hd, if_true]
    · rw [if_neg hk] at hf
      have h2 := ih hwf.2 hf
      have herase : container.erase ((k, e0) :: rest) c = (k, e0) :: container.erase rest c := by
        unfold container.erase
        rw [List.filter_cons_of_pos (by simp [hk])]
      rw [herase]
      unfold container.countDeleting at h2 ⊢
      rw [List.countP_cons, List.countP_cons]
      omega

theorem Manifest.Settled_addNewCollectionEntry (cfg : Config) (completed : Bool)
    (m m1 : Manifest) (ids : ScopeCollectionPair) (s e : Int)
    (hs : Manifest.Settled cfg completed m)
    (h : m.addNewCollectionEntry cfg ids s e = .ok m1) : Manifest.Settled cfg completed m1 := by
  obtain ⟨ht, hcnt, hatt⟩ := hs
  refine ⟨Manifest.Tracked_addNewCollectionEntry cfg m m1 ids s e ht h, ?_, ?_⟩
  · cases hfind : container.find m.map ids.2 with
    | some x =>
      rw [Manifest.addNewCollectionEntry_exists cfg m ids s e x hfind] at h
      cases h
    | none =>
      rw [Manifest.addNewCollectionEntry_eq cfg m ids s e hfind] at h
      simp only [Except.ok.injEq] at h
      subst h
      unfold Manifest.Counted at hcnt ⊢
      simp only
      rw [container.countDeleting_perm cfg (cfg.arrange_perm _),
        container.countDeleting_append_singleton]
      by_cases he : e = cfg.state_collection_open <;>
        simp [ManifestEntry.isDeleting, ManifestEntry.isOpen, he, hcnt]
  · intro hcompleted
    have ha := hatt hcompleted
    cases hfind : container.find m.map ids.2 with
    | some x =>
      rw [Manifest.addNewCollectionEntry_exists cfg m ids s e x hfind] at h
      cases h
    | none =>
      rw [Manifest.addNewCollectionEntry_eq cfg m ids s e hfind] at h
      simp only [Except.ok.injEq] at h
      subst h
      have hkeep : ∀ k x, container.find m.map k = some x →
          container.find (cfg.arrange (m.map ++ [(ids.2, (⟨ids.1, s, e, 0⟩ : ManifestEntry))]))
            k = some x := by
        intro k x hx
        rw [container.find_arrange_append cfg m.map ids.2 k _ ht.1 hfind]
        have hk : ¬ k = ids.2 := by
          intro hk
          rw [hk, hfind] at hx
          cases hx
        rw [if_neg hk]
        exact hx
      unfold Manifest.Attained at ha ⊢
      simp only
      by_cases he : e = cfg.state_collection_open
      · subst he
        simp only [if_true]
        rcases ha with hg | ⟨k, x, hx, hd, hend⟩
        · exact Or.inl hg
        · exact Or.inr ⟨k, x, hkeep k x hx, hd, hend⟩
      · simp only [he, if_false]
        by_cases hcond : e > m.greatestEndSeqno ∨ m.greatestEndSeqno = cfg.state_collection_open
        · rw [if_pos hcond]
          refine Or.inr ⟨ids.2, ⟨ids.1, s, e, 0⟩, ?_, ?_, rfl⟩
          · rw [container.find_arrange_append cfg m.map ids.2 ids.2 _ ht.1 hfind, if_pos rfl]
          · simp [ManifestEntry.isDeleting, ManifestEntry.isOpen, he]
        · rw [if_neg hcond]
          rcases ha with hg | ⟨k, x, hx, hd, hend⟩
          · exact absurd (Or.inr hg) hcond
          · exact Or.inr ⟨k, x, hkeep k x hx, hd, hend⟩

theorem Manifest.Settled_decodeLoop (cfg : Config) (completed : Bool)
    (entries : List SerialisedManifestEntry) :
    ∀ (n i : Nat) (m d : Manifest), Manifest.Settled cfg completed m →
      Manifest.decodeLoop cfg entries n i m = .ok d → Manifest.Settled cfg completed d := by
  intro n
  induction n with
  | zero =>
    intro i m d hc h
    simp only [Manifest.decodeLoop, Except.ok.injEq] at h
    subst h
    exact hc
  | succ n ih =>
    intro i m d hc h
    unfold Manifest.decodeLoop at h
    cases hg : entries.get? i with
    | none => rw [hg] at h; cases h
    | some entry =>
      rw [hg] at h
      simp only at h
      cases ha : m.addNewCollectionEntry cfg (entry.scopeId, entry.collectionId)
          entry.startSeqno entry.endSeqno with
      | error x => rw [ha] at h; cases h
      | ok m1 =>
        rw [ha] at h
        exact ih (i + 1) m1 d
          (Manifest.Settled_addNewCollectionEntry cfg completed m m1 _ _ _ hc ha) h

theorem Manifest.Settled_initial (cfg : Config) (completed : Bool) (uid : ManifestUid) :
    Manifest.Settled cfg completed { Manifest.initial cfg with manifestUid := uid } := by
  refine ⟨Manifest.Tracked_initial cfg uid, ?_, fun _ => Or.inl rfl⟩
  simp [Manifest.Counted, Manifest.initial, container.countDeleting]

theorem Manifest.Settled_construct (cfg : Config) (completed : Bool)
    (data : PersistedManifest) (m : Manifest)
    (h : Manifest.construct cfg data = .ok m) : Manifest.Settled cfg completed m := by
  unfold Manifest.construct at h
  cases data with
  | empty =>
    simp only at h
    cases ha : (Manifest.initial cfg).addNewCollectionEntry cfg
        (cfg.DefaultScope, cfg.DefaultCollection) 0 cfg.state_collection_open with
    | error x => rw [ha] at h; cases h
    | ok m1 =>
      rw [ha] at h
      simp only [Except.ok.injEq] at h
      subst h
      exact Manifest.Settled_addNewCollectionEntry cfg completed _ m1 _ _ _
        (Manifest.Settled_initial cfg completed 0) ha
  | invalid => cases h
  | buffer s =>
    exact Manifest.Settled_decodeLoop cfg completed s.entries s.entryCount 0 _ m
      (Manifest.Settled_initial cfg completed s.uid) h

theorem Manifest.Settled_addCollection (cfg : Config) (completed : Bool) (m : Manifest)
    (vb : VBucket) (uid : ManifestUid) (ids : ScopeCollectionPair) (seq : Option Int)
    (m' : Manifest) (vb' : VBucket) (hs : Manifest.Settled cfg completed m)
    (h : m.addCollection cfg vb uid ids seq = .ok (m', vb')) :
    Manifest.Settled cfg completed m' ∧ vb'.assign = vb.assign := by
  obtain ⟨ht', hassign⟩ := Manifest.Tracked_addCollection cfg m vb uid ids seq m' vb' hs.1 h
  unfold Manifest.addCollection at h
  cases ha : m.addNewCollectionEntry cfg ids cfg.state_collection_open
      cfg.state_collection_open with
  | error x => rw [ha] at h; cases h
  | ok m1 =>
    rw [ha] at h
    simp only [Except.ok.injEq, Prod.mk.injEq] at h
    obtain ⟨h1, _⟩ := h
    obtain ⟨_, hcnt, hatt⟩ := Manifest.Settled_addNewCollectionEntry cfg completed m m1 _ _ _ hs ha
    have hq := Manifest.queueSystemEvent_eq cfg { m1 with manifestUid := uid } vb
      SystemEvent.Collection ids false seq
    have hmap : m'.map = container.modify m1.map ids.2
        (fun x => x.setStartSeqno (vb.nextSeqno seq)) := by
      rw [← h1, ← hq.1]
    have hn : m'.nDeletingCollections = m1.nDeletingCollections := by
      rw [← h1]
    have hg : m'.greatestEndSeqno = m1.greatestEndSeqno := by
      rw [← h1]
    refine ⟨⟨ht', ?_, ?_⟩, hassign⟩
    · unfold Manifest.Counted at hcnt ⊢
      rw [hmap, hn, container.countDeleting_modify_eq cfg m1.map ids.2
        (fun x => x.setStartSeqno (vb.nextSeqno seq)) (fun e => rfl)]
      exact hcnt
    · intro hcompleted
      unfold Manifest.Attained
      rw [hg, hmap]
      rcases hatt hcompleted with hsent | ⟨k, x, hx, hd, hend⟩
      · exact Or.inl hsent
      · right
        by_cases hk : k = ids.2
        · refine ⟨k, x.setStartSeqno (vb.nextSeqno seq), ?_, hd, hend⟩
          rw [container.find_modify, if_pos hk, hx]
          rfl
        · refine ⟨k, x, ?_, hd, hend⟩
          rw [container.find_modify, if_neg hk, hx]

theorem Manifest.Settled_beginCollectionDelete (cfg : Config) (completed : Bool)
    (m : Manifest) (vb : VBucket) (uid : ManifestUid) (ids : ScopeCollectionPair)
    (seq : Option Int) (e : ManifestEntry) (m' : Manifest) (vb' : VBucket)
    (hs : Manifest.Settled cfg completed m)
    (hseq : vb.nextSeqno seq ≠ cfg.state_collection_open)
    (hfind : container.find m.map ids.2 = some e) (hopen : e.isOpen cfg = true)
    (h : m.beginCollectionDelete cfg vb uid ids seq = .ok (m', vb')) :
    Manifest.Settled cfg completed m' ∧ vb'.assign = vb.assign ∧
      ∀ k, k ≠ ids.2 → container.find m'.map k = container.find m.map k := by
  obtain ⟨ht', hassign⟩ :=
    Manifest.Tracked_beginCollectionDelete cfg m vb uid ids seq m' vb' hs.1 hseq h
  obtain ⟨ht, hcnt, hatt⟩ := hs
  obtain ⟨vb2, _, _, heq⟩ := Manifest.beginCollectionDelete_eq cfg m vb uid ids seq e hfind
  rw [heq] at h
  simp only [Except.ok.injEq, Prod.mk.injEq] at h
  obtain ⟨h1, _⟩ := h
  subst h1
  refine ⟨⟨ht', ?_, ?_⟩, hassign, ?_⟩
  · unfold Manifest.Counted at hcnt ⊢
    simp only
    rw [container.countDeleting_modify_begin cfg m.map ids.2 e _ ht.1 hfind hopen hseq]
    push_cast
    omega
  · intro hcompleted
    unfold Manifest.Attained
    simp only
    by_cases hcond : vb.nextSeqno seq > m.greatestEndSeqno ∨
        m.greatestEndSeqno = cfg.state_collection_open
    · rw [if_pos hcond]
      refine Or.inr ⟨ids.2, e.setEndSeqno (vb.nextSeqno seq), ?_, ?_, rfl⟩
      · rw [container.find_modify, if_pos rfl, hfind]
        rfl
      · simp [ManifestEntry.isDeleting, ManifestEntry.isOpen, ManifestEntry.setEndSeqno, hseq]
    · rw [if_neg hcond]
      rcases hatt hcompleted with hsent | ⟨k, x, hx, hd, hend⟩
      · exact absurd (Or.inr hsent) hcond
      · have hk : ¬ k = ids.2 := by
          intro hk
          rw [hk, hfind] at hx
          cases hx
          simp [ManifestEntry.isDeleting, hopen] at hd
        refine Or.inr ⟨k, x, ?_, hd, hend⟩
        rw [container.find_modify, if_neg hk, hx]
  · intro k hk
    simp only
    rw [container.find_modify, if_neg hk]

theorem Manifest.Settled_completeDeletion (cfg : Config) (completed : Bool)
    (intermediate : Except Error SystemEvent) (m : Manifest) (vb : VBucket)
    (c : CollectionID) (e : ManifestEntry) (m' : Manifest) (vb' : VBucket)
    (hs : Manifest.Settled cfg completed m) (hf : container.find m.map c = some e)
    (hd : e.isDeleting cfg = true)
    (h : m.completeDeletion cfg intermediate vb c = .ok (m', vb')) :
    Manifest.Settled cfg true m' := by
  have ht' := Manifest.Tracked_completeDeletion cfg intermediate m vb c e m' vb' hs.1 hf hd h
  refine ⟨ht', ?_, fun hc => by cases hc⟩
  rw [Manifest.completeDeletion_eq cfg intermediate m vb c e hf hd] at h
  simp only [Except.ok.injEq, Prod.mk.injEq] at h
  obtain ⟨h1, _⟩ := h
  subst h1
  have hcnt := hs.2.1
  have hcount := container.countDeleting_erase_eq cfg m.map c e hs.1.1 hf hd
  unfold Manifest.Counted at hcnt ⊢
  simp only
  rw [hcnt, ← hcount]
  push_cast
  omega

/-- A property every `beginCollectionDelete` of an Open collection keeps holds
after a run of it over distinct collections that are Open. -/
theorem Manifest.Steps_begin_open (cfg : Config) (P : Manifest → Prop)
    (hstep : ∀ m vb uid p e m1 vb1, P m →
      vb.nextSeqno none ≠ cfg.state_collection_open →
      container.find m.map p.2 = some e → e.isOpen cfg = true →
      Manifest.beginCollectionDelete cfg m vb uid p none = .ok (m1, vb1) →
      P m1 ∧ vb1.assign = vb.assign ∧
        ∀ k, k ≠ p.2 → container.find m1.map k = container.find m.map k)
    (L : List ScopeCollectionPair) (m : Manifest) (vb : VBucket) (m' : Manifest)
    (vb' : VBucket) (hs : Manifest.Steps (Manifest.beginCollectionDelete cfg) m vb L m' vb')
    (hP : P m) (hgood : ∀ n, vb.assign n ≠ cfg.state_collection_open)
    (hnd : (L.map Prod.snd).Nodup)
    (hopen : ∀ p ∈ L, ∃ e, container.find m.map p.2 = some e ∧ e.isOpen cfg = true) :
    P m' ∧ vb'.assign = vb.assign := by
  induction hs with
  | nil m vb => exact ⟨hP, rfl⟩
  | cons m vb uid p rest m1 vb1 m2 vb2 h1 _ ih =>
    obtain ⟨e, hfe, hoe⟩ := hopen p (List.mem_cons_self _ _)
    obtain ⟨hP1, ha1, hframe⟩ := hstep m vb uid p e m1 vb1 hP (hgood _) hfe hoe h1
    simp only [List.map_cons, List.nodup_cons] at hnd
    have hopen1 : ∀ q ∈ rest, ∃ e, container.find m1.map q.2 = some e ∧
        e.isOpen cfg = true := by
      intro q hq
      have hne : q.2 ≠ p.2 := fun h => hnd.1 (h ▸ List.mem_map_of_mem Prod.snd hq)
      rw [hframe q.2 hne]
      exact hopen q (List.mem_cons_of_mem _ hq)
    obtain ⟨hP2, ha2⟩ := ih hP1 (by rw [ha1]; exact hgood) hnd.2 hopen1
    exact ⟨hP2, ha2.trans ha1⟩

theorem Manifest.Settled_update (cfg : Config) (completed : Bool) (m : Manifest)
    (vb : VBucket) (t : Collections.Manifest) (b : Bool) (m' : Manifest) (vb' : VBucket)
    (hs : Manifest.Settled cfg completed m)
    (hgood : ∀ n, vb.assign n ≠ cfg.state_collection_open)
    (h : m.update cfg vb t = .ok (b, m', vb')) : Manifest.Settled cfg completed m' := by
  have hp := Manifest.processManifest_eq cfg m t
  by_cases hconf : t.listed.any (conflicts cfg m.map) = true
  · rw [if_pos hconf] at hp
    unfold Manifest.update at h
    rw [hp] at h
    simp only [Except.ok.injEq, Prod.mk.injEq] at h
    obtain ⟨_, h1, _⟩ := h
    rw [← h1]
    exact hs
  rw [if_neg hconf] at hp
  obtain ⟨_, m1, vb1, hs1, hs2⟩ := Manifest.update_steps cfg m vb t _ _ b m' vb' hp h
  obtain ⟨hP1, ha1⟩ := Manifest.Steps_begin_open cfg (Manifest.Settled cfg completed)
    (fun m vb uid p e m1 vb1 hP hseq hf ho hb =>
      Manifest.Settled_beginCollectionDelete cfg completed m vb uid p none e m1 vb1 hP hseq
        hf ho hb)
    _ m vb m1 vb1 hs1 hs hgood (container.deletions_nodup cfg t m.map hs.1.1)
    (by
      intro p hp
      rw [List.mem_map] at hp
      obtain ⟨⟨k, e⟩, hke, rfl⟩ := hp
      rw [List.mem_filter] at hke
      simp only [Bool.and_eq_true] at hke
      exact ⟨e, container.mem_find hs.1.1 hke.1, hke.2.1⟩)
  exact (Manifest.Steps_preserves cfg (Manifest.Settled cfg completed)
    (Manifest.addCollection cfg)
    (fun m vb uid p m1 vb1 hP _ hb =>
      Manifest.Settled_addCollection cfg completed m vb uid p none m1 vb1 hP hb)
    _ m1 vb1 m' vb' hs2 hP1 (by rw [ha1]; exact hgood)).1

theorem Orderly.reachable (cfg : Config) (good : Int → Prop) (completed : Bool)
    (m : Manifest) (ho : Orderly cfg good completed m) : Reachable cfg good m := by
  induction ho with
  | construct data m h => exact Reachable.construct data m h
  | update completed m vb t b m' vb' _ hg h ih => exact Reachable.update m vb t b m' vb' ih hg h
  | addCollection completed m vb uid ids seq m' vb' _ hg h ih =>
    exact Reachable.addCollection m vb uid ids seq m' vb' ih hg h
  | beginCollectionDelete completed m vb uid ids seq e m' vb' _ hg _ _ h ih =>
    exact Reachable.beginCollectionDelete m vb uid ids seq m' vb' ih hg h
  | completeDeletion completed intermediate m vb c e m' vb' _ hf hd h ih =>
    exact Reachable.completeDeletion intermediate m vb c e m' vb' ih hf hd h

theorem Orderly.settled (cfg : Config) (good : Int → Prop)
    (hgood : ∀ s, good s → s ≠ cfg.state_collection_open) (completed : Bool)
    (m : Manifest) (ho : Orderly cfg good completed m) : Manifest.Settled cfg completed m := by
  induction ho with
  | construct data m h => exact Manifest.Settled_construct cfg false data m h
  | update completed m vb t b m' vb' _ hg h ih =>
    exact Manifest.Settled_update cfg completed m vb t b m' vb' ih (fun n => hgood _ (hg n)) h
  | addCollection completed m vb uid ids seq m' vb' _ _ h ih =>
    exact (Manifest.Settled_addCollection cfg completed m vb uid ids seq m' vb' ih h).1
  | beginCollectionDelete completed m vb uid ids seq e m' vb' _ hg hf hopen h ih =>
    exact (Manifest.Settled_beginCollectionDelete cfg completed m vb uid ids seq e m' vb' ih
      (hgood _ hg) hf hopen h).1
  | completeDeletion completed intermediate m vb c e m' vb' _ hf hd h ih =>
    exact Manifest.Settled_completeDeletion cfg completed intermediate m vb c e m' vb' ih hf
      hd h

theorem Manifest.sampleBothDeleting_orderly :
    Orderly Config.frontInsertion (fun s => 0 ≤ s) false Manifest.sampleBothDeleting := by
  have h1 : ∃ vb', Manifest.sampleEmpty.update Config.frontInsertion VBucket.fresh
      ⟨2, [(4, [9])]⟩ = .ok (true, Manifest.sampleUpdated, vb') := ⟨_, rfl⟩
  obtain ⟨vb1, h1⟩ := h1
  have h2 : ∃ vb', Manifest.sampleUpdated.update Config.frontInsertion VBucket.later
      ⟨3, []⟩ = .ok (true, Manifest.sampleBothDeleting, vb') := ⟨_, rfl⟩
  obtain ⟨vb2, h2⟩ := h2
  exact Orderly.update false Manifest.sampleUpdated VBucket.later ⟨3, []⟩ true
    Manifest.sampleBothDeleting vb2
    (Orderly.update false Manifest.sampleEmpty VBucket.fresh ⟨2, [(4, [9])]⟩ true
      Manifest.sampleUpdated vb1 (Orderly.construct .empty Manifest.sampleEmpty rfl)
      VBucket.fresh_assign_nonneg h1)
    VBucket.later_assign_nonneg h2

theorem Manifest.sampleStale_orderly :
    Orderly Config.frontInsertion (fun s => 0 ≤ s) true Manifest.sampleStale := by
  have h : ∃ vb', Manifest.sampleBothDeleting.completeDeletion Config.frontInsertion
      (.error Error.logic_error) VBucket.later 9 = .ok (Manifest.sampleStale, vb') :=
    ⟨_, rfl⟩
  obtain ⟨vb', h⟩ := h
  exact Orderly.completeDeletion false (.error Error.logic_error) Manifest.sampleBothDeleting
    VBucket.later 9 ⟨4, 2, 10, 0⟩ Manifest.sampleStale vb'
    Manifest.sampleBothDeleting_orderly rfl rfl h

/-- C12, counterexample. In the reachable state `Manifest.sampleUpdated` the
default collection is Deleting since seqno 1 and collection 9 is Open. An
update to a bucket manifest that lists nothing begins the deletion of
collection 9 at seqno 10, and `completeDeletion` of collection 9 then removes
its entry. The state reached is orderly; its only entry, the default
collection, is Deleting with endSeqno 1, and greatestEndSeqno is still 10. -/
theorem Manifest.completeDeletion_keeps_greatest :
    (∃ vb1 vb2,
      Manifest.sampleUpdated.update Config.frontInsertion VBucket.later ⟨3, []⟩ =
        .ok (true, Manifest.sampleBothDeleting, vb1) ∧
      Manifest.sampleBothDeleting.completeDeletion Config.frontInsertion
        (.error Error.logic_error) vb1 9 = .ok (Manifest.sampleStale, vb2)) ∧
    Reachable Config.frontInsertion (fun s => 0 ≤ s) Manifest.sampleStale ∧
    Manifest.sampleStale.map = [(0, ⟨0, 0, 1, 0⟩)] ∧
    (⟨0, 0, 1, 0⟩ : ManifestEntry).isDeleting Config.frontInsertion = true ∧
    (⟨0, 0, 1, 0⟩ : ManifestEntry).endSeqno = 1 ∧
    Manifest.sampleStale.greatestEndSeqno = 10 :=
  ⟨⟨_, _, rfl, rfl⟩,
    Orderly.reachable Config.frontInsertion _ true _ Manifest.sampleStale_orderly,
    rfl, rfl, rfl, rfl⟩

/-- C12 (amended). In every manifest state reached in order (constructed from a
persisted buffer, then changed by successful `update`, `addCollection`,
`beginCollectionDelete` of a collection that is Open and `completeDeletion` of
a collection that is Deleting, every seqno non-negative and the sentinel
negative): greatestEndSeqno is at least the endSeqno of every Deleting entry
of the map; it is the sentinel exactly when no entry is Deleting; and as long
as no `completeDeletion` was made it is the maximum, the endSeqno of one of
the Deleting entries when there is one. -/
theorem Manifest.greatest_covers_deleting (cfg : Config) (completed : Bool) (m : Manifest)
    (hsentinel : cfg.state_collection_open < 0)
    (ho : Orderly cfg (fun s => 0 ≤ s) completed m) :
    (∀ k e, (k, e) ∈ m.map → e.isDeleting cfg = true →
      e.endSeqno ≤ m.greatestEndSeqno) ∧
    (m.greatestEndSeqno = cfg.state_collection_open ↔
      ∀ p ∈ m.map, p.2.isDeleting cfg = false) ∧
    (completed = false → (∃ p ∈ m.map, p.2.isDeleting cfg = true) →
      ∃ p ∈ m.map, p.2.isDeleting cfg = true ∧ p.2.endSeqno = m.greatestEndSeqno) := by
  have hgoodseq : ∀ s : Int, 0 ≤ s → s ≠ cfg.state_collection_open := fun s hs => by omega
  have hc := Reachable.consistent cfg (fun s => 0 ≤ s) hgoodseq m
    (Orderly.reachable cfg _ completed m ho)
  obtain ⟨ht, hcnt, hatt⟩ := Orderly.settled cfg (fun s => 0 ≤ s) hgoodseq completed m ho
  have hnone : m.greatestEndSeqno = cfg.state_collection_open ↔
      ∀ p ∈ m.map, p.2.isDeleting cfg = false := by
    rw [← ht.2.2]
    unfold Manifest.Counted at hcnt
    rw [hcnt]
    unfold container.countDeleting
    constructor
    · intro h0 p hp
      have h1 : m.map.countP (fun p => p.2.isDeleting cfg) = 0 := by exact_mod_cast h0
      rw [List.countP_eq_zero] at h1
      simpa using h1 p hp
    · intro hall
      have h1 : m.map.countP (fun p => p.2.isDeleting cfg) = 0 := by
        rw [List.countP_eq_zero]
        intro p hp
        simp [hall p hp]
      exact_mod_cast h1
  refine ⟨fun k e hmem hd => hc.2.1 k e (container.mem_find hc.1.1 hmem) hd, hnone, ?_⟩
  intro hcompleted hsome
  rcases hatt hcompleted with hsent | ⟨k, e, hf, hd, hend⟩
  · obtain ⟨p, hp, hd⟩ := hsome
    rw [hnone.1 hsent p hp] at hd
    cases hd
  · exact ⟨(k, e), container.find_some_mem hf, hd, hend⟩

theorem Manifest.greatest_covers_deleting_witness :
    (∃ p ∈ Manifest.sampleBothDeleting.map, p.2.isDeleting Config.frontInsertion = true ∧
      p.2.endSeqno = Manifest.sampleBothDeleting.greatestEndSeqno) ∧
    (∀ k e, (k, e) ∈ Manifest.sampleStale.map →
      e.isDeleting Config.frontInsertion = true →
      e.endSeqno ≤ Manifest.sampleStale.greatestEndSeqno) :=
  ⟨(Manifest.greatest_covers_deleting Config.frontInsertion false Manifest.sampleBothDeleting
      (by decide) Manifest.sampleBothDeleting_orderly).2.2 rfl
      ⟨(9, ⟨4, 2, 10, 0⟩), by decide, by decide⟩,
    (Manifest.greatest_covers_deleting Config.frontInsertion true Manifest.sampleStale
      (by decide) Manifest.sampleStale_orderly).1⟩

/-! ## An update returns -/

theorem Manifest.beginCollectionDelete_ok (cfg : Config) (m : Manifest) (vb : VBucket)
    (uid : ManifestUid) (ids : ScopeCollectionPair) (seq : Option Int) (e : ManifestEntry)
    (hwf : container.WF m.map) (hf : container.find m.map ids.2 = some e) :
    ∃ m1 vb1, m.beginCollectionDelete cfg vb uid ids seq = .ok (m1, vb1) ∧
      container.WF m1.map ∧
      ∀ k, (container.find m1.map k).isSome = (container.find m.map k).isSome := by
  obtain ⟨vb2, _, _, heq⟩ := Manifest.beginCollectionDelete_eq cfg m vb uid ids seq e hf
  refine ⟨_, vb2, heq, ?_, ?_⟩
  · exact container.WF_modify ids.2 (fun x => x.setEndSeqno (vb.nextSeqno seq)) hwf
  intro k
  simp only
  rw [container.find_modify]
  by_cases hk : k = ids.2
  · rw [if_pos hk]
    cases container.find m.map k <;> rfl
  · rw [if_neg hk]

theorem Manifest.addCollection_ok (cfg : Config) (m : Manifest) (vb : VBucket)
    (uid : ManifestUid) (ids : ScopeCollectionPair) (seq : Option Int)
    (hwf : container.WF m.map) (hf : container.find m.map ids.2 = none) :
    ∃ m1 vb1, m.addCollection cfg vb uid ids seq = .ok (m1, vb1) ∧
      container.WF m1.map ∧
      ∀ k, k ≠ ids.2 → container.find m1.map k = container.find m.map k := by
  obtain ⟨vb2, _, _, heq⟩ := Manifest.addCollection_eq cfg m vb uid ids seq hf
  refine ⟨_, vb2, heq, ?_, ?_⟩
  · exact container.WF_modify ids.2 (fun x => x.setStartSeqno (vb.nextSeqno seq))
      (container.WF_arrange_append cfg m.map ids.2 _ hwf hf)
  intro k hk
  simp only
  rw [container.find_modify, if_neg hk, container.find_arrange_append cfg m.map ids.2 k _ hwf hf,
    if_neg hk]

theorem Manifest.applyEach_begin_ok (cfg : Config) (L : List ScopeCollectionPair) :
    ∀ (m : Manifest) (vb : VBucket), container.WF m.map →
      (∀ p ∈ L, (container.find m.map p.2).isSome = true) →
      ∃ m1 vb1, Manifest.applyEach (Manifest.beginCollectionDelete cfg) m vb L =
          .ok (m1, vb1) ∧ container.WF m1.map ∧
        ∀ k, (container.find m1.map k).isSome = (container.find m.map k).isSome := by
  induction L with
  | nil =>
    intro m vb hwf _
    exact ⟨m, vb, rfl, hwf, fun _ => rfl⟩
  | cons p rest ih =>
    intro m vb hwf hin
    have hp := hin p (List.mem_cons_self _ _)
    cases hfp : container.find m.map p.2 with
    | none => rw [hfp] at hp; cases hp
    | some e =>
      obtain ⟨m1, vb1, h1, hwf1, hkeys1⟩ :=
        Manifest.beginCollectionDelete_ok cfg m vb m.manifestUid p none e hwf hfp
      obtain ⟨m2, vb2, h2, hwf2, hkeys2⟩ := ih m1 vb1 hwf1
        (fun q hq => by rw [hkeys1]; exact hin q (List.mem_cons_of_mem _ hq))
      refine ⟨m2, vb2, ?_, hwf2, fun k => (hkeys2 k).trans (hkeys1 k)⟩
      unfold Manifest.applyEach
      rw [h1]
      exact h2

theorem Manifest.applyEach_add_ok (cfg : Config) (L : List ScopeCollectionPair) :
    ∀ (m : Manifest) (vb : VBucket), container.WF m.map →
      (∀ p ∈ L, container.find m.map p.2 = none) → (L.map Prod.snd).Nodup →
      ∃ m1 vb1, Manifest.applyEach (Manifest.addCollection cfg) m vb L = .ok (m1, vb1) ∧
        container.WF m1.map ∧
        ∀ k, k ∉ L.map Prod.snd → container.find m1.map k = container.find m.map k := by
  induction L with
  | nil =>
    intro m vb hwf _ _
    exact ⟨m, vb, rfl, hwf, fun _ _ => rfl⟩
  | cons p rest ih =>
    intro m vb hwf hnew hnd
    simp only [List.map_cons, List.nodup_cons] at hnd
    obtain ⟨m1, vb1, h1, hwf1, hframe1⟩ :=
      Manifest.addCollection_ok cfg m vb m.manifestUid p none hwf
        (hnew p (List.mem_cons_self _ _))
    have hnew1 : ∀ q ∈ rest, container.find m1.map q.2 = none := by
      intro q hq
      have hne : q.2 ≠ p.2 := fun h => hnd.1 (h ▸ List.mem_map_of_mem Prod.snd hq)
      rw [hframe1 q.2 hne]
      exact hnew q (List.mem_cons_of_mem _ hq)
    obtain ⟨m2, vb2, h2, hwf2, hframe2⟩ := ih m1 vb1 hwf1 hnew1 hnd.2
    refine ⟨m2, vb2, ?_, hwf2, ?_⟩
    · unfold Manifest.applyEach
      rw [h1]
      exact h2
    · intro k hk
      simp only [List.map_cons, List.mem_cons, not_or] at hk
      rw [hframe2 k hk.2, hframe1 k hk.1]

/-- The additions half of an update returns true when the additions are
collections the map does not have, each once. -/
theorem Manifest.updateAdditions_ok (cfg : Config) (m : Manifest) (vb : VBucket)
    (t : Collections.Manifest) (additions : List ScopeCollectionPair)
    (hwf : container.WF m.map) (hnew : ∀ p ∈ additions, container.find m.map p.2 = none)
    (hnd : (additions.map Prod.snd).Nodup) :
    ∃ m' vb', Manifest.updateAdditions cfg m vb t additions = .ok (true, m', vb') := by
  unfold Manifest.updateAdditions Manifest.applyChanges
  rcases list_nil_or_snoc additions with hnil | ⟨L, fa, hsnoc⟩
  · subst hnil
    exact ⟨m, vb, rfl⟩
  · subst hsnoc
    rw [List.map_append, List.nodup_append] at hnd
    obtain ⟨hndL, _, hdisj⟩ := hnd
    obtain ⟨m1, vb1, h1, hwf1, hframe1⟩ := Manifest.applyEach_add_ok cfg L m vb hwf
      (fun p hp => hnew p (List.mem_append_left _ hp)) hndL
    have hfa : container.find m1.map fa.2 = none := by
      rw [hframe1 fa.2 (fun hmem => hdisj hmem (by simp))]
      exact hnew fa (by simp)
    obtain ⟨m2, vb2, h2, _, _⟩ := Manifest.addCollection_ok cfg m1 vb1 t.uid fa none hwf1 hfa
    refine ⟨m2, vb2, ?_⟩
    rw [List.dropLast_concat, h1, List.getLast?_concat]
    simp only
    rw [h2]

/-- An update returns true when the bucket manifest lists no collection that
is Deleting and lists each collection the map does not have once. -/
theorem Manifest.update_ok (cfg : Config) (m : Manifest) (vb : VBucket)
    (t : Collections.Manifest) (hwf : container.WF m.map)
    (hconf : ¬ t.listed.any (conflicts cfg m.map) = true)
    (hnd : ((t.listed.filter (isNew m.map)).map Prod.snd).Nodup) :
    ∃ m' vb', m.update cfg vb t = .ok (true, m', vb') := by
  have hp := Manifest.processManifest_eq cfg m t
  rw [if_neg hconf] at hp
  have hnewm : ∀ p ∈ t.listed.filter (isNew m.map), container.find m.map p.2 = none := by
    intro p hp
    have h := (List.mem_filter.1 hp).2
    unfold isNew at h
    cases hf : container.find m.map p.2 with
    | none => rfl
    | some x => rw [hf] at h; simp at h
  have hinD : ∀ p ∈ (m.map.filter (fun p => p.2.isOpen cfg && !t.findCollection p.1)).map
      (fun p => (p.2.scopeID, p.1)), (container.find m.map p.2).isSome = true := by
    intro p hp
    rw [List.mem_map] at hp
    obtain ⟨⟨k, e⟩, hke, rfl⟩ := hp
    rw [container.mem_find hwf (List.mem_filter.1 hke).1]
    rfl
  unfold Manifest.update
  rw [hp]
  simp only [Manifest.applyChanges]
  generalize (m.map.filter (fun p => p.2.isOpen cfg && !t.findCollection p.1)).map
      (fun p => (p.2.scopeID, p.1)) = D at hinD ⊢
  rcases list_nil_or_snoc D with hnil | ⟨L, fd, hsnoc⟩
  · subst hnil
    exact Manifest.updateAdditions_ok cfg m vb t _ hwf hnewm hnd
  · subst hsnoc
    obtain ⟨m1, vb1, h1, hwf1, hkeys1⟩ := Manifest.applyEach_begin_ok cfg L m vb hwf
      (fun p hp => hinD p (List.mem_append_left _ hp))
    rw [List.dropLast_concat, h1, List.getLast?_concat]
    simp only
    have hfd : (container.find m1.map fd.2).isSome = true := by
      rw [hkeys1]
      exact hinD fd (by simp)
    cases hfe : container.find m1.map fd.2 with
    | none => rw [hfe] at hfd; cases hfd
    | some e =>
      by_cases hempty : (t.listed.filter (isNew m.map)).isEmpty = true
      · rw [if_pos hempty]
        obtain ⟨m2, vb2, h2, _, _⟩ :=
          Manifest.beginCollectionDelete_ok cfg m1 vb1 t.uid fd none e hwf1 hfe
        rw [h2]
        exact ⟨m2, vb2, rfl⟩
      · rw [if_neg hempty]
        obtain ⟨m2, vb2, h2, hwf2, hkeys2⟩ :=
          Manifest.beginCollectionDelete_ok cfg m1 vb1 m1.manifestUid fd none e hwf1 hfe
        rw [h2]
        simp only
        refine Manifest.updateAdditions_ok cfg m2 vb2 t _ hwf2 ?_ hnd
        intro p hp
        have h0 := hnewm p hp
        have hs : (container.find m2.map p.2).isSome = false := by
          rw [hkeys2, hkeys1, h0]
          rfl
        cases hf2 : container.find m2.map p.2 with
        | none => rfl
        | some x => rw [hf2] at hs; cases hs

theorem Manifest.sampleSystemOpen_reachable :
    Reachable Config.frontInsertion (fun s => 0 ≤ s) Manifest.sampleSystemOpen := by
  have h : ∃ vb', Manifest.sampleEmpty.update Config.frontInsertion VBucket.fresh
      ⟨2, [(4, [1])]⟩ = .ok (true, Manifest.sampleSystemOpen, vb') := ⟨_, rfl⟩
  obtain ⟨vb', h⟩ := h
  exact Reachable.update Manifest.sampleEmpty VBucket.fresh ⟨2, [(4, [1])]⟩ true
    Manifest.sampleSystemOpen vb' (Reachable.construct .empty Manifest.sampleEmpty rfl)
    VBucket.fresh_assign_nonneg h

/-- C15 (as stated, refuted). In the reachable state `Manifest.sampleSystemOpen`
collection 1, which is not the default collection, is Open; its id is the id of
the System pseudo-collection. An update to a bucket manifest that lists
nothing makes it Deleting with end seqno 10. A key of collection 1 is read as
a system event key: at seqno 5, below the end seqno, `isLogicallyDeleted`
raises for a key without four embedded bytes and returns false for a key whose
embedded bytes name collection 9. -/
theorem Manifest.update_removes_system_collection :
    Reachable Config.frontInsertion (fun s => 0 ≤ s) Manifest.sampleSystemOpen ∧
    container.find Manifest.sampleSystemOpen.map 1 = some ⟨4, 2, -6, 0⟩ ∧
    (1 : CollectionID) ≠ Config.frontInsertion.DefaultCollection ∧
    (∃ vb', Manifest.sampleSystemOpen.update Config.frontInsertion VBucket.later ⟨3, []⟩ =
      .ok (true, Manifest.sampleSystemDeleting, vb')) ∧
    container.find Manifest.sampleSystemDeleting.map 1 = some ⟨4, 2, 10, 0⟩ ∧
    Manifest.sampleSystemDeleting.isLogicallyDeleted Config.frontInsertion ⟨1, []⟩ 5 =
      .error Error.invalid_argument ∧
    Manifest.sampleSystemDeleting.isLogicallyDeleted Config.frontInsertion
      ⟨1, [9, 0, 0, 0]⟩ 5 = .ok false :=
  ⟨Manifest.sampleSystemOpen_reachable, rfl, by decide, ⟨_, rfl⟩, rfl, rfl, rfl⟩

/-- C15 (amended). In a reachable manifest state in which the collection C,
neither the default collection nor the System pseudo-collection (whose keys
are system event keys), is Open, an update to a bucket manifest that does not
list C, conflicts with no Deleting collection and lists each collection the
map does not have once returns true, and afterwards: the entry for C is still
in the map and is Deleting, its end seqno is the seqno of the deleted
Collection event the update queued for C, and for every key of C
`isLogicallyDeleted` is true at every seqno up to that end seqno and false at
every seqno above it. -/
theorem Manifest.update_removes_collection (cfg : Config) (m : Manifest) (vb : VBucket)
    (t : Collections.Manifest) (C : CollectionID) (e : ManifestEntry)
    (hsentinel : cfg.state_collection_open < 0)
    (hr : Reachable cfg (fun s => 0 ≤ s) m) (hassign : ∀ n, 0 ≤ vb.assign n)
    (hC : C ≠ cfg.DefaultCollection) (hCs : C ≠ cfg.SystemCollection)
    (hf : container.find m.map C = some e) (hopen : e.isOpen cfg = true)
    (hnl : ∀ q ∈ t.listed, q.2 ≠ C)
    (hnc : ¬ ∃ p ∈ t.listed, ∃ x, container.find m.map p.2 = some x ∧
      x.isDeleting cfg = true)
    (hnd : ((t.listed.filter (isNew m.map)).map Prod.snd).Nodup) :
    ∃ (m' : Manifest) (vb' : VBucket) (evs : List Item) (item : Item),
      m.update cfg vb t = .ok (true, m', vb') ∧
      vb'.queued = vb.queued ++ evs.map (fun i => (i, none)) ∧ item ∈ evs ∧
      item.flags = SystemEvent.Collection ∧ item.deleted = true ∧
      item.identifiers = some (e.scopeID, C) ∧
      container.find m'.map C = some (e.setEndSeqno item.bySeqno) ∧
      (e.setEndSeqno item.bySeqno).isDeleting cfg = true ∧
      ∀ key : DocKey, key.collectionID = C → ∀ x : Int,
        m'.isLogicallyDeleted cfg key x = .ok (decide (x ≤ item.bySeqno)) := by
  have hgoodseq : ∀ s : Int, 0 ≤ s → s ≠ cfg.state_collection_open := fun s hs => by omega
  have hc := Reachable.consistent cfg (fun s => 0 ≤ s) hgoodseq m hr
  have hgood : ∀ n, vb.assign n ≠ cfg.state_collection_open := fun n => hgoodseq _ (hassign n)
  have hp := Manifest.processManifest_eq cfg m t
  rw [if_neg (fun h => hnc ((conflicts_any_iff cfg m.map t.listed).1 h))] at hp
  obtain ⟨m', vb', hu⟩ := Manifest.update_ok cfg m vb t hc.1.1
    (fun h => hnc ((conflicts_any_iff cfg m.map t.listed).1 h)) hnd
  obtain ⟨_, m1, vb1, hs1, hs2⟩ := Manifest.update_steps cfg m vb t _ _ true m' vb' hp hu
  have hmemD : (e.scopeID, C) ∈ (m.map.filter
      (fun p => p.2.isOpen cfg && !t.findCollection p.1)).map (fun p => (p.2.scopeID, p.1)) := by
    rw [List.mem_map]
    refine ⟨(C, e), ?_, rfl⟩
    rw [List.mem_filter]
    refine ⟨container.find_some_mem hf, ?_⟩
    simp only [Bool.and_eq_true, Bool.not_eq_true']
    exact ⟨hopen, (Manifest.findCollection_eq_false_iff t C).2 hnl⟩
  obtain ⟨ha1, ⟨evs1, hq1, _, hall1⟩, _⟩ := Manifest.Steps_begin_effect cfg _ m vb m1 vb1 hs1
    hgood (container.deletions_nodup cfg t m.map hc.1.1)
  obtain ⟨e0, item, hf0, hmem, hfl, hdel, hid, hne, hf1⟩ := hall1 (e.scopeID, C) hmemD
  simp only at hf0 hf1
  rw [hf] at hf0
  cases hf0
  obtain ⟨hc1, _⟩ := Manifest.Steps_preserves cfg (Manifest.Consistent cfg)
    (Manifest.beginCollectionDelete cfg)
    (fun m vb uid p m1 vb1 hP hs hb =>
      Manifest.Consistent_beginCollectionDelete cfg m vb uid p none m1 vb1 hP hs hb)
    _ m vb m1 vb1 hs1 hc hgood
  obtain ⟨_, _, ⟨evs2, hq2, _, hall2⟩, hrest2⟩ :=
    Manifest.Steps_add_effect cfg _ m1 vb1 m' vb' hs2 hc1.1.1
  have hCnot : C ∉ (t.listed.filter (isNew m.map)).map Prod.snd := by
    intro hmem2
    rw [List.mem_map] at hmem2
    obtain ⟨q, hq, hqC⟩ := hmem2
    obtain ⟨_, hnone, _⟩ := hall2 q hq
    rw [hqC, hf1] at hnone
    cases hnone
  have hf' : container.find m'.map C = some (e.setEndSeqno item.bySeqno) := by
    rw [hrest2 C hCnot, hf1]
  have hdel' : (e.setEndSeqno item.bySeqno).isDeleting cfg = true := by
    simp [ManifestEntry.isDeleting, ManifestEntry.isOpen, ManifestEntry.setEndSeqno, hne]
  have hc' := Manifest.Consistent_update cfg m vb t true m' vb' hc hgood hu
  have hbound := hc'.2.1 C _ hf' hdel'
  simp only [ManifestEntry.setEndSeqno] at hbound
  refine ⟨m', vb', evs1 ++ evs2, item, hu, ?_, List.mem_append_left _ hmem, hfl, hdel, hid,
    hf', hdel', ?_⟩
  · rw [hq2, hq1]
    simp
  · intro key hkey x
    unfold Manifest.isLogicallyDeleted
    rw [hkey]
    by_cases hx : x ≤ m'.greatestEndSeqno
    · rw [if_pos hx, if_neg hC, if_neg hCs]
      simp only [hf', ManifestEntry.setEndSeqno]
    · rw [if_neg hx]
      have hnle : ¬ x ≤ item.bySeqno := by omega
      simp [hnle]

theorem Manifest.update_removes_collection_witness :
    ∃ (m' : Manifest) (vb' : VBucket) (evs : List Item) (item : Item),
      Manifest.sampleUpdated.update Config.frontInsertion VBucket.later ⟨5, []⟩ =
        .ok (true, m', vb') ∧
      vb'.queued = VBucket.later.queued ++ evs.map (fun i => (i, none)) ∧ item ∈ evs ∧
      item.flags = SystemEvent.Collection ∧ item.deleted = true ∧
      item.identifiers = some ((⟨4, 2, -6, 0⟩ : ManifestEntry).scopeID, 9) ∧
      container.find m'.map 9 =
        some ((⟨4, 2, -6, 0⟩ : ManifestEntry).setEndSeqno item.bySeqno) ∧
      ((⟨4, 2, -6, 0⟩ : ManifestEntry).setEndSeqno item.bySeqno).isDeleting
        Config.frontInsertion = true ∧
      ∀ key : DocKey, key.collectionID = 9 → ∀ x : Int,
        m'.isLogicallyDeleted Config.frontInsertion key x =
          .ok (decide (x ≤ item.bySeqno)) :=
  Manifest.update_removes_collection Config.frontInsertion Manifest.sampleUpdated
    VBucket.later ⟨5, []⟩ 9 ⟨4, 2, -6, 0⟩ (by decide)
    Manifest.sampleUpdated_reachable VBucket.later_assign_nonneg (by decide) (by decide)
    (by decide) (by decide)
    (fun q hq => by simp [Collections.Manifest.listed] at hq)
    (fun h => by
      obtain ⟨p, hp, _⟩ := h
      simp [Collections.Manifest.listed] at hp)
    (by simp [Collections.Manifest.listed])

/-! ## The constructor -/

/-- C21 (as stated, refuted). With the sentinel -6, the manifest constructed
from an empty persisted buffer has the default collection with start seqno 0,
which is not the sentinel. -/
theorem Manifest.construct_empty_start_not_sentinel :
    Manifest.construct Config.frontInsertion .empty = .ok Manifest.sampleEmpty ∧
    container.find Manifest.sampleEmpty.map Config.frontInsertion.DefaultCollection =
      some ⟨0, 0, -6, 0⟩ ∧
    (⟨0, 0, -6, 0⟩ : ManifestEntry).startSeqno = 0 ∧
    (⟨0, 0, -6, 0⟩ : ManifestEntry).startSeqno ≠
      Config.frontInsertion.state_collection_open :=
  ⟨rfl, rfl, rfl, by decide⟩

/-- C21 (amended). In the manifest constructed from an empty persisted buffer
the entry of the default collection has start seqno 0; its end seqno is the
collection-open sentinel. -/
theorem Manifest.construct_empty_start_zero (cfg : Config) :
    ∃ m e, Manifest.construct cfg .empty = .ok m ∧
      container.find m.map cfg.DefaultCollection = some e ∧
      e.startSeqno = 0 ∧ e.endSeqno = cfg.state_collection_open := by
  refine ⟨_, ⟨cfg.DefaultScope, 0, cfg.state_collection_open, 0⟩,
    Manifest.construct_empty cfg, ?_, rfl, rfl⟩
  simp [container.find]

/-- C23. For a persisted buffer that the structural verifier rejects the
constructor raises (an invalid argument error) and gives no manifest; the
result is not the one of the empty buffer, the manifest of the default
collection alone. -/
theorem Manifest.construct_invalid (cfg : Config) :
    Manifest.construct cfg .invalid = .error Error.invalid_argument ∧
    (∀ m, Manifest.construct cfg .invalid ≠ .ok m) ∧
    Manifest.construct cfg .invalid ≠ Manifest.construct cfg .empty := by
  have hno : ∀ m, Manifest.construct cfg .invalid ≠ .ok m := by
    intro m h
    unfold Manifest.construct at h
    cases h
  refine ⟨rfl, hno, ?_⟩
  rw [Manifest.construct_empty]
  exact hno _

/-! ## The keys of system events -/

/-- C25. For every key, seqno and element of the map:
`shouldCompleteDeletion` returns the collection id of the element if and only
if the collection of the key is the System pseudo-collection and the entry is
Deleting, it returns nothing otherwise, and the seqno has no part in the
result. -/
theorem Manifest.shouldCompleteDeletion_iff (cfg : Config) (key : DocKey) (bySeqno : Int)
    (entry : CollectionID × ManifestEntry) :
    (Manifest.shouldCompleteDeletion cfg key bySeqno entry = some entry.1 ↔
      key.collectionID = cfg.SystemCollection ∧ entry.2.isDeleting cfg = true) ∧
    (¬ (key.collectionID = cfg.SystemCollection ∧ entry.2.isDeleting cfg = true) →
      Manifest.shouldCompleteDeletion cfg key bySeqno entry = none) ∧
    ∀ other : Int, Manifest.shouldCompleteDeletion cfg key other entry =
      Manifest.shouldCompleteDeletion cfg key bySeqno entry := by
  unfold Manifest.shouldCompleteDeletion
  by_cases hk : key.collectionID = cfg.SystemCollection
  · by_cases hd : entry.2.isDeleting cfg = true
    · simp [hk, hd]
    · simp [hk, hd]
  · simp [hk]

/-- C26. `getCollectionIDFromKey` raises if and only if the collection of the
key is not the System pseudo-collection or the embedded bytes are not exactly
four; otherwise it returns the 32 bit collection id the four bytes hold, and
the bytes `makeCollectionIdIntoString` makes of a collection id are read back
as that id. -/
theorem Manifest.getCollectionIDFromKey_spec (cfg : Config) (key : DocKey) :
    ((∃ x, Manifest.getCollectionIDFromKey cfg key = .error x) ↔
      key.collectionID ≠ cfg.SystemCollection ∨ key.keyExtra.length ≠ 4) ∧
    (∀ b0 b1 b2 b3 : Nat, key.collectionID = cfg.SystemCollection →
      key.keyExtra = [b0, b1, b2, b3] →
      ∃ c : CollectionID, Manifest.getCollectionIDFromKey cfg key = .ok c ∧
        c.val = (b0 % 256 + 256 * (b1 % 256) + 65536 * (b2 % 256) +
          16777216 * (b3 % 256)) % 4294967296) ∧
    ∀ c : CollectionID,
      Manifest.getCollectionIDFromKey cfg
        ⟨cfg.SystemCollection, Manifest.makeCollectionIdIntoString c⟩ = .ok c := by
  refine ⟨?_, ?_, ?_⟩
  · unfold Manifest.getCollectionIDFromKey
    by_cases hk : key.collectionID = cfg.SystemCollection
    · simp only [ne_eq, hk, not_true_eq_false, if_false, false_or]
      rcases hx : key.keyExtra with _ | ⟨b0, _ | ⟨b1, _ | ⟨b2, _ | ⟨b3, _ | ⟨b4, rest⟩⟩⟩⟩⟩ <;>
        simp
    · simp [hk]
  · intro b0 b1 b2 b3 hk hx
    unfold Manifest.getCollectionIDFromKey
    rw [hx]
    simp only [ne_eq, hk, not_true_eq_false, if_false]
    exact ⟨_, rfl, rfl⟩
  · intro c
    unfold Manifest.getCollectionIDFromKey Manifest.makeCollectionIdIntoString
    simp only [ne_eq, not_true_eq_false, if_false]
    congr 1
    apply Fin.ext
    have hc := c.isLt
    show (c.val % 256 % 256 + 256 * (c.val / 256 % 256 % 256) +
      65536 * (c.val / 65536 % 256 % 256) + 16777216 * (c.val / 16777216 % 256 % 256)) %
        4294967296 = c.val
    omega

/-! ## An update that changes nothing -/

/-- C29. For every manifest state and every bucket manifest whose diff against
the state is empty (every Open entry of the map is listed, every listed
collection has an Open entry in the map): `update` returns true, queues no
event and leaves the whole manifest as it is; manifestUid keeps its value,
whatever the uid of the bucket manifest. -/
theorem Manifest.update_without_changes (cfg : Config) (m : Manifest) (vb : VBucket)
    (t : Collections.Manifest)
    (hopenlisted : ∀ k e, (k, e) ∈ m.map → e.isOpen cfg = true → ∃ q ∈ t.listed, q.2 = k)
    (hlistedopen : ∀ q ∈ t.listed,
      ∃ e, container.find m.map q.2 = some e ∧ e.isOpen cfg = true) :
    m.processManifest cfg t = some ([], []) ∧ m.update cfg vb t = .ok (true, m, vb) := by
  have hconf : t.listed.any (conflicts cfg m.map) = false := by
    rw [List.any_eq_false]
    intro q hq
    obtain ⟨e, hf, hopen⟩ := hlistedopen q hq
    unfold conflicts
    rw [hf]
    simp [ManifestEntry.isDeleting, hopen]
  have hnew : t.listed.filter (isNew m.map) = [] := by
    rw [List.filter_eq_nil_iff]
    intro q hq
    obtain ⟨e, hf, _⟩ := hlistedopen q hq
    unfold isNew
    rw [hf]
    simp
  have hdel : m.map.filter (fun p => p.2.isOpen cfg && !t.findCollection p.1) = [] := by
    rw [List.filter_eq_nil_iff]
    rintro ⟨k, e⟩ hmem
    simp only [Bool.and_eq_true, Bool.not_eq_true', not_and, Bool.not_eq_false]
    intro hopen
    exact (Manifest.findCollection_eq_true_iff t k).2 (hopenlisted k e hmem hopen)
  have hp : m.processManifest cfg t = some ([], []) := by
    rw [Manifest.processManifest_eq, hconf, hnew, hdel]
    simp
  refine ⟨hp, ?_⟩
  unfold Manifest.update
  rw [hp]
  rfl

theorem Manifest.update_without_changes_witness :
    Manifest.sampleUpdated.manifestUid = 2 ∧
    Manifest.sampleUpdated.update Config.frontInsertion VBucket.later ⟨7, [(4, [9])]⟩ =
      .ok (true, Manifest.sampleUpdated, VBucket.later) :=
  ⟨rfl,
    (Manifest.update_without_changes Config.frontInsertion Manifest.sampleUpdated
      VBucket.later ⟨7, [(4, [9])]⟩
      (by
        intro k e hmem hopen
        simp only [Manifest.sampleUpdated, List.mem_cons, Prod.mk.injEq,
          List.mem_singleton, List.not_mem_nil, or_false] at hmem
        rcases hmem with ⟨hk, _⟩ | ⟨_, he⟩
        · exact ⟨(4, 9), by simp [Collections.Manifest.listed], hk.symm⟩
        · subst he
          exact absurd hopen (by decide))
      (by
        intro q hq
        simp only [Collections.Manifest.listed, List.flatMap_cons, List.map_cons,
          List.map_nil, List.flatMap_nil, List.append_nil, List.mem_singleton] at hq
        subst hq
        exact ⟨⟨4, 2, -6, 0⟩, rfl, rfl⟩)).2⟩

/-! ## The flag of the default collection -/

theorem Manifest.Flagged_construct (cfg : Config) (data : PersistedManifest) (m : Manifest)
    (h : Manifest.construct cfg data = .ok m) : Manifest.Flagged cfg m :=
  have hc := Manifest.Consistent_construct cfg data m h
  ⟨hc.1.1, hc.2.2⟩

theorem Manifest.Flagged_addCollection (cfg : Config) (m : Manifest) (vb : VBucket)
    (uid : ManifestUid) (ids : ScopeCollectionPair) (seq : Option Int) (m' : Manifest)
    (vb' : VBucket) (hf : Manifest.Flagged cfg m)
    (h : m.addCollection cfg vb uid ids seq = .ok (m', vb')) :
    Manifest.Flagged cfg m' ∧ vb'.assign = vb.assign := by
  cases hfind : container.find m.map ids.2 with
  | some x =>
    rw [Manifest.addCollection_exists cfg m vb uid ids seq x hfind] at h
    cases h
  | none =>
    obtain ⟨vb2, hassign, _, heq⟩ := Manifest.addCollection_eq cfg m vb uid ids seq hfind
    rw [heq] at h
    simp only [Except.ok.injEq, Prod.mk.injEq] at h
    obtain ⟨h1, h2⟩ := h
    subst h1 h2
    refine ⟨⟨?_, ?_⟩, hassign⟩
    · exact container.WF_modify ids.2 (fun x => x.setStartSeqno (vb.nextSeqno seq))
        (container.WF_arrange_append cfg m.map ids.2 _ hf.1 hfind)
    · unfold Manifest.Mirrored
      simp only
      rw [container.find_modify,
        container.find_arrange_append cfg m.map ids.2 _ _ hf.1 hfind]
      by_cases hk : ids.2 = cfg.DefaultCollection
      · rw [hk]
        simp only [if_true, Option.map_some', true_iff]
        exact ⟨_, rfl, by simp [ManifestEntry.isOpen, ManifestEntry.setStartSeqno]⟩
      · have hk2 : ¬ cfg.DefaultCollection = ids.2 := fun h => hk h.symm
        simp only [hk, hk2, if_false]
        exact hf.2

theorem Manifest.Flagged_beginCollectionDelete (cfg : Config) (m : Manifest)
    (vb : VBucket) (uid : ManifestUid) (ids : ScopeCollectionPair) (seq : Option Int)
    (m' : Manifest) (vb' : VBucket) (hf : Manifest.Flagged cfg m)
    (hseq : vb.nextSeqno seq ≠ cfg.state_collection_open)
    (h : m.beginCollectionDelete cfg vb uid ids seq = .ok (m', vb')) :
    Manifest.Flagged cfg m' ∧ vb'.assign = vb.assign := by
  cases hfind : container.find m.map ids.2 with
  | none =>
    rw [Manifest.beginCollectionDelete_unknown cfg m vb uid ids seq hfind] at h
    cases h
  | some x =>
    obtain ⟨vb2, hassign, _, heq⟩ :=
      Manifest.beginCollectionDelete_eq cfg m vb uid ids seq x hfind
    rw [heq] at h
    simp only [Except.ok.injEq, Prod.mk.injEq] at h
    obtain ⟨h1, h2⟩ := h
    subst h1 h2
    refine ⟨⟨?_, ?_⟩, hassign⟩
    · exact container.WF_modify ids.2 (fun x => x.setEndSeqno (vb.nextSeqno seq)) hf.1
    · unfold Manifest.Mirrored
      simp only
      rw [container.find_modify]
      by_cases hk : ids.2 = cfg.DefaultCollection
      · rw [hk] at hfind ⊢
        simp only [if_true, Bool.false_eq_true, false_iff, not_exists, not_and]
        intro e he hopen
        rw [hfind] at he
        simp only [Option.map_some', Option.some.injEq] at he
        subst he
        simp only [ManifestEntry.isOpen, ManifestEntry.setEndSeqno, decide_eq_true_eq] at hopen
        exact hseq hopen
      · have hk2 : ¬ cfg.DefaultCollection = ids.2 := fun h => hk h.symm
        simp only [hk, hk2, if_false]
        exact hf.2

/-- What `completeDeletion` leaves for an entry that is not Deleting, when its
step is an event other than the hard delete. -/
theorem Manifest.completeDeletion_intermediate (cfg : Config) (se : SystemEvent)
    (m : Manifest) (vb : VBucket) (c : CollectionID) (e : ManifestEntry)
    (hf : container.find m.map c = some e) (hd : e.isDeleting cfg = false)
    (hse : se ≠ SystemEvent.DeleteCollectionHard) :
    ∃ vb', m.completeDeletion cfg (.ok se) vb c =
      .ok ({ map := m.map
             manifestUid := m.manifestUid
             defaultCollectionExists := m.defaultCollectionExists
             greatestEndSeqno :=
               if m.nDeletingCollections - 1 = 0 then cfg.state_collection_open
               else m.greatestEndSeqno
             nDeletingCollections := m.nDeletingCollections - 1 }, vb') := by
  unfold Manifest.completeDeletion
  rw [hf]
  simp only [ManifestEntry.completeDeletion, hd, Bool.false_eq_true, if_false, hse]
  by_cases hn : m.nDeletingCollections - 1 = 0 <;> simp [hn]

theorem Manifest.Flagged_completeDeletion (cfg : Config)
    (intermediate : Except Error SystemEvent) (m : Manifest) (vb : VBucket)
    (c : CollectionID) (m' : Manifest) (vb' : VBucket) (hf : Manifest.Flagged cfg m)
    (hint : intermediate ≠ .ok SystemEvent.DeleteCollectionHard)
    (h : m.completeDeletion cfg intermediate vb c = .ok (m', vb')) :
    Manifest.Flagged cfg m' := by
  cases hfind : container.find m.map c with
  | none =>
    unfold Manifest.completeDeletion at h
    rw [hfind] at h
    cases h
  | some e =>
    cases hd : e.isDeleting cfg with
    | true =>
      rw [Manifest.completeDeletion_eq cfg intermediate m vb c e hfind hd] at h
      simp only [Except.ok.injEq, Prod.mk.injEq] at h
      obtain ⟨h1, _⟩ := h
      subst h1
      refine ⟨container.WF_erase c hf.1, ?_⟩
      unfold Manifest.Mirrored
      simp only
      rw [container.find_erase]
      by_cases hk : cfg.DefaultCollection = c
      · rw [if_pos hk]
        simp only [false_and, exists_false, iff_false, reduceCtorEq]
        intro hdce
        obtain ⟨x, hx, hopen⟩ := hf.2.1 hdce
        rw [hk, hfind] at hx
        cases hx
        simp [ManifestEntry.isDeleting, hopen] at hd
      · rw [if_neg hk]
        exact hf.2
    | false =>
      cases intermediate with
      | error x =>
        unfold Manifest.completeDeletion at h
        rw [hfind] at h
        simp [ManifestEntry.completeDeletion, hd] at h
      | ok se =>
        have hse : se ≠ SystemEvent.DeleteCollectionHard := fun hs => hint (by rw [hs])
        obtain ⟨vb2, heq⟩ :=
          Manifest.completeDeletion_intermediate cfg se m vb c e hfind hd hse
        rw [heq] at h
        simp only [Except.ok.injEq, Prod.mk.injEq] at h
        obtain ⟨h1, _⟩ := h
        subst h1
        exact ⟨hf.1, hf.2⟩

theorem Manifest.Flagged_update (cfg : Config) (m : Manifest) (vb : VBucket)
    (t : Collections.Manifest) (b : Bool) (m' : Manifest) (vb' : VBucket)
    (hf : Manifest.Flagged cfg m) (hgood : ∀ n, vb.assign n ≠ cfg.state_collection_open)
    (h : m.update cfg vb t = .ok (b, m', vb')) : Manifest.Flagged cfg m' := by
  cases hp : m.processManifest cfg t with
  | none =>
    unfold Manifest.update at h
    rw [hp] at h
    simp only [Except.ok.injEq, Prod.mk.injEq] at h
    obtain ⟨_, h1, _⟩ := h
    rw [← h1]
    exact hf
  | some r =>
    obtain ⟨additions, deletions⟩ := r
    obtain ⟨_, m1, vb1, hs1, hs2⟩ :=
      Manifest.update_steps cfg m vb t additions deletions b m' vb' hp h
    obtain ⟨hf1, ha1⟩ := Manifest.Steps_preserves cfg (Manifest.Flagged cfg)
      (Manifest.beginCollectionDelete cfg)
      (fun m vb uid p m1 vb1 hP hs hb =>
        Manifest.Flagged_beginCollectionDelete cfg m vb uid p none m1 vb1 hP hs hb)
      deletions m vb m1 vb1 hs1 hf hgood
    exact (Manifest.Steps_preserves cfg (Manifest.Flagged cfg)
      (Manifest.addCollection cfg)
      (fun m vb uid p m1 vb1 hP _ hb =>
        Manifest.Flagged_addCollection cfg m vb uid p none m1 vb1 hP hb)
      additions m1 vb1 m' vb' hs2 hf1 (by rw [ha1]; exact hgood)).1

/-- In every reached state the keys of the map are distinct and the flag
defaultCollectionExists mirrors the entry of the default collection. -/
theorem Reached.flagged (cfg : Config) (good : Int → Prop)
    (hgood : ∀ s, good s → s ≠ cfg.state_collection_open) (m : Manifest)
    (hr : Reached cfg good m) : Manifest.Flagged cfg m := by
  induction hr with
  | construct data m h => exact Manifest.Flagged_construct cfg data m h
  | update m vb t b m' vb' _ hg h ih =>
    exact Manifest.Flagged_update cfg m vb t b m' vb' ih (fun n => hgood _ (hg n)) h
  | addCollection m vb uid ids seq m' vb' _ _ h ih =>
    exact (Manifest.Flagged_addCollection cfg m vb uid ids seq m' vb' ih h).1
  | beginCollectionDelete m vb uid ids seq m' vb' _ hg h ih =>
    exact (Manifest.Flagged_beginCollectionDelete cfg m vb uid ids seq m' vb' ih
      (hgood _ hg) h).1
  | completeDeletion intermediate m vb c m' vb' _ hint h ih =>
    exact Manifest.Flagged_completeDeletion cfg intermediate m vb c m' vb' ih hint h

theorem VBucket.fresh_assign_ne_sentinel (n : Nat) :
    VBucket.fresh.assign n ≠ Config.frontInsertion.state_collection_open := by
  show (n : Int) + 1 ≠ -6
  omega

theorem VBucket.later_assign_ne_sentinel (n : Nat) :
    VBucket.later.assign n ≠ Config.frontInsertion.state_collection_open := by
  show (n : Int) + 10 ≠ -6
  omega

theorem Manifest.sampleUpdated_reached :
    Reached Config.frontInsertion
      (fun s => s ≠ Config.frontInsertion.state_collection_open) Manifest.sampleUpdated := by
  have h : ∃ vb', Manifest.sampleEmpty.update Config.frontInsertion VBucket.fresh
      ⟨2, [(4, [9])]⟩ = .ok (true, Manifest.sampleUpdated, vb') := ⟨_, rfl⟩
  obtain ⟨vb', h⟩ := h
  exact Reached.update Manifest.sampleEmpty VBucket.fresh ⟨2, [(4, [9])]⟩ true
    Manifest.sampleUpdated vb' (Reached.construct .empty Manifest.sampleEmpty rfl)
    VBucket.fresh_assign_ne_sentinel h

/-- C27. In every manifest state reached by successful operations (constructed
from a persisted buffer, empty or not, then changed by `addCollection`,
`beginCollectionDelete`, `update` and `completeDeletion`, no seqno being the
sentinel), defaultCollectionExists is true if and only if the map has an entry
for the default collection and that entry is Open. -/
theorem Manifest.default_flag_mirrors_entry (cfg : Config) (m : Manifest)
    (hr : Reached cfg (fun s => s ≠ cfg.state_collection_open) m) :
    m.defaultCollectionExists = true ↔
      ∃ e, container.find m.map cfg.DefaultCollection = some e ∧ e.isOpen cfg = true :=
  (Reached.flagged cfg (fun s => s ≠ cfg.state_collection_open) (fun _ hs => hs) m hr).2

theorem Manifest.default_flag_mirrors_entry_witness :
    (Manifest.sampleUpdated.defaultCollectionExists = true ↔
      ∃ e, container.find Manifest.sampleUpdated.map
        Config.frontInsertion.DefaultCollection = some e ∧
        e.isOpen Config.frontInsertion = true) ∧
    Manifest.sampleUpdated.defaultCollectionExists = false ∧
    container.find Manifest.sampleUpdated.map Config.frontInsertion.DefaultCollection =
      some ⟨0, 0, 1, 0⟩ :=
  ⟨Manifest.default_flag_mirrors_entry Config.frontInsertion Manifest.sampleUpdated
      Manifest.sampleUpdated_reached, rfl, rfl⟩

/-- C24 (as stated, refuted). In a value of the state with
defaultCollectionExists set and the entry of the default collection Deleting,
`doesKeyContainValidCollection` is true for a key of the default collection. -/
theorem Manifest.doesKeyContainValidCollection_flag_first :
    Manifest.sampleFlagSet.defaultCollectionExists = true ∧
    container.find Manifest.sampleFlagSet.map Config.insertionOrder.DefaultCollection =
      some ⟨0, 0, 5, 0⟩ ∧
    (⟨0, 0, 5, 0⟩ : ManifestEntry).isDeleting Config.insertionOrder = true ∧
    Manifest.sampleFlagSet.doesKeyContainValidCollection Config.insertionOrder ⟨0, []⟩ =
      true :=
  ⟨rfl, rfl, rfl, rfl⟩

/-- C24 (amended). For every manifest state and every key,
`doesKeyContainValidCollection` is true if and only if the collection of the
key is the default collection and defaultCollectionExists is true, or the map
has an entry for the collection of the key and that entry is Open. It is false
for a key whose collection has no entry in the map or an entry that is
Deleting when the key is not of the default collection, and for a key of the
default collection in every state reached by successful operations, where the
flag mirrors the entry. -/
theorem Manifest.doesKeyContainValidCollection_iff (cfg : Config) (m : Manifest)
    (key : DocKey) :
    (m.doesKeyContainValidCollection cfg key = true ↔
      (key.collectionID = cfg.DefaultCollection ∧ m.defaultCollectionExists = true) ∨
      ∃ e, container.find m.map key.collectionID = some e ∧ e.isOpen cfg = true) ∧
    ((key.collectionID ≠ cfg.DefaultCollection ∨
        Reached cfg (fun s => s ≠ cfg.state_collection_open) m) →
      (container.find m.map key.collectionID = none ∨
        ∃ e, container.find m.map key.collectionID = some e ∧ e.isDeleting cfg = true) →
      m.doesKeyContainValidCollection cfg key = false) := by
  have hiff : m.doesKeyContainValidCollection cfg key = true ↔
      (key.collectionID = cfg.DefaultCollection ∧ m.defaultCollectionExists = true) ∨
      ∃ e, container.find m.map key.collectionID = some e ∧ e.isOpen cfg = true := by
    unfold Manifest.doesKeyContainValidCollection
    by_cases hfast : m.defaultCollectionExists = true ∧
        key.collectionID = cfg.DefaultCollection
    · rw [if_pos hfast]
      exact ⟨fun _ => Or.inl ⟨hfast.2, hfast.1⟩, fun _ => rfl⟩
    · rw [if_neg hfast]
      cases hf : container.find m.map key.collectionID with
      | none =>
        simp only [Bool.false_eq_true, false_iff, not_or, not_and, not_exists]
        exact ⟨fun hk hd => hfast ⟨hd, hk⟩, fun e he => by cases he⟩
      | some e =>
        simp only [Option.some.injEq, exists_eq_left']
        constructor
        · intro hopen
          exact Or.inr hopen
        · rintro (⟨hk, hd⟩ | hopen)
          · exact absurd ⟨hd, hk⟩ hfast
          · exact hopen
  refine ⟨hiff, ?_⟩
  intro hcase hentry
  cases hres : m.doesKeyContainValidCollection cfg key with
  | false => rfl
  | true =>
    exfalso
    have hnotopen : ¬ ∃ e, container.find m.map key.collectionID = some e ∧
        e.isOpen cfg = true := by
      rintro ⟨e, he, hopen⟩
      rcases hentry with hnone | ⟨x, hx, hd⟩
      · rw [hnone] at he
        cases he
      · rw [hx] at he
        cases he
        simp [ManifestEntry.isDeleting, hopen] at hd
    rcases hiff.1 hres with ⟨hk, hdce⟩ | hopen
    · rcases hcase with hne | hr
      · exact hne hk
      · have hm := (Reached.flagged cfg (fun s => s ≠ cfg.state_collection_open)
          (fun _ hs => hs) m hr).2
        unfold Manifest.Mirrored at hm
        rw [← hk] at hm
        exact hnotopen (hm.1 hdce)
    · exact hnotopen hopen

theorem Manifest.doesKeyContainValidCollection_iff_witness :
    Manifest.sampleUpdated.doesKeyContainValidCollection Config.frontInsertion ⟨0, []⟩ =
      false ∧
    Manifest.sampleUpdated.doesKeyContainValidCollection Config.frontInsertion ⟨9, []⟩ =
      true :=
  ⟨(Manifest.doesKeyContainValidCollection_iff Config.frontInsertion Manifest.sampleUpdated
      ⟨0, []⟩).2 (Or.inr Manifest.sampleUpdated_reached)
      (Or.inr ⟨⟨0, 0, 1, 0⟩, rfl, rfl⟩),
    (Manifest.doesKeyContainValidCollection_iff Config.frontInsertion Manifest.sampleUpdated
      ⟨9, []⟩).1.2 (Or.inr ⟨⟨4, 2, -6, 0⟩, rfl, rfl⟩)⟩

/-! ## The counter of the deleting collections -/

theorem Reachable.weaken (cfg : Config) (good good' : Int → Prop)
    (hsub : ∀ s, good s → good' s) (m : Manifest) (hr : Reachable cfg good m) :
    Reachable cfg good' m := by
  induction hr with
  | construct data m h => exact Reachable.construct data m h
  | update m vb t b m' vb' _ hg h ih =>
    exact Reachable.update m vb t b m' vb' ih (fun n => hsub _ (hg n)) h
  | addCollection m vb uid ids seq m' vb' _ hg h ih =>
    exact Reachable.addCollection m vb uid ids seq m' vb' ih (hsub _ hg) h
  | beginCollectionDelete m vb uid ids seq m' vb' _ hg h ih =>
    exact Reachable.beginCollectionDelete m vb uid ids seq m' vb' ih (hsub _ hg) h
  | completeDeletion intermediate m vb c e m' vb' _ hf hd h ih =>
    exact Reachable.completeDeletion intermediate m vb c e m' vb' ih hf hd h

theorem Orderly.relax (cfg : Config) (good good' : Int → Prop)
    (hsub : ∀ s, good s → good' s) (completed : Bool) (m : Manifest)
    (ho : Orderly cfg good completed m) : Orderly cfg good' completed m := by
  induction ho with
  | construct data m h => exact Orderly.construct data m h
  | update completed m vb t b m' vb' _ hg h ih =>
    exact Orderly.update completed m vb t b m' vb' ih (fun n => hsub _ (hg n)) h
  | addCollection completed m vb uid ids seq m' vb' _ hg h ih =>
    exact Orderly.addCollection completed m vb uid ids seq m' vb' ih (hsub _ hg) h
  | beginCollectionDelete completed m vb uid ids seq e m' vb' _ hg hf hopen h ih =>
    exact Orderly.beginCollectionDelete completed m vb uid ids seq e m' vb' ih (hsub _ hg)
      hf hopen h
  | completeDeletion completed intermediate m vb c e m' vb' _ hf hd h ih =>
    exact Orderly.completeDeletion completed intermediate m vb c e m' vb' ih hf hd h

theorem Config.frontInsertion_nonneg_ne_sentinel (s : Int) (hs : 0 ≤ s) :
    s ≠ Config.frontInsertion.state_collection_open := by
  show s ≠ -6
  omega

theorem Manifest.sampleTwiceBegun_reachable :
    Reachable Config.frontInsertion
      (fun s => s ≠ Config.frontInsertion.state_collection_open)
      Manifest.sampleTwiceBegun := by
  have h : ∃ vb', Manifest.sampleUpdated.beginCollectionDelete Config.frontInsertion
      VBucket.later 3 (0, 0) none = .ok (Manifest.sampleTwiceBegun, vb') := ⟨_, rfl⟩
  obtain ⟨vb', h⟩ := h
  exact Reachable.beginCollectionDelete Manifest.sampleUpdated VBucket.later 3 (0, 0) none
    Manifest.sampleTwiceBegun vb'
    (Reachable.weaken Config.frontInsertion _ _ Config.frontInsertion_nonneg_ne_sentinel _
      Manifest.sampleUpdated_reachable)
    (VBucket.later_assign_ne_sentinel _) h

/-- C28 (as stated, refuted). In the reachable state `Manifest.sampleUpdated`
the default collection is Deleting. A second `beginCollectionDelete` of the
default collection succeeds (at seqno 10) and counts the collection again:
nDeletingCollections is 2, while one entry of the map is Deleting. -/
theorem Manifest.beginCollectionDelete_counts_twice :
    (∃ vb', Manifest.sampleUpdated.beginCollectionDelete Config.frontInsertion
      VBucket.later 3 (0, 0) none = .ok (Manifest.sampleTwiceBegun, vb')) ∧
    Reachable Config.frontInsertion
      (fun s => s ≠ Config.frontInsertion.state_collection_open)
      Manifest.sampleTwiceBegun ∧
    Manifest.sampleTwiceBegun.nDeletingCollections = 2 ∧
    container.countDeleting Config.frontInsertion Manifest.sampleTwiceBegun.map = 1 :=
  ⟨⟨_, rfl⟩, Manifest.sampleTwiceBegun_reachable, rfl, by decide⟩

/-- C28 (amended). In every reachable manifest state (constructed from a
persisted buffer, then changed by successful `addCollection`,
`beginCollectionDelete`, `update` and `completeDeletion` of a Deleting
collection, no seqno being the sentinel) nDeletingCollections is at least the
number of entries of the map that are Deleting, so that `completeDeletion` of
a Deleting collection, which lowers the counter by one, never takes it below
zero; and in the states reached in order, `beginCollectionDelete` being
applied to collections that are Open only, nDeletingCollections is that
number. -/
theorem Manifest.nDeleting_counts_deleting (cfg : Config) (m : Manifest)
    (hr : Reachable cfg (fun s => s ≠ cfg.state_collection_open) m) :
    (container.countDeleting cfg m.map : Int) ≤ m.nDeletingCollections ∧
    (∀ completed, Orderly cfg (fun s => s ≠ cfg.state_collection_open) completed m →
      m.nDeletingCollections = (container.countDeleting cfg m.map : Int)) ∧
    (∀ (intermediate : Except Error SystemEvent) (vb : VBucket) (C : CollectionID)
      (e : ManifestEntry) (m' : Manifest) (vb' : VBucket),
      container.find m.map C = some e → e.isDeleting cfg = true →
      m.completeDeletion cfg intermediate vb C = .ok (m', vb') →
      m'.nDeletingCollections = m.nDeletingCollections - 1 ∧
        0 ≤ m'.nDeletingCollections) := by
  have ht := Reachable.tracked cfg (fun s => s ≠ cfg.state_collection_open)
    (fun _ hs => hs) m hr
  refine ⟨ht.2.1, ?_, ?_⟩
  · intro completed ho
    exact (Orderly.settled cfg (fun s => s ≠ cfg.state_collection_open) (fun _ hs => hs)
      completed m ho).2.1
  · intro intermediate vb C e m' vb' hf hd h
    rw [Manifest.completeDeletion_eq cfg intermediate m vb C e hf hd] at h
    simp only [Except.ok.injEq, Prod.mk.injEq] at h
    obtain ⟨h1, _⟩ := h
    subst h1
    have hpos := container.countDeleting_pos cfg m.map C e hf hd
    have hle := ht.2.1
    refine ⟨rfl, ?_⟩
    show 0 ≤ m.nDeletingCollections - 1
    omega

theorem Manifest.nDeleting_counts_deleting_witness :
    Manifest.sampleBothDeleting.nDeletingCollections =
      (container.countDeleting Config.frontInsertion Manifest.sampleBothDeleting.map : Int) ∧
    (container.countDeleting Config.frontInsertion Manifest.sampleTwiceBegun.map : Int) ≤
      Manifest.sampleTwiceBegun.nDeletingCollections :=
  ⟨(Manifest.nDeleting_counts_deleting Config.frontInsertion Manifest.sampleBothDeleting
      (Reachable.weaken Config.frontInsertion _ _ Config.frontInsertion_nonneg_ne_sentinel _
        (Orderly.reachable Config.frontInsertion _ false _
          Manifest.sampleBothDeleting_orderly))).2.1 false
      (Orderly.relax Config.frontInsertion _ _ Config.frontInsertion_nonneg_ne_sentinel
        false _ Manifest.sampleBothDeleting_orderly),
    (Manifest.nDeleting_counts_deleting Config.frontInsertion Manifest.sampleTwiceBegun
      Manifest.sampleTwiceBegun_reachable).1⟩

/-! ## The manifest of a persisted buffer -/

/-- C22. For a verified persisted buffer whose entryCount is at most the number
of its entries and whose first entryCount entries (the decoded entries) have
distinct collection ids, the constructor returns a manifest with the uid of
the header and a map with exactly one entry per decoded entry (its scope,
start seqno and end seqno); nDeletingCollections is the number of decoded
entries whose end seqno is not the sentinel, greatestEndSeqno is the maximum
end seqno among those entries (the sentinel if there are none), and
defaultCollectionExists is true exactly when a decoded entry is the default
collection with the sentinel as end seqno. -/
theorem Manifest.construct_buffer_state (cfg : Config) (s : SerialisedManifest)
    (hcount : s.entryCount ≤ s.entries.length)
    (hnd : ((s.entries.take s.entryCount).map (fun x => x.collectionId)).Nodup) :
    ∃ m, Manifest.construct cfg (.buffer s) = .ok m ∧
      m.manifestUid = s.uid ∧
      m.map.Perm ((s.entries.take s.entryCount).map fromSerialised) ∧
      (∀ x ∈ s.entries.take s.entryCount,
        container.find m.map x.collectionId =
          some ⟨x.scopeId, x.startSeqno, x.endSeqno, 0⟩) ∧
      m.nDeletingCollections =
        ((s.entries.take s.entryCount).countP
          (fun x => decide (x.endSeqno ≠ cfg.state_collection_open)) : Nat) ∧
      (∀ x ∈ s.entries.take s.entryCount, x.endSeqno ≠ cfg.state_collection_open →
        x.endSeqno ≤ m.greatestEndSeqno) ∧
      ((∃ x ∈ s.entries.take s.entryCount, x.endSeqno ≠ cfg.state_collection_open) →
        ∃ x ∈ s.entries.take s.entryCount, x.endSeqno ≠ cfg.state_collection_open ∧
          x.endSeqno = m.greatestEndSeqno) ∧
      ((∀ x ∈ s.entries.take s.entryCount, x.endSeqno = cfg.state_collection_open) →
        m.greatestEndSeqno = cfg.state_collection_open) ∧
      (m.defaultCollectionExists = true ↔
        ∃ x ∈ s.entries.take s.entryCount, x.collectionId = cfg.DefaultCollection ∧
          x.endSeqno = cfg.state_collection_open) := by
  obtain ⟨d, hd, hperm, huid, _⟩ := Manifest.construct_buffer_ok cfg s hcount hnd
  obtain ⟨ht, hcnt, hatt⟩ := Manifest.Settled_construct cfg false (.buffer s) d hd
  have hc := Manifest.Consistent_construct cfg (.buffer s) d hd
  have hfind : ∀ x ∈ s.entries.take s.entryCount,
      container.find d.map x.collectionId =
        some ⟨x.scopeId, x.startSeqno, x.endSeqno, 0⟩ := by
    intro x hx
    apply container.mem_find ht.1
    exact hperm.mem_iff.2 (List.mem_map_of_mem fromSerialised hx)
  have hback : ∀ k e, container.find d.map k = some e →
      ∃ x ∈ s.entries.take s.entryCount, x.collectionId = k ∧ x.endSeqno = e.endSeqno := by
    intro k e hf
    have hmem := hperm.mem_iff.1 (container.find_some_mem hf)
    rw [List.mem_map] at hmem
    obtain ⟨x, hx, hxe⟩ := hmem
    unfold fromSerialised at hxe
    simp only [Prod.mk.injEq] at hxe
    refine ⟨x, hx, hxe.1, ?_⟩
    rw [← hxe.2]
  have hdel : ∀ x : SerialisedManifestEntry,
      (⟨x.scopeId, x.startSeqno, x.endSeqno, 0⟩ : ManifestEntry).isDeleting cfg =
        decide (x.endSeqno ≠ cfg.state_collection_open) := by
    intro x
    simp [ManifestEntry.isDeleting, ManifestEntry.isOpen]
  have hnum : container.countDeleting cfg d.map =
      (s.entries.take s.entryCount).countP
        (fun x => decide (x.endSeqno ≠ cfg.state_collection_open)) := by
    rw [container.countDeleting_perm cfg hperm]
    unfold container.countDeleting
    rw [List.countP_map]
    apply List.countP_congr
    intro x _
    simp [fromSerialised, ManifestEntry.isDeleting, ManifestEntry.isOpen]
  have hbound : ∀ x ∈ s.entries.take s.entryCount, x.endSeqno ≠ cfg.state_collection_open →
      x.endSeqno ≤ d.greatestEndSeqno := by
    intro x hx hne
    have h := hc.2.1 x.collectionId _ (hfind x hx) (by rw [hdel]; simpa using hne)
    exact h
  have hzero : (∀ x ∈ s.entries.take s.entryCount, x.endSeqno = cfg.state_collection_open) →
      d.greatestEndSeqno = cfg.state_collection_open := by
    intro hall
    apply ht.2.2.1
    unfold Manifest.Counted at hcnt
    rw [hcnt, hnum]
    have h0 : (s.entries.take s.entryCount).countP
        (fun x => decide (x.endSeqno ≠ cfg.state_collection_open)) = 0 := by
      rw [List.countP_eq_zero]
      intro x hx
      simp [hall x hx]
    rw [h0]
    rfl
  refine ⟨d, hd, huid, hperm, hfind, ?_, hbound, ?_, hzero, ?_⟩
  · unfold Manifest.Counted at hcnt
    rw [hcnt, hnum]
  · rintro ⟨x, hx, hne⟩
    rcases hatt rfl with hsent | ⟨k, e, hf, hde, hend⟩
    · exfalso
      have h := hbound x hx hne
      have hpos := container.countDeleting_pos cfg d.map x.collectionId _ (hfind x hx)
        (by rw [hdel]; simpa using hne)
      have h0 := ht.2.2.2 hsent
      unfold Manifest.Counted at hcnt
      rw [hcnt] at h0
      have h1 : container.countDeleting cfg d.map = 0 := by exact_mod_cast h0
      omega
    · obtain ⟨y, hy, _, hye⟩ := hback k e hf
      refine ⟨y, hy, ?_, by rw [hye, hend]⟩
      rw [hye]
      simpa [ManifestEntry.isDeleting, ManifestEntry.isOpen] using hde
  · have hmir : d.defaultCollectionExists = true ↔
        ∃ e, container.find d.map cfg.DefaultCollection = some e ∧ e.isOpen cfg = true :=
      hc.2.2
    rw [hmir]
    constructor
    · rintro ⟨e, hf, hopen⟩
      obtain ⟨y, hy, hyk, hye⟩ := hback _ e hf
      refine ⟨y, hy, hyk, ?_⟩
      rw [hye]
      simpa [ManifestEntry.isOpen] using hopen
    · rintro ⟨x, hx, hk, hend⟩
      refine ⟨_, hk ▸ hfind x hx, ?_⟩
      simp [ManifestEntry.isOpen, hend]

theorem Manifest.construct_buffer_state_witness :
    Manifest.construct Config.insertionOrder
      (.buffer SerialisedManifest.sampleTwoDeleting) = .ok Manifest.sampleTwoDeleting ∧
    ∃ m, Manifest.construct Config.insertionOrder
        (.buffer SerialisedManifest.sampleTwoDeleting) = .ok m ∧
      m.manifestUid = 3 ∧
      m.nDeletingCollections = 2 ∧
      (∃ x ∈ SerialisedManifest.sampleTwoDeleting.entries.take 2,
        x.endSeqno ≠ Config.insertionOrder.state_collection_open ∧
          x.endSeqno = m.greatestEndSeqno) := by
  obtain ⟨m, hm, huid, _, _, hn, _, hmax, _, _⟩ :=
    Manifest.construct_buffer_state Config.insertionOrder
      SerialisedManifest.sampleTwoDeleting (by decide) (by decide)
  exact ⟨rfl, m, hm, huid, hn, hmax ⟨⟨0, 10, 0, 0⟩, by decide, by decide⟩⟩

/-! ## The reads of the decode loop -/

theorem Manifest.decodeLoop_in_range (cfg : Config) (entries : List SerialisedManifestEntry) :
    ∀ (n i : Nat) (m : Manifest) (x : Error), i + n ≤ entries.length →
      Manifest.decodeLoop cfg entries n i m = .error x → x = Error.logic_error := by
  intro n
  induction n with
  | zero =>
    intro i m x _ h
    simp [Manifest.decodeLoop] at h
  | succ n ih =>
    intro i m x hlen h
    unfold Manifest.decodeLoop at h
    have hi : i < entries.length := by omega
    rw [List.get?_eq_get hi] at h
    simp only at h
    cases hfind : container.find m.map (entries.get ⟨i, hi⟩).collectionId with
    | some y =>
      rw [Manifest.addNewCollectionEntry_exists cfg m _ _ _ y hfind] at h
      simp only [Except.error.injEq] at h
      exact h.symm
    | none =>
      rw [Manifest.addNewCollectionEntry_eq cfg m _ _ _ hfind] at h
      exact ih (i + 1) _ x (by omega) h

theorem patchLast_length (f : SerialisedManifestEntry → SerialisedManifestEntry) :
    ∀ (l l' : List SerialisedManifestEntry), patchLast f l = some l' →
      l'.length = l.length := by
  intro l
  induction l with
  | nil =>
    intro l' h
    simp [patchLast] at h
  | cons e rest ih =>
    intro l' h
    cases rest with
    | nil =>
      simp only [patchLast, Option.some.injEq] at h
      rw [← h]
      rfl
    | cons e1 rest1 =>
      simp only [patchLast, Option.map_eq_some'] at h
      obtain ⟨l1, hl1, hl'⟩ := h
      rw [← hl', List.length_cons, ih l1 hl1]
      rfl

/-- C30 (as stated, refuted). A verified buffer with the header entryCount 1 and
no entry: the decode loop of the constructor reads the entry at index 0, past
the end of the entries. -/
theorem Manifest.construct_reads_past_entries :
    SerialisedManifest.sampleOvercount.entries.length <
      SerialisedManifest.sampleOvercount.entryCount ∧
    SerialisedManifest.sampleOvercount.entries.get? 0 = none ∧
    Manifest.construct Config.insertionOrder (.buffer SerialisedManifest.sampleOvercount) =
      .error Error.out_of_range :=
  ⟨by decide, rfl, rfl⟩

/-- C30 (amended). For a verified persisted buffer whose header entryCount is
at most the number of its physical entries, the decode loop of the constructor
reads only entries at indices below that number: the constructor returns a
manifest or raises the logic error of a collection id met twice, never the
error of a read past the end. The buffers the manifest code writes are of
this kind: `populateWithSerialisedData` sets entryCount to the number of
entries it writes, and `patchSerialisedData` keeps the number of entries and,
on a buffer with an entryCount of at least one and at most the number of
entries, an entryCount of at most that number. -/
theorem Manifest.decode_reads_in_range (cfg : Config) (s : SerialisedManifest)
    (hcount : s.entryCount ≤ s.entries.length) :
    (∀ x, Manifest.construct cfg (.buffer s) = .error x → x = Error.logic_error) ∧
    Manifest.construct cfg (.buffer s) ≠ .error Error.out_of_range ∧
    (∀ (m : Manifest) (ids : ScopeCollectionPair),
      (m.populateWithSerialisedData cfg ids).entryCount =
        (m.populateWithSerialisedData cfg ids).entries.length ∧
      1 ≤ (m.populateWithSerialisedData cfg ids).entryCount) ∧
    (∀ (item : Item) (B : SerialisedManifest), item.data = .buffer s →
      1 ≤ s.entryCount →
      Manifest.patchSerialisedData cfg item = .ok (.buffer B) →
      B.entries.length = s.entries.length ∧ B.entryCount ≤ B.entries.length) := by
  have hlogic : ∀ x, Manifest.construct cfg (.buffer s) = .error x →
      x = Error.logic_error := by
    intro x h
    unfold Manifest.construct at h
    exact Manifest.decodeLoop_in_range cfg s.entries s.entryCount 0 _ x (by omega) h
  refine ⟨hlogic, ?_, ?_, ?_⟩
  · intro h
    have := hlogic _ h
    cases this
  · intro m ids
    unfold Manifest.populateWithSerialisedData
    simp
  · intro item B hdata hone hpatch
    by_cases hcol : item.flags = SystemEvent.Collection
    · rcases list_nil_or_snoc s.entries with hnil | ⟨X, x, hsnoc⟩
      · rw [hnil] at hcount
        simp only [List.length_nil] at hcount
        omega
      · rw [Manifest.patchSerialisedData_collection cfg item s X x hcol hdata hsnoc] at hpatch
        cases hdel : item.deleted with
        | true =>
          rw [hdel] at hpatch
          simp only [if_true] at hpatch
          cases hm : cfg.mutate_endSeqno x item.bySeqno with
          | false => rw [hm] at hpatch; simp at hpatch
          | true =>
            rw [hm] at hpatch
            simp only [if_true, Except.ok.injEq, PersistedManifest.buffer.injEq] at hpatch
            rw [← hpatch]
            simp only [hsnoc, List.length_append, List.length_singleton, true_and]
            rw [hsnoc] at hcount
            simpa using hcount
        | false =>
          rw [hdel] at hpatch
          simp only [Bool.false_eq_true, if_false] at hpatch
          cases hm : cfg.mutate_startSeqno x item.bySeqno with
          | false => rw [hm] at hpatch; simp at hpatch
          | true =>
            rw [hm] at hpatch
            simp only [if_true, Except.ok.injEq, PersistedManifest.buffer.injEq] at hpatch
            rw [← hpatch]
            simp only [hsnoc, List.length_append, List.length_singleton, true_and]
            rw [hsnoc] at hcount
            simpa using hcount
    · by_cases hhard : item.flags = SystemEvent.DeleteCollectionHard
      · rw [Manifest.patchSerialisedData_hard cfg item s hhard hdata] at hpatch
        cases hm : cfg.mutate_entryCount s
            ((s.entryCount + 4294967296 - 1) % 4294967296) with
        | false => rw [hm] at hpatch; simp at hpatch
        | true =>
          rw [hm] at hpatch
          simp only [if_true, Except.ok.injEq, PersistedManifest.buffer.injEq] at hpatch
          rw [← hpatch]
          refine ⟨rfl, ?_⟩
          show (s.entryCount + 4294967296 - 1) % 4294967296 ≤ s.entries.length
          omega
      · unfold Manifest.patchSerialisedData at hpatch
        rw [if_neg hcol, if_neg hhard, hdata] at hpatch
        simp only [Except.ok.injEq, PersistedManifest.buffer.injEq] at hpatch
        rw [← hpatch]
        exact ⟨rfl, hcount⟩

theorem Manifest.decode_reads_in_range_witness :
    SerialisedManifest.sampleTwoDeleting.entryCount ≤
      SerialisedManifest.sampleTwoDeleting.entries.length ∧
    Manifest.construct Config.insertionOrder
      (.buffer SerialisedManifest.sampleTwoDeleting) ≠ .error Error.out_of_range :=
  ⟨by decide,
    (Manifest.decode_reads_in_range Config.insertionOrder
      SerialisedManifest.sampleTwoDeleting (by decide)).2.1⟩

end VB

end Collections
